import Mathlib

/-!
# Verification of the seed-it extraction and reconciliation engine

Shallow embedding of the core components of the seed-it repository
(`src/generator/deduplicator.ts`, `src/generator/dependency-resolver.ts`,
`src/generator/dependency-fetcher.ts`, `src/generator/auto-column-mapper.ts`,
`src/generator/seeder-generator.ts`, and the AST-based `QueryParser`),
together with proofs of the specification's testable properties.

JavaScript data is modelled as follows: row objects are association lists
`List (String × Value)` (a key absent from the list is JS `undefined`; a key
mapped to `Value.vNull` is JS `null`); `Set` and `Map` are lists with
insertion-order semantics (`add`/`set` keeps the first insertion position);
the database pool is an explicit oracle function.  All definitions are
executable.
-/

namespace SeedIt

/-- A primitive captured SQL value. -/
inductive Prim where
  | pNull
  | pInt (n : Int)
  | pStr (s : String)
  | pBool (b : Bool)
deriving DecidableEq, Repr

/-- A captured SQL value: the subset of JS values the engine stores in rows
(scalars, and flat arrays as produced by `array_agg`). -/
inductive Value where
  | prim (p : Prim)
  | arr (elems : List Prim)
deriving DecidableEq, Repr

/-- JS `null`. -/
def Value.vNull : Value := .prim .pNull

/-- An integer value. -/
def Value.vInt (n : Int) : Value := .prim (.pInt n)

/-- A string value. -/
def Value.vStr (s : String) : Value := .prim (.pStr s)

/-- A boolean value. -/
def Value.vBool (b : Bool) : Value := .prim (.pBool b)

/-- A row object: insertion-ordered association list from column name to value. -/
abbrev Row := List (String × Value)

/-- `row[k]` : `none` models JS `undefined`, `some vNull` models JS `null`. -/
def rowGet (r : Row) (k : String) : Option Value :=
  (r.find? (fun p => p.fst == k)).map (·.snd)

/-- JS `String(p)` on a primitive value. -/
def primString : Prim → String
  | .pNull => "null"
  | .pInt n => toString n
  | .pStr s => s
  | .pBool b => if b then "true" else "false"

/-- JS `String(v)` on the values above (arrays join with commas). -/
def jsString : Value → String
  | .prim p => primString p
  | .arr elems => String.intercalate "," (elems.map primString)

/-- JS `Set.add` : append if absent, keeping first-insertion order. -/
def setAdd {α : Type} [DecidableEq α] (s : List α) (x : α) : List α :=
  if x ∈ s then s else s ++ [x]

/-- JS `Map.set` on an association list: overwrite in place, else append. -/
def mapSet {α β : Type} [DecidableEq α] (m : List (α × β)) (k : α) (v : β) :
    List (α × β) :=
  if (m.map Prod.fst).contains k then
    m.map (fun p => if p.fst = k then (k, v) else p)
  else m ++ [(k, v)]

/-- JS `Map.get` on an association list. -/
def mapGet {α β : Type} [DecidableEq α] (m : List (α × β)) (k : α) : Option β :=
  (m.find? (fun p => p.fst = k)).map (·.snd)

/-- `foreignKeys` entry of a `TableSchema` (src/types.ts). -/
structure ForeignKeyInfo where
  columnName : String
  referencedTable : String
  referencedColumn : String
deriving DecidableEq, Repr

/-- `indexes` entry of a `TableSchema` (src/types.ts). -/
structure IndexInfo where
  indexName : String
  columns : List String
  isUnique : Bool
  isPrimary : Bool
deriving DecidableEq, Repr

/-- A table schema; `columns` keeps just the column names (the engine only
reads `columns[].columnName` in the code under verification). -/
structure TableSchema where
  tableName : String
  columns : List String
  primaryKeys : List String
  foreignKeys : List ForeignKeyInfo
  indexes : List IndexInfo
deriving DecidableEq, Repr

/-! ## Row Deduplicator (`src/generator/deduplicator.ts`) -/

/-- `Deduplicator.hashRow`.  The SHA-256 digest is modelled by the exact string
fed to the hash (`keyValues.join('|')` over the key columns, `null`/`undefined`
normalised to `'NULL'`); equal digests correspond to equal key strings. -/
def hashRow (row : Row) (pkColumns : List String) : String :=
  let keyColumns :=
    if pkColumns.length > 0 then pkColumns
    else (row.map Prod.fst).insertionSort (· ≤ ·)
  let keyValues := keyColumns.map (fun col =>
    match rowGet row col with
    | none => "NULL"
    | some (.prim .pNull) => "NULL"
    | some v => jsString v)
  String.intercalate "|" keyValues

/-- Loop of `Deduplicator.deduplicateTable`: `seen` is the JS `Set` of hashes,
`unique` the accumulated output. -/
def dedupGo (pk : List String) : List Row → List String → List Row → List Row
  | [], _, unique => unique
  | r :: rest, seen, unique =>
    let h := hashRow r pk
    if h ∈ seen then dedupGo pk rest seen unique
    else dedupGo pk rest (seen ++ [h]) (unique ++ [r])

/-- `Deduplicator.deduplicateTable`. -/
def deduplicateTable (rows : List Row) (schema : TableSchema) : List Row :=
  dedupGo schema.primaryKeys rows [] []

/-- `Deduplicator.deduplicateAll`: per table, rows are deduplicated when the
table has a schema and kept unchanged otherwise. -/
def deduplicateAll (rowsByTable : List (String × List Row))
    (schemas : List TableSchema) : List (String × List Row) :=
  rowsByTable.map (fun p =>
    match schemas.find? (fun s => s.tableName == p.fst) with
    | some schema => (p.fst, deduplicateTable p.snd schema)
    | none => p)

/-- Specification-side description of first-occurrence filtering: keep each
row whose hash has not appeared on an earlier row, in original order.  Written
independently of the seen-set loop, to be compared with `deduplicateTable`. -/
def firstOccurrencesBy (h : Row → String) : List Row → List Row
  | [] => []
  | r :: rest => r :: firstOccurrencesBy h (rest.filter (fun r' => h r' ≠ h r))
termination_by l => l.length
decreasing_by
  simp only [List.length_cons]
  exact Nat.lt_succ_of_le (rest.length_filter_le _)

theorem dedupGo_eq (pk : List String) :
    ∀ (rows : List Row) (seen : List String) (unique : List Row),
      dedupGo pk rows seen unique =
        unique ++ firstOccurrencesBy (fun r => hashRow r pk)
          (rows.filter (fun r => hashRow r pk ∉ seen)) := by
  intro rows
  induction rows with
  | nil => intro seen unique; simp [dedupGo, firstOccurrencesBy]
  | cons r rest ih =>
    intro seen unique
    simp only [dedupGo, List.filter_cons]
    by_cases hmem : hashRow r pk ∈ seen
    · rw [if_pos hmem, ih]
      have hdec : decide (hashRow r pk ∉ seen) = false := by simpa using hmem
      rw [hdec]
      simp
    · rw [if_neg hmem, ih]
      have hdec : decide (hashRow r pk ∉ seen) = true := by simpa using hmem
      rw [hdec]
      simp only [if_true]
      rw [firstOccurrencesBy, List.append_assoc, List.singleton_append]
      have hfilter :
          rest.filter (fun r' => decide (hashRow r' pk ∉ seen ++ [hashRow r pk])) =
            (rest.filter (fun r' => decide (hashRow r' pk ∉ seen))).filter
              (fun r' => decide (hashRow r' pk ≠ hashRow r pk)) := by
        rw [List.filter_filter]
        apply List.filter_congr
        intro x _
        simp only [List.mem_append, List.mem_singleton, decide_not,
          Bool.not_eq_true', decide_eq_false_iff_not, not_or, ← Bool.decide_and]
        simp [and_comm]
      rw [hfilter]

theorem firstOccurrencesBy_sublist (h : Row → String) :
    ∀ l : List Row, (firstOccurrencesBy h l).Sublist l := by
  intro l
  induction l using firstOccurrencesBy.induct h with
  | case1 => simp [firstOccurrencesBy]
  | case2 r rest ih =>
    rw [firstOccurrencesBy]
    exact (ih.trans (List.filter_sublist _)).cons₂ r

/-- C7: `deduplicateTable` never increases the row count, returns a
subsequence of its input, and keeps exactly the first occurrence of each
distinct `hashRow` value. -/
theorem deduplicateTable_firstOccurrences (rows : List Row)
    (schema : TableSchema) :
    (deduplicateTable rows schema).length ≤ rows.length ∧
      (deduplicateTable rows schema).Sublist rows ∧
      deduplicateTable rows schema =
        firstOccurrencesBy (fun r => hashRow r schema.primaryKeys) rows := by
  have heq : deduplicateTable rows schema =
      firstOccurrencesBy (fun r => hashRow r schema.primaryKeys) rows := by
    rw [deduplicateTable, dedupGo_eq]
    simp
  refine ⟨?_, ?_, heq⟩
  · rw [heq]; exact (firstOccurrencesBy_sublist _ rows).length_le
  · rw [heq]; exact firstOccurrencesBy_sublist _ rows

/-! ## Dependency Graph Resolver (`src/generator/dependency-resolver.ts`) -/

/-- `DependencyGraph` (src/types.ts): `nodes` is the JS `Set` of table names,
`edges` the JS `Map` from a table to the `Set` of tables it references. -/
structure DependencyGraph where
  nodes : List String
  edges : List (String × List String)
deriving DecidableEq, Repr

/-- `graph.edges.get(k)?.add(v)`: mutate the value set at `k` when present. -/
def addToEdge (ed : List (String × List String)) (k v : String) :
    List (String × List String) :=
  ed.map (fun p => if p.fst = k then (p.fst, setAdd p.snd v) else p)

/-- First loop of `DependencyResolver.buildGraph`: register every schema's
node and give it an empty edge set. -/
def initGraph : List TableSchema → List String × List (String × List String) →
    List String × List (String × List String)
  | [], acc => acc
  | s :: rest, (ns, ed) =>
    initGraph rest (setAdd ns s.tableName, mapSet ed s.tableName [])

/-- Inner loop of `buildGraph`'s second pass: add one schema's non-self
foreign keys as edges. -/
def addFksOf (name : String) : List ForeignKeyInfo →
    List (String × List String) → List (String × List String)
  | [], ed => ed
  | fk :: fks, ed =>
    addFksOf name fks
      (if fk.referencedTable ≠ name then addToEdge ed name fk.referencedTable
       else ed)

/-- Second loop of `buildGraph`. -/
def addFkEdges : List TableSchema → List (String × List String) →
    List (String × List String)
  | [], ed => ed
  | s :: rest, ed => addFkEdges rest (addFksOf s.tableName s.foreignKeys ed)

/-- `DependencyResolver.buildGraph`. -/
def buildGraph (schemas : List TableSchema) : DependencyGraph :=
  let init := initGraph schemas ([], [])
  { nodes := init.fst, edges := addFkEdges schemas init.snd }

/-- The dependency set of a node (`graph.edges.get(node) || new Set()`). -/
def deps (g : DependencyGraph) (n : String) : List String :=
  (mapGet g.edges n).getD []

/-- `b ∈ graph.edges.get(a)` : table `a` references table `b`. -/
def Edge (g : DependencyGraph) (a b : String) : Prop :=
  b ∈ deps g a

instance (g : DependencyGraph) (a b : String) : Decidable (Edge g a b) := by
  unfold Edge; infer_instance

/-- The graph has no directed cycle (no node reaches itself through edges). -/
def Acyclic (g : DependencyGraph) : Prop :=
  ∀ n, ¬ Relation.TransGen (fun a b => Edge g a b) n n

/-- State of the Kahn loop in `topologicalSort`: output list, work queue,
and the in-degree `Map` (JS numbers, which the `|| 0` arithmetic can drive
negative, are modelled as `Int`). -/
structure KahnState where
  sorted : List String
  queue : List String
  inDegree : List (String × Int)
deriving Repr

/-- Second loop of `topologicalSort`: fold one node's dependency set into the
reverse adjacency list and the in-degree map. -/
def addDegrees (node : String) (ds : List String)
    (acc : List (String × List String) × List (String × Int)) :
    List (String × List String) × List (String × Int) :=
  ds.foldl (fun acc dep =>
      (addToEdge acc.fst dep node,
       mapSet acc.snd node (((mapGet acc.snd node).getD 0) + 1)))
    acc

/-- Builds `adjList` and `inDegree` from the graph (init + second loop of
`topologicalSort`). -/
def buildAdjIndeg (g : DependencyGraph) :
    List (String × List String) × List (String × Int) :=
  g.edges.foldl (fun acc p => addDegrees p.fst p.snd acc)
    (g.nodes.map (fun n => (n, [])), g.nodes.map (fun n => (n, (0 : Int))))

/-- Body of the `while` loop of `topologicalSort`: pop one node, append it to
the output, decrement its dependents, enqueue those that reach zero. -/
def kahnStep (adj : List (String × List String)) (st : KahnState) : KahnState :=
  match st.queue with
  | [] => st
  | node :: rest =>
    let step := ((mapGet adj node).getD []).foldl
      (fun (acc : List (String × Int) × List String) dependent =>
        let newDeg := ((mapGet acc.fst dependent).getD 0) - 1
        (mapSet acc.fst dependent newDeg,
         if newDeg = 0 then acc.snd ++ [dependent] else acc.snd))
      (st.inDegree, rest)
    { sorted := st.sorted ++ [node], queue := step.snd, inDegree := step.fst }

/-- The fuel-indexed `while queue.length > 0` loop. -/
def kahnLoop (adj : List (String × List String)) :
    Nat → KahnState → KahnState
  | 0, st => st
  | fuel + 1, st =>
    match st.queue with
    | [] => st
    | _ :: _ => kahnLoop adj fuel (kahnStep adj st)

/-- `DependencyResolver.topologicalSort`.  The JS loop runs until the queue
drains; `g.nodes.length + 1` fuel provably suffices (each iteration moves one
node to `sorted`, and `sorted` stays a duplicate-free sublist of the nodes). -/
def topologicalSort (g : DependencyGraph) : List String :=
  let ai := buildAdjIndeg g
  let queue0 := (ai.snd.filter (fun p => p.snd = 0)).map Prod.fst
  let stF := kahnLoop ai.fst (g.nodes.length + 1)
    { sorted := [], queue := queue0, inDegree := ai.snd }
  if stF.sorted.length ≠ g.nodes.length then
    stF.sorted ++ g.nodes.filter (fun n => n ∉ stF.sorted)
  else stF.sorted

/-- State of the DFS in `detectCircularDependencies`. -/
structure DfsState where
  visited : List String
  recStack : List String
  cycles : List (List String)
deriving Repr

/-- One pending call of the `detectCircularDependencies` DFS: either
`dfs(node, path)` itself, or the remainder of its `for (const dep of
dependencies)` loop. -/
inductive DfsCall where
  | node (n : String) (path : List String)
  | deps (ds : List String) (path1 : List String)
deriving DecidableEq, Repr

/-- The DFS of `detectCircularDependencies`, fuel-indexed (one unit per
call; the memoised `visited` set bounds the real depth).  `.node` marks the
node visited, pushes it on the recursion stack and the path, and scans its
dependencies; `.deps` steps the dependency loop: an unvisited `dep`
recurses, a visited `dep` on the recursion stack records
`path.slice(path.indexOf(dep))` plus `dep` (JS `indexOf` returns `-1` when
absent, making `slice` keep only the last element). -/
def dfsRun (g : DependencyGraph) : Nat → DfsCall → DfsState → DfsState
  | 0, _, st => st
  | fuel + 1, .node node path, st =>
    let st1 : DfsState :=
      { st with visited := setAdd st.visited node,
                recStack := setAdd st.recStack node }
    let st2 := dfsRun g fuel (.deps (deps g node) (path ++ [node])) st1
    { st2 with recStack := st2.recStack.erase node }
  | _ + 1, .deps [] _, st => st
  | fuel + 1, .deps (dep :: ds) path1, st =>
    let st' :=
      if dep ∉ st.visited then dfsRun g fuel (.node dep path1) st
      else if dep ∈ st.recStack then
        let cyc :=
          (if dep ∈ path1 then path1.drop (path1.indexOf dep)
           else path1.drop (path1.length - 1)) ++ [dep]
        { st with cycles := st.cycles ++ [cyc] }
      else st
    dfsRun g fuel (.deps ds path1) st'

/-- Fuel that covers the deepest possible DFS call chain: each nesting level
either enters an unvisited node or steps a dependency loop. -/
def dfsFuel (g : DependencyGraph) : Nat :=
  (g.nodes.length + (g.edges.map (fun p => p.snd.length)).sum + 1) *
    (g.nodes.length + (g.edges.map (fun p => p.snd.length)).sum + 1)

/-- `DependencyResolver.detectCircularDependencies`. -/
def detectCircularDependencies (g : DependencyGraph) : List (List String) :=
  (g.nodes.foldl
      (fun st node =>
        if node ∉ st.visited then dfsRun g (dfsFuel g) (.node node []) st
        else st)
      ⟨[], [], []⟩).cycles

/-- `DependencyResolver.getSelfReferencingTables`. -/
def getSelfReferencingTables (schemas : List TableSchema) : List String :=
  (schemas.filter
      (fun s => s.foreignKeys.any (fun fk => fk.referencedTable == s.tableName))).map
    (·.tableName)

/-- State of the `visit` closure in `sortRows`: the `visited` `Set` of
primary-key values (JS `undefined` is its own key, modelled `none`) and the
output list. -/
structure VisitState where
  visitedIds : List (Option Value)
  sorted : List Row
deriving Repr

/-- The parent row a `visit` call recurses into: the row's self-FK value,
when neither `null` nor `undefined`, looked up in `rowMap`. -/
def parentOf (rowMap : List (Option Value × Row)) (fkCol : String) (r : Row) :
    Option Row :=
  match rowGet r fkCol with
  | none => none
  | some (.prim .pNull) => none
  | some pv => mapGet rowMap (some pv)

/-- `visit(row)` of `DependencyResolver.sortRows` (fuel-indexed; the memo
guarantees the real recursion depth is bounded by the number of distinct
primary-key values). -/
def visitRow (rowMap : List (Option Value × Row)) (fkCol pk : String) :
    Nat → Row → VisitState → VisitState
  | 0, _, st => st
  | fuel + 1, row, st =>
    let id := rowGet row pk
    if id ∈ st.visitedIds then st
    else
      let st1 : VisitState := { st with visitedIds := st.visitedIds ++ [id] }
      let st2 :=
        match parentOf rowMap fkCol row with
        | some parent => visitRow rowMap fkCol pk fuel parent st1
        | none => st1
      { st2 with sorted := st2.sorted ++ [row] }

/-- The `rowMap` of `sortRows`: JS `Map.set` keeps the first insertion
position but the last value per key, keyed by `row[pk]` (possibly
`undefined`). -/
def buildRowMap (rows : List Row) (pk : String) : List (Option Value × Row) :=
  rows.foldl (fun m row => mapSet m (rowGet row pk) row) []

/-- `DependencyResolver.sortRows`.  The first self-referencing FK and the
first primary-key column drive the memoised DFS; without a self-FK or with a
falsy primary-key name the rows are returned unchanged. -/
def sortRows (table : String) (rows : List Row) (schema : TableSchema) :
    List Row :=
  match schema.foreignKeys.filter (fun fk => fk.referencedTable == table) with
  | [] => rows
  | fk :: _ =>
    match schema.primaryKeys with
    | [] => rows
    | pk :: _ =>
      if pk = "" then rows
      else
        let rowMap := buildRowMap rows pk
        (rows.foldl
            (fun st row => visitRow rowMap fk.columnName pk (rows.length + 1) row st)
            ⟨[], []⟩).sorted

/-! ### Generic lemmas about the JS `Set`/`Map` model -/

theorem mem_setAdd {α : Type} [DecidableEq α] {s : List α} {x y : α} :
    y ∈ setAdd s x ↔ y ∈ s ∨ y = x := by
  unfold setAdd
  by_cases h : x ∈ s
  · simp only [if_pos h]
    constructor
    · exact Or.inl
    · rintro (hy | rfl) <;> [exact hy; exact h]
  · simp [if_neg h]

theorem nodup_setAdd {α : Type} [DecidableEq α] {s : List α} (x : α)
    (h : s.Nodup) : (setAdd s x).Nodup := by
  unfold setAdd
  by_cases hx : x ∈ s
  · simpa [if_pos hx]
  · simpa [if_neg hx, List.nodup_append, h] using hx

theorem mapGet_nil {α β : Type} [DecidableEq α] (k : α) :
    mapGet ([] : List (α × β)) k = none := rfl

theorem mapGet_cons {α β : Type} [DecidableEq α] (p : α × β)
    (m : List (α × β)) (k : α) :
    mapGet (p :: m) k = if p.fst = k then some p.snd else mapGet m k := by
  unfold mapGet
  by_cases h : p.fst = k
  · simp [List.find?_cons, h]
  · simp [List.find?_cons, h]

theorem mapGet_isSome_iff {α β : Type} [DecidableEq α] (m : List (α × β))
    (k : α) : (mapGet m k).isSome ↔ k ∈ m.map Prod.fst := by
  induction m with
  | nil => simp [mapGet_nil]
  | cons p rest ih =>
    rw [mapGet_cons]
    by_cases h : p.fst = k
    · simp [h]
    · simp only [if_neg h, List.map_cons, List.mem_cons, ih]
      constructor
      · exact Or.inr
      · rintro (hk | hk)
        · exact absurd hk.symm h
        · exact hk

theorem mapGet_eq_none_iff {α β : Type} [DecidableEq α] (m : List (α × β))
    (k : α) : mapGet m k = none ↔ k ∉ m.map Prod.fst := by
  rw [← mapGet_isSome_iff]
  cases mapGet m k <;> simp

theorem keys_mapSet_of_mem {α β : Type} [DecidableEq α] {m : List (α × β)}
    {k : α} (v : β) (h : k ∈ m.map Prod.fst) :
    (mapSet m k v).map Prod.fst = m.map Prod.fst := by
  unfold mapSet
  rw [if_pos (by simpa using h)]
  rw [List.map_map]
  apply List.map_congr_left
  intro p _
  by_cases hp : p.fst = k <;> simp [hp]

theorem keys_mapSet_of_not_mem {α β : Type} [DecidableEq α]
    {m : List (α × β)} {k : α} (v : β) (h : k ∉ m.map Prod.fst) :
    (mapSet m k v).map Prod.fst = m.map Prod.fst ++ [k] := by
  unfold mapSet
  rw [if_neg (by simpa using h)]
  simp

theorem mapGet_mapSet_self {α β : Type} [DecidableEq α] (m : List (α × β))
    (k : α) (v : β) : mapGet (mapSet m k v) k = some v := by
  unfold mapSet
  by_cases h : k ∈ m.map Prod.fst
  · rw [if_pos (by simpa using h)]
    induction m with
    | nil => simp at h
    | cons p rest ih =>
      by_cases hp : p.fst = k
      · simp [mapGet_cons, hp]
      · simp only [List.map_cons, List.mem_cons] at h
        rcases h with h | h
        · exact absurd h.symm hp
        · simpa [mapGet_cons, hp] using ih h
  · rw [if_neg (by simpa using h)]
    induction m with
    | nil => simp [mapGet_cons]
    | cons p rest ih =>
      simp only [List.map_cons, List.mem_cons, not_or] at h
      have hp : p.fst ≠ k := fun hc => h.1 hc.symm
      simpa [List.cons_append, mapGet_cons, hp] using ih h.2

theorem mapGet_append_single_ne {α β : Type} [DecidableEq α]
    (m : List (α × β)) {k k' : α} (v : β) (h : k' ≠ k) :
    mapGet (m ++ [(k, v)]) k' = mapGet m k' := by
  induction m with
  | nil =>
    rw [List.nil_append, mapGet_cons, mapGet_nil]
    exact if_neg (fun hc => h hc.symm)
  | cons p rest ih =>
    rw [List.cons_append, mapGet_cons, mapGet_cons, ih]

theorem mapGet_mapSet_ne {α β : Type} [DecidableEq α] (m : List (α × β))
    {k k' : α} (v : β) (h : k' ≠ k) :
    mapGet (mapSet m k v) k' = mapGet m k' := by
  unfold mapSet
  by_cases hk : k ∈ m.map Prod.fst
  · rw [if_pos (by simpa using hk)]
    clear hk
    induction m with
    | nil => rfl
    | cons p rest ih =>
      rw [List.map_cons, mapGet_cons, mapGet_cons]
      by_cases hp : p.fst = k
      · have hk' : (if p.fst = k then (k, v) else p).fst ≠ k' := by
          rw [if_pos hp]; exact fun hc => h hc.symm
        have hpk' : p.fst ≠ k' := fun hc => h (hc.symm.trans hp)
        rw [if_neg hk', if_neg hpk', ih]
      · rw [if_neg hp]
        by_cases hpk : p.fst = k'
        · rw [if_pos hpk, if_pos hpk]
        · rw [if_neg hpk, if_neg hpk, ih]
  · rw [if_neg (by simpa using hk)]
    exact mapGet_append_single_ne m v h

theorem keys_addToEdge (ed : List (String × List String)) (k v : String) :
    (addToEdge ed k v).map Prod.fst = ed.map Prod.fst := by
  unfold addToEdge
  rw [List.map_map]
  apply List.map_congr_left
  intro p _
  by_cases hp : p.fst = k <;> simp [hp]

theorem mapGet_addToEdge_self (ed : List (String × List String))
    (k v : String) :
    mapGet (addToEdge ed k v) k = (mapGet ed k).map (fun s => setAdd s v) := by
  induction ed with
  | nil => rfl
  | cons p rest ih =>
    unfold addToEdge at ih ⊢
    rw [List.map_cons, mapGet_cons, mapGet_cons]
    by_cases hp : p.fst = k
    · simp [hp]
    · simp [hp, ih]

theorem mapGet_addToEdge_ne (ed : List (String × List String))
    {k k' : String} (v : String) (h : k' ≠ k) :
    mapGet (addToEdge ed k v) k' = mapGet ed k' := by
  induction ed with
  | nil => rfl
  | cons p rest ih =>
    unfold addToEdge at ih ⊢
    rw [List.map_cons, mapGet_cons, mapGet_cons]
    by_cases hp : p.fst = k
    · have hk' : (if p.fst = k then (p.fst, setAdd p.snd v) else p).fst ≠ k' := by
        rw [if_pos hp, hp]; exact fun hc => h hc.symm
      have hpk' : p.fst ≠ k' := fun hc => h (hc.symm.trans hp)
      rw [if_neg hk', if_neg hpk', ih]
    · have heq : (if p.fst = k then (p.fst, setAdd p.snd v) else p) = p :=
        if_neg hp
      rw [heq]
      by_cases hpk : p.fst = k'
      · rw [if_pos hpk, if_pos hpk]
      · rw [if_neg hpk, if_neg hpk, ih]

theorem mapGet_map_const {α β : Type} [DecidableEq α] (l : List α) (c : β)
    (k : α) :
    mapGet (l.map (fun n => (n, c))) k = if k ∈ l then some c else none := by
  induction l with
  | nil => simp [mapGet_nil]
  | cons a rest ih =>
    by_cases ha : a = k
    · simp [mapGet_cons, ha]
    · simp only [List.map_cons, mapGet_cons, if_neg ha, ih, List.mem_cons]
      by_cases hk : k ∈ rest <;> simp [hk, Ne.symm ha]

/-! ### Characterisation of `buildGraph` -/

/-- The dependency list stored for `n` in an edge map. -/
def valOf (ed : List (String × List String)) (n : String) : List String :=
  (mapGet ed n).getD []

theorem initGraph_spec :
    ∀ (ss : List TableSchema) (ns : List String)
      (ed : List (String × List String)),
      ed.map Prod.fst = ns → ns.Nodup →
      (∀ p ∈ ed, p.snd = ([] : List String)) →
      (initGraph ss (ns, ed)).snd.map Prod.fst = (initGraph ss (ns, ed)).fst ∧
        (initGraph ss (ns, ed)).fst.Nodup ∧
        (∀ p ∈ (initGraph ss (ns, ed)).snd, p.snd = ([] : List String)) ∧
        (∀ x, x ∈ (initGraph ss (ns, ed)).fst ↔
          x ∈ ns ∨ ∃ t ∈ ss, t.tableName = x) := by
  intro ss
  induction ss with
  | nil =>
    intro ns ed hkeys hnd hval
    refine ⟨hkeys, hnd, hval, ?_⟩
    simp [initGraph]
  | cons s rest ih =>
    intro ns ed hkeys hnd hval
    have hkeys' : (mapSet ed s.tableName []).map Prod.fst =
        setAdd ns s.tableName := by
      by_cases hmem : s.tableName ∈ ns
      · rw [keys_mapSet_of_mem _ (hkeys ▸ hmem), hkeys]
        unfold setAdd
        rw [if_pos hmem]
      · rw [keys_mapSet_of_not_mem _ (by rw [hkeys]; exact hmem), hkeys]
        unfold setAdd
        rw [if_neg hmem]
    have hval' : ∀ p ∈ mapSet ed s.tableName ([] : List String),
        p.snd = ([] : List String) := by
      intro p hp
      unfold mapSet at hp
      by_cases hc : (ed.map Prod.fst).contains s.tableName
      · rw [if_pos hc] at hp
        rcases List.mem_map.mp hp with ⟨q, hq, rfl⟩
        by_cases hqf : q.fst = s.tableName
        · simp [hqf]
        · simpa [hqf] using hval q hq
      · rw [if_neg hc] at hp
        rcases List.mem_append.mp hp with hq | hq
        · exact hval p hq
        · rcases List.mem_singleton.mp hq with rfl
          rfl
    have := ih (setAdd ns s.tableName) (mapSet ed s.tableName []) hkeys'
      (nodup_setAdd _ hnd) hval'
    refine ⟨this.1, this.2.1, this.2.2.1, ?_⟩
    intro x
    rw [show initGraph (s :: rest) (ns, ed) =
      initGraph rest (setAdd ns s.tableName, mapSet ed s.tableName []) from rfl]
    rw [this.2.2.2 x]
    constructor
    · rintro (hx | hx)
      · rcases mem_setAdd.mp hx with hx | rfl
        · exact Or.inl hx
        · exact Or.inr ⟨s, List.mem_cons_self _ _, rfl⟩
      · rcases hx with ⟨t, ht, rfl⟩
        exact Or.inr ⟨t, List.mem_cons_of_mem _ ht, rfl⟩
    · rintro (hx | ⟨t, ht, rfl⟩)
      · exact Or.inl (mem_setAdd.mpr (Or.inl hx))
      · rcases List.mem_cons.mp ht with rfl | ht
        · exact Or.inl (mem_setAdd.mpr (Or.inr rfl))
        · exact Or.inr ⟨t, ht, rfl⟩

theorem keys_addFksOf (name : String) :
    ∀ (fks : List ForeignKeyInfo) (ed : List (String × List String)),
      (addFksOf name fks ed).map Prod.fst = ed.map Prod.fst := by
  intro fks
  induction fks with
  | nil => intro ed; rfl
  | cons fk rest ih =>
    intro ed
    show (addFksOf name rest _).map Prod.fst = _
    rw [ih]
    by_cases hfk : fk.referencedTable ≠ name
    · rw [if_pos hfk, keys_addToEdge]
    · rw [if_neg hfk]

theorem valOf_addToEdge (ed : List (String × List String)) (k v n : String) :
    valOf (addToEdge ed k v) n =
      if n = k ∧ k ∈ ed.map Prod.fst then setAdd (valOf ed k) v
      else valOf ed n := by
  by_cases hn : n = k
  · subst hn
    by_cases hk : n ∈ ed.map Prod.fst
    · rw [if_pos ⟨rfl, hk⟩]
      unfold valOf
      rw [mapGet_addToEdge_self]
      rcases Option.isSome_iff_exists.mp ((mapGet_isSome_iff ed n).mpr hk) with
        ⟨s, hs⟩
      rw [hs]
      rfl
    · rw [if_neg (fun h => hk h.2)]
      unfold valOf
      rw [mapGet_addToEdge_self]
      rw [(mapGet_eq_none_iff ed n).mpr hk]
      rfl
  · rw [if_neg (fun h => hn h.1)]
    unfold valOf
    rw [mapGet_addToEdge_ne _ _ hn]

theorem mem_valOf_addFksOf (name : String) :
    ∀ (fks : List ForeignKeyInfo) (ed : List (String × List String))
      (n b : String),
      b ∈ valOf (addFksOf name fks ed) n ↔
        b ∈ valOf ed n ∨
          (name = n ∧ n ∈ ed.map Prod.fst ∧
            ∃ fk ∈ fks, fk.referencedTable = b ∧ b ≠ name) := by
  intro fks
  induction fks with
  | nil =>
    intro ed n b
    simp [addFksOf]
  | cons fk rest ih =>
    intro ed n b
    show b ∈ valOf (addFksOf name rest _) n ↔ _
    by_cases hfk : fk.referencedTable ≠ name
    · rw [if_pos hfk, ih, keys_addToEdge, valOf_addToEdge]
      by_cases hcase : n = name ∧ name ∈ ed.map Prod.fst
      · rw [if_pos hcase]
        rcases hcase with ⟨rfl, hmem⟩
        rw [mem_setAdd]
        constructor
        · rintro ((hb | rfl) | ⟨_, _, fk', hfk', rfl, hnm⟩)
          · exact Or.inl hb
          · exact Or.inr ⟨rfl, hmem,
              fk, List.mem_cons_self _ _, rfl, hfk⟩
          · exact Or.inr ⟨rfl, hmem, fk', List.mem_cons_of_mem _ hfk', rfl, hnm⟩
        · rintro (hb | ⟨_, _, fk', hfk', rfl, hnm⟩)
          · exact Or.inl (Or.inl hb)
          · rcases List.mem_cons.mp hfk' with rfl | hfk'
            · exact Or.inl (Or.inr rfl)
            · exact Or.inr ⟨rfl, hmem, fk', hfk', rfl, hnm⟩
      · rw [if_neg hcase]
        constructor
        · rintro (hb | ⟨rfl, hmem, fk', hfk', rfl, hnm⟩)
          · exact Or.inl hb
          · exact absurd ⟨rfl, hmem⟩ hcase
        · rintro (hb | ⟨rfl, hmem, fk', hfk', rfl, hnm⟩)
          · exact Or.inl hb
          · exact absurd ⟨rfl, hmem⟩ hcase
    · rw [if_neg hfk, ih]
      push_neg at hfk
      constructor
      · rintro (hb | ⟨rfl, hmem, fk', hfk', rfl, hnm⟩)
        · exact Or.inl hb
        · exact Or.inr ⟨rfl, hmem, fk', List.mem_cons_of_mem _ hfk', rfl, hnm⟩
      · rintro (hb | ⟨rfl, hmem, fk', hfk', rfl, hnm⟩)
        · exact Or.inl hb
        · rcases List.mem_cons.mp hfk' with rfl | hfk'
          · exact absurd hfk hnm
          · exact Or.inr ⟨rfl, hmem, fk', hfk', rfl, hnm⟩

theorem keys_addFkEdges :
    ∀ (ss : List TableSchema) (ed : List (String × List String)),
      (addFkEdges ss ed).map Prod.fst = ed.map Prod.fst := by
  intro ss
  induction ss with
  | nil => intro ed; rfl
  | cons s rest ih =>
    intro ed
    show (addFkEdges rest _).map Prod.fst = _
    rw [ih, keys_addFksOf]

theorem mem_valOf_addFkEdges :
    ∀ (ss : List TableSchema) (ed : List (String × List String))
      (n b : String),
      b ∈ valOf (addFkEdges ss ed) n ↔
        b ∈ valOf ed n ∨
          ∃ t ∈ ss, t.tableName = n ∧ n ∈ ed.map Prod.fst ∧
            ∃ fk ∈ t.foreignKeys, fk.referencedTable = b ∧ b ≠ n := by
  intro ss
  induction ss with
  | nil =>
    intro ed n b
    simp [addFkEdges]
  | cons s rest ih =>
    intro ed n b
    show b ∈ valOf (addFkEdges rest _) n ↔ _
    rw [ih, mem_valOf_addFksOf, keys_addFksOf]
    constructor
    · rintro ((hb | ⟨heq, hmem, fk, hfk, rfl, hnm⟩) |
        ⟨t, ht, rfl, hmem, fk, hfk, rfl, hnm⟩)
      · exact Or.inl hb
      · exact Or.inr ⟨s, List.mem_cons_self _ _, heq, hmem, fk, hfk, rfl,
          heq ▸ hnm⟩
      · exact Or.inr ⟨t, List.mem_cons_of_mem _ ht, rfl, hmem, fk, hfk, rfl, hnm⟩
    · rintro (hb | ⟨t, ht, rfl, hmem, fk, hfk, rfl, hnm⟩)
      · exact Or.inl (Or.inl hb)
      · rcases List.mem_cons.mp ht with rfl | ht
        · exact Or.inl (Or.inr ⟨rfl, hmem, fk, hfk, rfl, hnm⟩)
        · exact Or.inr ⟨t, ht, rfl, hmem, fk, hfk, rfl, hnm⟩

theorem buildGraph_nodes_nodup (ss : List TableSchema) :
    (buildGraph ss).nodes.Nodup :=
  (initGraph_spec ss [] [] rfl List.nodup_nil (by simp)).2.1

theorem mem_buildGraph_nodes (ss : List TableSchema) (x : String) :
    x ∈ (buildGraph ss).nodes ↔ ∃ t ∈ ss, t.tableName = x := by
  have := (initGraph_spec ss [] [] rfl List.nodup_nil (by simp)).2.2.2 x
  simpa [buildGraph] using this

theorem buildGraph_keys (ss : List TableSchema) :
    (buildGraph ss).edges.map Prod.fst = (buildGraph ss).nodes := by
  show (addFkEdges ss (initGraph ss ([], [])).snd).map Prod.fst = _
  rw [keys_addFkEdges]
  exact (initGraph_spec ss [] [] rfl List.nodup_nil (by simp)).1

theorem mem_of_mapGet_eq_some {α β : Type} [DecidableEq α]
    {m : List (α × β)} {k : α} {v : β} (h : mapGet m k = some v) :
    (k, v) ∈ m := by
  unfold mapGet at h
  cases hf : m.find? (fun p => p.fst = k) with
  | none => rw [hf] at h; simp at h
  | some p =>
    rw [hf] at h
    have hp := List.find?_some hf
    have hmem := List.mem_of_find?_eq_some hf
    simp only [Option.map_some', Option.some.injEq] at h
    simp only [decide_eq_true_eq] at hp
    rw [← h, ← hp]
    simpa using hmem

theorem mem_deps_buildGraph (ss : List TableSchema) (n b : String) :
    b ∈ deps (buildGraph ss) n ↔
      ∃ t ∈ ss, t.tableName = n ∧
        ∃ fk ∈ t.foreignKeys, fk.referencedTable = b ∧ b ≠ n := by
  have hinit := initGraph_spec ss [] [] rfl List.nodup_nil (by simp)
  have hempty : valOf (initGraph ss ([], [])).snd n = [] := by
    unfold valOf
    cases hm : mapGet (initGraph ss ([], [])).snd n with
    | none => rfl
    | some s =>
      have hmem := mem_of_mapGet_eq_some hm
      have hs := hinit.2.2.1 _ hmem
      simpa using hs
  have hdeps : deps (buildGraph ss) n =
      valOf (addFkEdges ss (initGraph ss ([], [])).snd) n := rfl
  rw [hdeps, mem_valOf_addFkEdges, hempty]
  simp only [List.not_mem_nil, false_or]
  constructor
  · rintro ⟨t, ht, rfl, _, fk, hfk, rfl, hnm⟩
    exact ⟨t, ht, rfl, fk, hfk, rfl, hnm⟩
  · rintro ⟨t, ht, rfl, fk, hfk, rfl, hnm⟩
    have hkmem : t.tableName ∈ (initGraph ss ([], [])).snd.map Prod.fst := by
      rw [hinit.1]
      exact (hinit.2.2.2 _).mpr (Or.inr ⟨t, ht, rfl⟩)
    exact ⟨t, ht, rfl, hkmem, fk, hfk, rfl, hnm⟩

theorem valNodup_addToEdge {ed : List (String × List String)} (k v : String)
    (h : ∀ p ∈ ed, p.snd.Nodup) : ∀ p ∈ addToEdge ed k v, p.snd.Nodup := by
  intro p hp
  unfold addToEdge at hp
  rcases List.mem_map.mp hp with ⟨q, hq, rfl⟩
  by_cases hqf : q.fst = k
  · rw [if_pos hqf]
    exact nodup_setAdd _ (h q hq)
  · rw [if_neg hqf]
    exact h q hq

theorem valNodup_addFksOf (name : String) :
    ∀ (fks : List ForeignKeyInfo) (ed : List (String × List String)),
      (∀ p ∈ ed, p.snd.Nodup) → ∀ p ∈ addFksOf name fks ed, p.snd.Nodup := by
  intro fks
  induction fks with
  | nil => intro ed h; exact h
  | cons fk rest ih =>
    intro ed h
    show ∀ p ∈ addFksOf name rest _, p.snd.Nodup
    apply ih
    by_cases hfk : fk.referencedTable ≠ name
    · rw [if_pos hfk]; exact valNodup_addToEdge _ _ h
    · rw [if_neg hfk]; exact h

theorem valNodup_addFkEdges :
    ∀ (ss : List TableSchema) (ed : List (String × List String)),
      (∀ p ∈ ed, p.snd.Nodup) → ∀ p ∈ addFkEdges ss ed, p.snd.Nodup := by
  intro ss
  induction ss with
  | nil => intro ed h; exact h
  | cons s rest ih =>
    intro ed h
    exact ih _ (valNodup_addFksOf _ _ _ h)

theorem deps_buildGraph_nodup (ss : List TableSchema) (n : String) :
    (deps (buildGraph ss) n).Nodup := by
  unfold deps
  cases hm : mapGet (buildGraph ss).edges n with
  | none => exact List.nodup_nil
  | some s =>
    have hmem := mem_of_mapGet_eq_some hm
    have hinit := initGraph_spec ss [] [] rfl List.nodup_nil (by simp)
    have := valNodup_addFkEdges ss (initGraph ss ([], [])).snd
      (fun p hp => by rw [hinit.2.2.1 p hp]; exact List.nodup_nil) _ hmem
    simpa using this

theorem mapGet_of_mem_of_nodupKeys {α β : Type} [DecidableEq α]
    {m : List (α × β)} (hnd : (m.map Prod.fst).Nodup) {k : α} {v : β}
    (h : (k, v) ∈ m) : mapGet m k = some v := by
  induction m with
  | nil => simp at h
  | cons p rest ih =>
    rw [mapGet_cons]
    rcases List.mem_cons.mp h with rfl | hmem
    · rw [if_pos rfl]
    · have hk : k ∈ rest.map Prod.fst :=
        List.mem_map.mpr ⟨(k, v), hmem, rfl⟩
      have hp : p.fst ≠ k := by
        intro hc
        exact (List.nodup_cons.mp (by simpa using hnd)).1 (hc ▸ hk)
      rw [if_neg hp]
      exact ih (List.nodup_cons.mp (by simpa using hnd)).2 hmem

/-! ### Characterisation of the adjacency list and in-degree map -/

theorem addDegrees_spec (node : String) :
    ∀ (ds : List String) (adj : List (String × List String))
      (indeg : List (String × Int)), node ∈ indeg.map Prod.fst →
      ((addDegrees node ds (adj, indeg)).fst.map Prod.fst = adj.map Prod.fst) ∧
      ((addDegrees node ds (adj, indeg)).snd.map Prod.fst =
        indeg.map Prod.fst) ∧
      (∀ n, n ≠ node →
        mapGet (addDegrees node ds (adj, indeg)).snd n = mapGet indeg n) ∧
      (mapGet (addDegrees node ds (adj, indeg)).snd node =
        some ((mapGet indeg node).getD 0 + ds.length)) ∧
      (∀ n m, m ∈ valOf (addDegrees node ds (adj, indeg)).fst n ↔
        m ∈ valOf adj n ∨ (m = node ∧ n ∈ ds ∧ n ∈ adj.map Prod.fst)) := by
  intro ds
  induction ds with
  | nil =>
    intro adj indeg hnode
    refine ⟨rfl, rfl, fun n _ => rfl, ?_, ?_⟩
    · rcases Option.isSome_iff_exists.mp
        ((mapGet_isSome_iff indeg node).mpr hnode) with ⟨d, hd⟩
      show mapGet indeg node = _
      rw [hd]
      simp
    · intro n m
      simp [addDegrees]
  | cons dep ds ih =>
    intro adj indeg hnode
    have hstep : addDegrees node (dep :: ds) (adj, indeg) =
        addDegrees node ds
          (addToEdge adj dep node,
           mapSet indeg node (((mapGet indeg node).getD 0) + 1)) := rfl
    have hnode' : node ∈
        (mapSet indeg node (((mapGet indeg node).getD 0) + 1)).map Prod.fst := by
      rw [keys_mapSet_of_mem _ hnode]
      exact hnode
    have spec := ih (addToEdge adj dep node)
      (mapSet indeg node (((mapGet indeg node).getD 0) + 1)) hnode'
    rw [hstep]
    refine ⟨?_, ?_, ?_, ?_, ?_⟩
    · rw [spec.1, keys_addToEdge]
    · rw [spec.2.1, keys_mapSet_of_mem _ hnode]
    · intro n hn
      rw [spec.2.2.1 n hn, mapGet_mapSet_ne _ _ hn]
    · rw [spec.2.2.2.1, mapGet_mapSet_self]
      simp only [Option.getD_some, List.length_cons]
      congr 1
      push_cast
      ring
    · intro n m
      rw [spec.2.2.2.2, keys_addToEdge, valOf_addToEdge]
      by_cases h1 : n = dep ∧ dep ∈ adj.map Prod.fst
      · rw [if_pos h1]
        rcases h1 with ⟨rfl, h2⟩
        rw [mem_setAdd]
        constructor
        · rintro ((hb | rfl) | ⟨rfl, hds, hmem⟩)
          · exact Or.inl hb
          · exact Or.inr ⟨rfl, List.mem_cons_self _ _, h2⟩
          · exact Or.inr ⟨rfl, List.mem_cons_of_mem _ hds, hmem⟩
        · rintro (hb | ⟨rfl, hds, hmem⟩)
          · exact Or.inl (Or.inl hb)
          · rcases List.mem_cons.mp hds with _ | hds
            · exact Or.inl (Or.inr rfl)
            · exact Or.inr ⟨rfl, hds, hmem⟩
      · rw [if_neg h1]
        constructor
        · rintro (hb | ⟨rfl, hds, hmem⟩)
          · exact Or.inl hb
          · exact Or.inr ⟨rfl, List.mem_cons_of_mem _ hds, hmem⟩
        · rintro (hb | ⟨rfl, hds, hmem⟩)
          · exact Or.inl hb
          · rcases List.mem_cons.mp hds with rfl | hds
            · exact absurd ⟨rfl, hmem⟩ h1
            · exact Or.inr ⟨rfl, hds, hmem⟩

theorem foldAddDegrees_spec :
    ∀ (es : List (String × List String))
      (adj : List (String × List String)) (indeg : List (String × Int)),
      (∀ p ∈ es, p.fst ∈ indeg.map Prod.fst) → (es.map Prod.fst).Nodup →
      ((es.foldl (fun acc p => addDegrees p.fst p.snd acc)
          (adj, indeg)).fst.map Prod.fst = adj.map Prod.fst) ∧
      ((es.foldl (fun acc p => addDegrees p.fst p.snd acc)
          (adj, indeg)).snd.map Prod.fst = indeg.map Prod.fst) ∧
      (∀ n, n ∉ es.map Prod.fst →
        mapGet (es.foldl (fun acc p => addDegrees p.fst p.snd acc)
          (adj, indeg)).snd n = mapGet indeg n) ∧
      (∀ p ∈ es,
        mapGet (es.foldl (fun acc p => addDegrees p.fst p.snd acc)
          (adj, indeg)).snd p.fst =
          some ((mapGet indeg p.fst).getD 0 + p.snd.length)) ∧
      (∀ n m,
        m ∈ valOf (es.foldl (fun acc p => addDegrees p.fst p.snd acc)
          (adj, indeg)).fst n ↔
          m ∈ valOf adj n ∨
            ∃ p ∈ es, p.fst = m ∧ n ∈ p.snd ∧ n ∈ adj.map Prod.fst) := by
  intro es
  induction es with
  | nil =>
    intro adj indeg _ _
    exact ⟨rfl, rfl, fun n _ => rfl, fun p hp => absurd hp (by simp),
      fun n m => by simp⟩
  | cons e rest ih =>
    intro adj indeg hmem hnd
    have he : e.fst ∈ indeg.map Prod.fst := hmem e (List.mem_cons_self _ _)
    rw [List.map_cons] at hnd
    obtain ⟨hndh, hndr⟩ := List.nodup_cons.mp hnd
    have hd := addDegrees_spec e.fst e.snd adj indeg he
    have hfold : (e :: rest).foldl (fun acc p => addDegrees p.fst p.snd acc)
        (adj, indeg) =
        rest.foldl (fun acc p => addDegrees p.fst p.snd acc)
          ((addDegrees e.fst e.snd (adj, indeg)).fst,
           (addDegrees e.fst e.snd (adj, indeg)).snd) := by
      simp [List.foldl_cons]
    have hmem' : ∀ p ∈ rest,
        p.fst ∈ (addDegrees e.fst e.snd (adj, indeg)).snd.map Prod.fst := by
      intro p hp
      rw [hd.2.1]
      exact hmem p (List.mem_cons_of_mem _ hp)
    have spec := ih (addDegrees e.fst e.snd (adj, indeg)).fst
      (addDegrees e.fst e.snd (adj, indeg)).snd hmem' hndr
    rw [hfold]
    refine ⟨?_, ?_, ?_, ?_, ?_⟩
    · rw [spec.1, hd.1]
    · rw [spec.2.1, hd.2.1]
    · intro n hn
      have hn1 : n ∉ rest.map Prod.fst := fun hc => hn (by simp [hc])
      have hn2 : n ≠ e.fst := fun hc => hn (by simp [hc])
      rw [spec.2.2.1 n hn1, hd.2.2.1 n hn2]
    · intro p hp
      rcases List.mem_cons.mp hp with rfl | hp
      · have hp1 : p.fst ∉ rest.map Prod.fst := hndh
        rw [spec.2.2.1 p.fst hp1, hd.2.2.2.1]
      · have hne : p.fst ≠ e.fst := by
          intro hc
          exact hndh (hc ▸ List.mem_map.mpr ⟨p, hp, rfl⟩)
        rw [spec.2.2.2.1 p hp, hd.2.2.1 p.fst hne]
    · intro n m
      rw [spec.2.2.2.2, hd.2.2.2.2, hd.1]
      constructor
      · rintro ((hb | ⟨rfl, hds, hmem2⟩) | ⟨p, hp, rfl, hds, hmem2⟩)
        · exact Or.inl hb
        · exact Or.inr ⟨e, List.mem_cons_self _ _, rfl, hds, hmem2⟩
        · exact Or.inr ⟨p, List.mem_cons_of_mem _ hp, rfl, hds, hmem2⟩
      · rintro (hb | ⟨p, hp, rfl, hds, hmem2⟩)
        · exact Or.inl (Or.inl hb)
        · rcases List.mem_cons.mp hp with rfl | hp
          · exact Or.inl (Or.inr ⟨rfl, hds, hmem2⟩)
          · exact Or.inr ⟨p, hp, rfl, hds, hmem2⟩

/-- Full characterisation of `buildAdjIndeg` for a well-formed graph. -/
theorem buildAdjIndeg_spec (g : DependencyGraph)
    (hkeys : g.edges.map Prod.fst = g.nodes) (hnd : g.nodes.Nodup) :
    ((buildAdjIndeg g).fst.map Prod.fst = g.nodes) ∧
    ((buildAdjIndeg g).snd.map Prod.fst = g.nodes) ∧
    (∀ n ∈ g.nodes,
      mapGet (buildAdjIndeg g).snd n = some ((deps g n).length : Int)) ∧
    (∀ n m, m ∈ valOf (buildAdjIndeg g).fst n ↔
      (n ∈ g.nodes ∧ m ∈ g.nodes ∧ n ∈ deps g m)) := by
  have hmem : ∀ p ∈ g.edges,
      p.fst ∈ (g.nodes.map (fun n => (n, (0 : Int)))).map Prod.fst := by
    intro p hp
    have : p.fst ∈ g.edges.map Prod.fst := List.mem_map.mpr ⟨p, hp, rfl⟩
    rw [hkeys] at this
    simpa using this
  have hndk : (g.edges.map Prod.fst).Nodup := hkeys ▸ hnd
  have spec := foldAddDegrees_spec g.edges
    (g.nodes.map (fun n => (n, ([] : List String))))
    (g.nodes.map (fun n => (n, (0 : Int)))) hmem hndk
  have hka : ((g.nodes.map (fun n => (n, ([] : List String)))).map Prod.fst)
      = g.nodes := by
    have hcomp : (Prod.fst ∘ fun n : String => (n, ([] : List String))) = id :=
      rfl
    rw [List.map_map, hcomp, List.map_id]
  have hki : ((g.nodes.map (fun n => (n, (0 : Int)))).map Prod.fst)
      = g.nodes := by
    have hcomp : (Prod.fst ∘ fun n : String => (n, (0 : Int))) = id := rfl
    rw [List.map_map, hcomp, List.map_id]
  refine ⟨?_, ?_, ?_, ?_⟩
  · show (buildAdjIndeg g).fst.map Prod.fst = g.nodes
    unfold buildAdjIndeg
    rw [spec.1, hka]
  · show (buildAdjIndeg g).snd.map Prod.fst = g.nodes
    unfold buildAdjIndeg
    rw [spec.2.1, hki]
  · intro n hn
    have hn' : n ∈ g.edges.map Prod.fst := hkeys ▸ hn
    rcases List.mem_map.mp hn' with ⟨p, hp, rfl⟩
    have hval : mapGet g.edges p.fst = some p.snd := by
      apply mapGet_of_mem_of_nodupKeys hndk
      simpa using hp
    have hdeps : deps g p.fst = p.snd := by
      unfold deps
      rw [hval]
      rfl
    show mapGet (buildAdjIndeg g).snd p.fst = _
    unfold buildAdjIndeg
    rw [spec.2.2.2.1 p hp, mapGet_map_const]
    rw [if_pos hn, hdeps]
    simp
  · intro n m
    show m ∈ valOf (buildAdjIndeg g).fst n ↔ _
    unfold buildAdjIndeg
    rw [spec.2.2.2.2]
    have hadj0 : valOf (g.nodes.map (fun n => (n, ([] : List String)))) n
        = [] := by
      unfold valOf
      rw [mapGet_map_const]
      by_cases hn : n ∈ g.nodes <;> simp [hn]
    rw [hadj0, hka]
    simp only [List.not_mem_nil, false_or]
    constructor
    · rintro ⟨p, hp, rfl, hds, hmemn⟩
      have hmf : p.fst ∈ g.edges.map Prod.fst := List.mem_map.mpr ⟨p, hp, rfl⟩
      have hdeps : deps g p.fst = p.snd := by
        unfold deps
        rw [mapGet_of_mem_of_nodupKeys hndk (by simpa using hp)]
        rfl
      exact ⟨hmemn, hkeys ▸ hmf, hdeps ▸ hds⟩
    · rintro ⟨hmemn, hmemm, hds⟩
      have hmf : m ∈ g.edges.map Prod.fst := hkeys ▸ hmemm
      rcases List.mem_map.mp hmf with ⟨p, hp, rfl⟩
      have hdeps : deps g p.fst = p.snd := by
        unfold deps
        rw [mapGet_of_mem_of_nodupKeys hndk (by simpa using hp)]
        rfl
      exact ⟨p, hp, rfl, hdeps ▸ hds, hmemn⟩

theorem valNodup_addDegrees (node : String) :
    ∀ (ds : List String) (adj : List (String × List String))
      (indeg : List (String × Int)),
      (∀ p ∈ adj, p.snd.Nodup) →
      ∀ p ∈ (addDegrees node ds (adj, indeg)).fst, p.snd.Nodup := by
  intro ds
  induction ds with
  | nil => intro adj indeg h; exact h
  | cons dep rest ih =>
    intro adj indeg h
    exact ih (addToEdge adj dep node) _ (valNodup_addToEdge _ _ h)

theorem valNodup_foldAddDegrees :
    ∀ (es : List (String × List String))
      (adj : List (String × List String)) (indeg : List (String × Int)),
      (∀ p ∈ adj, p.snd.Nodup) →
      ∀ p ∈ (es.foldl (fun acc p => addDegrees p.fst p.snd acc)
        (adj, indeg)).fst, p.snd.Nodup := by
  intro es
  induction es with
  | nil => intro adj indeg h; exact h
  | cons e rest ih =>
    intro adj indeg h
    have hfold : (e :: rest).foldl (fun acc p => addDegrees p.fst p.snd acc)
        (adj, indeg) =
        rest.foldl (fun acc p => addDegrees p.fst p.snd acc)
          ((addDegrees e.fst e.snd (adj, indeg)).fst,
           (addDegrees e.fst e.snd (adj, indeg)).snd) := by
      simp [List.foldl_cons]
    rw [hfold]
    exact ih _ _ (valNodup_addDegrees _ _ _ _ h)

theorem valOf_buildAdjIndeg_nodup (g : DependencyGraph) (n : String) :
    (valOf (buildAdjIndeg g).fst n).Nodup := by
  unfold valOf
  cases hm : mapGet (buildAdjIndeg g).fst n with
  | none => exact List.nodup_nil
  | some s =>
    have hmem := mem_of_mapGet_eq_some hm
    have := valNodup_foldAddDegrees g.edges
      (g.nodes.map (fun n => (n, ([] : List String))))
      (g.nodes.map (fun n => (n, (0 : Int))))
      (by intro p hp; rcases List.mem_map.mp hp with ⟨q, _, rfl⟩
          exact List.nodup_nil) _ hmem
    simpa using this

/-! ### Correctness of the Kahn loop -/

/-- Number of dependencies of `n` not yet inserted. -/
def remDeg (g : DependencyGraph) (sorted : List String) (n : String) : Nat :=
  ((deps g n).filter (fun b => b ∉ sorted)).length

theorem remDeg_eq_zero_iff (g : DependencyGraph) (sorted : List String)
    (n : String) :
    remDeg g sorted n = 0 ↔ ∀ b ∈ deps g n, b ∈ sorted := by
  unfold remDeg
  rw [List.length_eq_zero, List.filter_eq_nil_iff]
  constructor
  · intro h b hb
    by_contra hc
    exact h b hb (by simpa using hc)
  · intro h b hb
    simp [h b hb]

theorem remDeg_append (g : DependencyGraph) (sorted : List String)
    (x n : String) (hnd : (deps g n).Nodup) (hx : x ∉ sorted) :
    (x ∈ deps g n → 1 ≤ remDeg g sorted n ∧
      remDeg g (sorted ++ [x]) n = remDeg g sorted n - 1) ∧
    (x ∉ deps g n → remDeg g (sorted ++ [x]) n = remDeg g sorted n) := by
  have hsplit : (deps g n).filter (fun b => b ∉ sorted ++ [x]) =
      ((deps g n).filter (fun b => b ∉ sorted)).filter (fun b => b ≠ x) := by
    rw [List.filter_filter]
    apply List.filter_congr
    intro b _
    simp only [List.mem_append, List.mem_singleton, decide_not,
      Bool.not_eq_true', decide_eq_false_iff_not, not_or, ← Bool.decide_and]
    simp [and_comm]
  constructor
  · intro hmem
    have hmem' : x ∈ (deps g n).filter (fun b => b ∉ sorted) := by
      simp only [List.mem_filter]
      exact ⟨hmem, by simpa using hx⟩
    have hnd' : ((deps g n).filter (fun b => b ∉ sorted)).Nodup :=
      hnd.filter _
    constructor
    · have := List.length_pos_of_mem hmem'
      unfold remDeg
      omega
    · have herase : ((deps g n).filter (fun b => b ∉ sorted)).filter
          (fun b => decide (b ≠ x)) =
          ((deps g n).filter (fun b => b ∉ sorted)).erase x := by
        rw [List.Nodup.erase_eq_filter hnd']
        apply List.filter_congr
        intro b _
        by_cases hbx : b = x <;> simp [hbx, bne]
      unfold remDeg
      rw [hsplit, herase, List.length_erase_of_mem hmem']
  · intro hmem
    unfold remDeg
    rw [hsplit]
    have : ((deps g n).filter (fun b => b ∉ sorted)).filter (fun b => b ≠ x) =
        (deps g n).filter (fun b => b ∉ sorted) := by
      apply List.filter_eq_self.mpr
      intro b hb
      have hbmem : b ∈ deps g n := List.mem_of_mem_filter hb
      have : b ≠ x := fun hc => hmem (hc ▸ hbmem)
      simpa using this
    rw [this]

/-- Characterisation of the decrement/enqueue fold inside `kahnStep`. -/
theorem decLoop_spec :
    ∀ (ms : List String) (indeg : List (String × Int)) (queue : List String),
      ms.Nodup → (∀ m ∈ ms, m ∈ indeg.map Prod.fst) →
      ((ms.foldl (fun (acc : List (String × Int) × List String) dependent =>
          let newDeg := ((mapGet acc.fst dependent).getD 0) - 1
          (mapSet acc.fst dependent newDeg,
           if newDeg = 0 then acc.snd ++ [dependent] else acc.snd))
          (indeg, queue)).fst.map Prod.fst = indeg.map Prod.fst) ∧
      (∀ n, n ∉ ms →
        mapGet (ms.foldl (fun (acc : List (String × Int) × List String) dependent =>
          let newDeg := ((mapGet acc.fst dependent).getD 0) - 1
          (mapSet acc.fst dependent newDeg,
           if newDeg = 0 then acc.snd ++ [dependent] else acc.snd))
          (indeg, queue)).fst n = mapGet indeg n) ∧
      (∀ n ∈ ms,
        mapGet (ms.foldl (fun (acc : List (String × Int) × List String) dependent =>
          let newDeg := ((mapGet acc.fst dependent).getD 0) - 1
          (mapSet acc.fst dependent newDeg,
           if newDeg = 0 then acc.snd ++ [dependent] else acc.snd))
          (indeg, queue)).fst n = some ((mapGet indeg n).getD 0 - 1)) ∧
      ((ms.foldl (fun (acc : List (String × Int) × List String) dependent =>
          let newDeg := ((mapGet acc.fst dependent).getD 0) - 1
          (mapSet acc.fst dependent newDeg,
           if newDeg = 0 then acc.snd ++ [dependent] else acc.snd))
          (indeg, queue)).snd =
        queue ++ ms.filter (fun m => (mapGet indeg m).getD 0 - 1 = 0)) := by
  intro ms
  induction ms with
  | nil =>
    intro indeg queue _ _
    exact ⟨rfl, fun n _ => rfl, fun n hn => absurd hn (by simp), by simp⟩
  | cons m rest ih =>
    intro indeg queue hnd hmem
    rw [List.nodup_cons] at hnd
    have hm : m ∈ indeg.map Prod.fst := hmem m (List.mem_cons_self _ _)
    have hkeys1 : (mapSet indeg m (((mapGet indeg m).getD 0) - 1)).map Prod.fst
        = indeg.map Prod.fst := keys_mapSet_of_mem _ hm
    have hmem' : ∀ m' ∈ rest,
        m' ∈ (mapSet indeg m (((mapGet indeg m).getD 0) - 1)).map Prod.fst := by
      intro m' hm'
      rw [hkeys1]
      exact hmem m' (List.mem_cons_of_mem _ hm')
    have spec := ih (mapSet indeg m (((mapGet indeg m).getD 0) - 1))
      (if ((mapGet indeg m).getD 0) - 1 = 0 then queue ++ [m] else queue)
      hnd.2 hmem'
    refine ⟨?_, ?_, ?_, ?_⟩
    · rw [List.foldl_cons]
      rw [spec.1, hkeys1]
    · intro n hn
      have hn1 : n ∉ rest := fun hc => hn (List.mem_cons_of_mem _ hc)
      have hn2 : n ≠ m := fun hc => hn (hc ▸ List.mem_cons_self _ _)
      rw [List.foldl_cons, spec.2.1 n hn1, mapGet_mapSet_ne _ _ hn2]
    · intro n hn
      rcases List.mem_cons.mp hn with rfl | hn
      · rw [List.foldl_cons, spec.2.1 n hnd.1, mapGet_mapSet_self]
      · rw [List.foldl_cons, spec.2.2.1 n hn]
        have hne : n ≠ m := fun hc => hnd.1 (hc ▸ hn)
        rw [mapGet_mapSet_ne _ _ hne]
    · rw [List.foldl_cons, spec.2.2.2]
      have hfil : rest.filter (fun m' =>
          (mapGet (mapSet indeg m (((mapGet indeg m).getD 0) - 1)) m').getD 0 - 1
            = 0) =
          rest.filter (fun m' => (mapGet indeg m').getD 0 - 1 = 0) := by
        apply List.filter_congr
        intro m' hm'
        have hne : m' ≠ m := fun hc => hnd.1 (hc ▸ hm')
        rw [mapGet_mapSet_ne _ _ hne]
      rw [hfil, List.filter_cons]
      by_cases hz : ((mapGet indeg m).getD 0) - 1 = 0
      · rw [if_pos hz]
        simp [hz]
      · rw [if_neg hz]
        simp [hz]

/-- Invariant of the Kahn loop of `topologicalSort` on graph `g`. -/
structure KahnInv (g : DependencyGraph) (st : KahnState) : Prop where
  nodup : (st.sorted ++ st.queue).Nodup
  subset : ∀ x ∈ st.sorted ++ st.queue, x ∈ g.nodes
  degKeys : st.inDegree.map Prod.fst = g.nodes
  degVal : ∀ n ∈ g.nodes,
    mapGet st.inDegree n = some ((remDeg g st.sorted n : Int))
  ready : ∀ n ∈ g.nodes,
    (n ∈ st.sorted ++ st.queue ↔ ∀ b ∈ deps g n, b ∈ st.sorted)
  ord : ∀ l₁ a l₂, st.sorted = l₁ ++ a :: l₂ → ∀ b ∈ deps g a, b ∈ l₁

theorem append_singleton_decomp {α : Type} {S l₁ l₂ : List α} {a x : α}
    (h : l₁ ++ a :: l₂ = S ++ [x]) :
    (l₁ = S ∧ a = x ∧ l₂ = []) ∨
      ∃ l₂', l₂ = l₂' ++ [x] ∧ S = l₁ ++ a :: l₂' := by
  rcases List.eq_nil_or_concat l₂ with rfl | ⟨l₂', y, rfl⟩
  · have h' : l₁ ++ [a] = S ++ [x] := h
    have := List.append_inj' h' rfl
    rcases this with ⟨h1, h2⟩
    exact Or.inl ⟨h1, by simpa using h2, rfl⟩
  · have h' : (l₁ ++ a :: l₂') ++ [y] = S ++ [x] := by
      rw [← h]
      simp
    have := List.append_inj' h' rfl
    rcases this with ⟨h1, h2⟩
    have hy : y = x := by simpa using h2
    refine Or.inr ⟨l₂', ?_, h1.symm⟩
    rw [hy]
    exact List.concat_eq_append _ _

theorem kahnStep_inv (g : DependencyGraph)
    (hkeys : g.edges.map Prod.fst = g.nodes) (hnd : g.nodes.Nodup)
    (hdnd : ∀ n, (deps g n).Nodup)
    (st : KahnState) (hInv : KahnInv g st)
    (x : String) (rest : List String) (hq : st.queue = x :: rest) :
    KahnInv g (kahnStep (buildAdjIndeg g).fst st) ∧
      (kahnStep (buildAdjIndeg g).fst st).sorted = st.sorted ++ [x] := by
  obtain ⟨haKeys, hiKeys, hdeg0, hadj⟩ := buildAdjIndeg_spec g hkeys hnd
  have hstep : kahnStep (buildAdjIndeg g).fst st =
      { sorted := st.sorted ++ [x],
        queue := ((valOf (buildAdjIndeg g).fst x).foldl
          (fun (acc : List (String × Int) × List String) dependent =>
            let newDeg := ((mapGet acc.fst dependent).getD 0) - 1
            (mapSet acc.fst dependent newDeg,
             if newDeg = 0 then acc.snd ++ [dependent] else acc.snd))
          (st.inDegree, rest)).snd,
        inDegree := ((valOf (buildAdjIndeg g).fst x).foldl
          (fun (acc : List (String × Int) × List String) dependent =>
            let newDeg := ((mapGet acc.fst dependent).getD 0) - 1
            (mapSet acc.fst dependent newDeg,
             if newDeg = 0 then acc.snd ++ [dependent] else acc.snd))
          (st.inDegree, rest)).fst } := by
    unfold kahnStep
    rw [hq]
    rfl
  have hxq : x ∈ st.sorted ++ st.queue := by
    rw [hq]
    exact List.mem_append_right _ (List.mem_cons_self _ _)
  have hxn : x ∈ g.nodes := hInv.subset x hxq
  have hxS : x ∉ st.sorted := by
    intro hc
    have := hInv.nodup
    rw [hq] at this
    exact (List.disjoint_of_nodup_append this) hc (List.mem_cons_self _ _)
  have hdepsx : ∀ b ∈ deps g x, b ∈ st.sorted := (hInv.ready x hxn).mp hxq
  have hmsNodup : (valOf (buildAdjIndeg g).fst x).Nodup :=
    valOf_buildAdjIndeg_nodup g x
  have hmsMem : ∀ m, m ∈ valOf (buildAdjIndeg g).fst x ↔
      (m ∈ g.nodes ∧ x ∈ deps g m) := by
    intro m
    rw [hadj x m]
    constructor
    · rintro ⟨_, h2, h3⟩; exact ⟨h2, h3⟩
    · rintro ⟨h2, h3⟩; exact ⟨hxn, h2, h3⟩
  have hmsKeys : ∀ m ∈ valOf (buildAdjIndeg g).fst x,
      m ∈ st.inDegree.map Prod.fst := by
    intro m hm
    rw [hInv.degKeys]
    exact ((hmsMem m).mp hm).1
  have dec := decLoop_spec (valOf (buildAdjIndeg g).fst x) st.inDegree rest
    hmsNodup hmsKeys
  -- characterise the freshly enqueued nodes
  have hE : ∀ m, (m ∈ (valOf (buildAdjIndeg g).fst x).filter
      (fun m => (mapGet st.inDegree m).getD 0 - 1 = 0) ↔
      (m ∈ g.nodes ∧ x ∈ deps g m ∧ remDeg g st.sorted m = 1)) := by
    intro m
    rw [List.mem_filter]
    constructor
    · rintro ⟨hm, hz⟩
      obtain ⟨hmn, hmx⟩ := (hmsMem m).mp hm
      have hgd := hInv.degVal m hmn
      rw [hgd] at hz
      simp only [Option.getD_some, decide_eq_true_eq] at hz
      refine ⟨hmn, hmx, ?_⟩
      omega
    · rintro ⟨hmn, hmx, hrem⟩
      refine ⟨(hmsMem m).mpr ⟨hmn, hmx⟩, ?_⟩
      rw [hInv.degVal m hmn]
      simp only [Option.getD_some, decide_eq_true_eq]
      omega
  have hEfresh : ∀ m ∈ (valOf (buildAdjIndeg g).fst x).filter
      (fun m => (mapGet st.inDegree m).getD 0 - 1 = 0),
      m ∉ st.sorted ++ st.queue := by
    intro m hm hc
    obtain ⟨hmn, hmx, _⟩ := (hE m).mp hm
    have := (hInv.ready m hmn).mp hc x hmx
    exact hxS this
  refine ⟨?_, by rw [hstep]⟩
  rw [hstep]
  have hq' : ((valOf (buildAdjIndeg g).fst x).foldl
      (fun (acc : List (String × Int) × List String) dependent =>
        let newDeg := ((mapGet acc.fst dependent).getD 0) - 1
        (mapSet acc.fst dependent newDeg,
         if newDeg = 0 then acc.snd ++ [dependent] else acc.snd))
      (st.inDegree, rest)).snd =
      rest ++ (valOf (buildAdjIndeg g).fst x).filter
        (fun m => (mapGet st.inDegree m).getD 0 - 1 = 0) := dec.2.2.2
  constructor
  -- nodup
  · rw [hq']
    show ((st.sorted ++ [x]) ++ (rest ++ _)).Nodup
    have hold : (st.sorted ++ x :: rest).Nodup := by
      have := hInv.nodup
      rw [hq] at this
      exact this
    rw [List.nodup_append]
    refine ⟨?_, ?_, ?_⟩
    · have : (st.sorted ++ [x]).Sublist (st.sorted ++ x :: rest) := by
        apply List.Sublist.append_left
        simp
      exact hold.sublist this
    · rw [List.nodup_append]
      refine ⟨?_, (hmsNodup.filter _), ?_⟩
      · have : rest.Sublist (st.sorted ++ x :: rest) := by
          apply List.sublist_append_of_sublist_right
          exact (List.sublist_cons_self _ _)
        exact hold.sublist this
      · intro m hm hmE
        have := hEfresh m hmE
        rw [hq] at this
        exact this (List.mem_append_right _ (List.mem_cons_of_mem _ hm))
    · intro m hm hc
      rcases List.mem_append.mp hm with hmS | hmx
      · rcases List.mem_append.mp hc with hr | hE'
        · exact (List.disjoint_of_nodup_append hold) hmS
            (List.mem_cons_of_mem _ hr)
        · have := hEfresh m hE'
          rw [hq] at this
          exact this (List.mem_append_left _ hmS)
      · have hmeq : m = x := List.mem_singleton.mp hmx
        rcases List.mem_append.mp hc with hr | hE'
        · have hxr : (x :: rest).Nodup := (List.nodup_append.mp hold).2.1
          rw [hmeq] at hr
          exact (List.nodup_cons.mp hxr).1 hr
        · have := hEfresh m hE'
          rw [hq] at this
          refine this ?_
          rw [hmeq]
          exact List.mem_append_right _ (List.mem_cons_self _ _)
  -- subset
  · intro y hy
    rw [hq'] at hy
    rcases List.mem_append.mp hy with hy | hy
    · rcases List.mem_append.mp hy with hy | hy
      · exact hInv.subset y (List.mem_append_left _ hy)
      · rcases List.mem_singleton.mp hy with rfl
        exact hxn
    · rcases List.mem_append.mp hy with hy | hy
      · refine hInv.subset y ?_
        rw [hq]
        exact List.mem_append_right _ (List.mem_cons_of_mem _ hy)
      · exact ((hE y).mp hy).1
  -- degKeys
  · rw [dec.1, hInv.degKeys]
  -- degVal
  · intro n hn
    by_cases hmem : n ∈ valOf (buildAdjIndeg g).fst x
    · rw [dec.2.2.1 n hmem, hInv.degVal n hn]
      obtain ⟨_, hxdep⟩ := (hmsMem n).mp hmem
      obtain ⟨hge, heq⟩ := (remDeg_append g st.sorted x n (hdnd n) hxS).1 hxdep
      simp only [Option.getD_some]
      congr 1
      rw [heq]
      omega
    · rw [dec.2.1 n hmem, hInv.degVal n hn]
      have hxdep : x ∉ deps g n := by
        intro hc
        exact hmem ((hmsMem n).mpr ⟨hn, hc⟩)
      rw [(remDeg_append g st.sorted x n (hdnd n) hxS).2 hxdep]
  -- ready
  · intro n hn
    rw [hq']
    constructor
    · intro hmem
      intro b hb
      rcases List.mem_append.mp hmem with h1 | h2
      · rcases List.mem_append.mp h1 with h1 | h1
        · exact List.mem_append_left _
            ((hInv.ready n hn).mp (List.mem_append_left _ h1) b hb)
        · rcases List.mem_singleton.mp h1 with rfl
          exact List.mem_append_left _ (hdepsx b hb)
      · rcases List.mem_append.mp h2 with h2 | h2
        · exact List.mem_append_left _
            ((hInv.ready n hn).mp
              (by rw [hq]
                  exact List.mem_append_right _ (List.mem_cons_of_mem _ h2))
              b hb)
        · obtain ⟨_, _, hrem⟩ := (hE n).mp h2
          have : remDeg g (st.sorted ++ [x]) n = 0 := by
            obtain ⟨_, hxdep2, hrem1⟩ := (hE n).mp h2
            obtain ⟨_, heq⟩ :=
              (remDeg_append g st.sorted x n (hdnd n) hxS).1 hxdep2
            omega
          exact (remDeg_eq_zero_iff g _ n).mp this b hb
    · intro hall
      by_cases hxdep : x ∈ deps g n
      · have hnms : n ∈ valOf (buildAdjIndeg g).fst x :=
          (hmsMem n).mpr ⟨hn, hxdep⟩
        have hrem0 : remDeg g (st.sorted ++ [x]) n = 0 :=
          (remDeg_eq_zero_iff g _ n).mpr hall
        obtain ⟨hge, heq⟩ :=
          (remDeg_append g st.sorted x n (hdnd n) hxS).1 hxdep
        have hrem1 : remDeg g st.sorted n = 1 := by omega
        have : n ∈ (valOf (buildAdjIndeg g).fst x).filter
            (fun m => (mapGet st.inDegree m).getD 0 - 1 = 0) :=
          (hE n).mpr ⟨hn, hxdep, hrem1⟩
        exact List.mem_append_right _ (List.mem_append_right _ this)
      · have hsub : ∀ b ∈ deps g n, b ∈ st.sorted := by
          intro b hb
          rcases List.mem_append.mp (hall b hb) with h1 | h1
          · exact h1
          · rcases List.mem_singleton.mp h1 with rfl
            exact absurd hb hxdep
        have := (hInv.ready n hn).mpr hsub
        rcases List.mem_append.mp this with h1 | h1
        · exact List.mem_append_left _ (List.mem_append_left _ h1)
        · rw [hq] at h1
          rcases List.mem_cons.mp h1 with rfl | h1
          · exact List.mem_append_left _
              (List.mem_append_right _ (List.mem_singleton_self _))
          · exact List.mem_append_right _ (List.mem_append_left _ h1)
  -- ord
  · intro l₁ a l₂ hsplit b hb
    have hsplit' : l₁ ++ a :: l₂ = st.sorted ++ [x] := hsplit.symm
    rcases append_singleton_decomp hsplit' with ⟨rfl, rfl, rfl⟩ | ⟨l₂', _, hS⟩
    · exact hdepsx b hb
    · exact hInv.ord l₁ a l₂' hS b hb

theorem kahnLoop_inv (g : DependencyGraph)
    (hkeys : g.edges.map Prod.fst = g.nodes) (hnd : g.nodes.Nodup)
    (hdnd : ∀ n, (deps g n).Nodup) :
    ∀ (fuel : Nat) (st : KahnState), KahnInv g st →
      g.nodes.length + 1 ≤ st.sorted.length + fuel →
      KahnInv g (kahnLoop (buildAdjIndeg g).fst fuel st) ∧
        (kahnLoop (buildAdjIndeg g).fst fuel st).queue = [] := by
  intro fuel
  induction fuel with
  | zero =>
    intro st hInv hfuel
    exfalso
    have hnodup : st.sorted.Nodup := (List.nodup_append.mp hInv.nodup).1
    have hsubs : st.sorted ⊆ g.nodes := by
      intro y hy
      exact hInv.subset y (List.mem_append_left _ hy)
    have := (hnodup.subperm hsubs).length_le
    omega
  | succ fuel ih =>
    intro st hInv hfuel
    cases hq : st.queue with
    | nil =>
      have hred : kahnLoop (buildAdjIndeg g).fst (fuel + 1) st = st := by
        unfold kahnLoop
        rw [hq]
      rw [hred]
      exact ⟨hInv, hq⟩
    | cons x rest =>
      have hred : kahnLoop (buildAdjIndeg g).fst (fuel + 1) st =
          kahnLoop (buildAdjIndeg g).fst fuel
            (kahnStep (buildAdjIndeg g).fst st) := by
        conv_lhs => unfold kahnLoop
        rw [hq]
      rw [hred]
      clear hred
      obtain ⟨hInv', hsorted'⟩ := kahnStep_inv g hkeys hnd hdnd st hInv x rest hq
      apply ih _ hInv'
      rw [hsorted']
      simp only [List.length_append, List.length_singleton]
      omega

theorem kahn_complete (g : DependencyGraph)
    (hclosed : ∀ n ∈ g.nodes, ∀ b ∈ deps g n, b ∈ g.nodes)
    (hacyc : Acyclic g) (st : KahnState) (hInv : KahnInv g st)
    (hqe : st.queue = []) : ∀ n ∈ g.nodes, n ∈ st.sorted := by
  by_contra hc
  push_neg at hc
  obtain ⟨n0, hn0, hn0s⟩ := hc
  haveI hfin : Finite {y : String // y ∈ g.nodes} := by
    have h1 : {y : String | y ∈ g.nodes}.Finite := g.nodes.finite_toSet
    exact h1.to_subtype
  let r' : {y : String // y ∈ g.nodes} → {y : String // y ∈ g.nodes} → Prop :=
    fun a b => Relation.TransGen (fun u v => Edge g v u) a.val b.val
  haveI : IsTrans _ r' := ⟨fun _ _ _ h1 h2 => h1.trans h2⟩
  haveI : IsIrrefl _ r' :=
    ⟨fun a h => hacyc a.val (Relation.transGen_swap.mp h)⟩
  have hwf : WellFounded r' := Finite.wellFounded_of_trans_of_irrefl r'
  have hne : Set.Nonempty {y : {y : String // y ∈ g.nodes} | y.val ∉ st.sorted} :=
    ⟨⟨n0, hn0⟩, hn0s⟩
  obtain ⟨m, hm, hmin⟩ := hwf.has_min _ hne
  have hnotready : ¬ (∀ b ∈ deps g m.val, b ∈ st.sorted) := by
    intro hall
    have := (hInv.ready m.val m.property).mpr hall
    rw [hqe, List.append_nil] at this
    exact hm this
  push_neg at hnotready
  obtain ⟨b, hb, hbs⟩ := hnotready
  have hbn : b ∈ g.nodes := hclosed m.val m.property b hb
  exact hmin ⟨b, hbn⟩ hbs (Relation.TransGen.single hb)

/-- `b` occurs (first) strictly before `a` in `l`. -/
def Precedes (l : List String) (b a : String) : Prop :=
  b ∈ l ∧ a ∈ l ∧ l.indexOf b < l.indexOf a

instance (l : List String) (b a : String) : Decidable (Precedes l b a) := by
  unfold Precedes
  infer_instance

/-- A rank function decreasing along edges witnesses acyclicity. -/
theorem acyclic_of_rank (g : DependencyGraph) (rank : String → Nat)
    (hr : ∀ a b, Edge g a b → rank b < rank a) : Acyclic g := by
  intro n hcyc
  have hdec : ∀ a b, Relation.TransGen (fun a b => Edge g a b) a b →
      rank b < rank a := by
    intro a b h
    induction h with
    | single h1 => exact hr _ _ h1
    | tail _ h2 ih => exact lt_trans (hr _ _ h2) ih
  exact lt_irrefl _ (hdec n n hcyc)

theorem edge_source_mem (g : DependencyGraph)
    (hkeys : g.edges.map Prod.fst = g.nodes) {a b : String}
    (h : Edge g a b) : a ∈ g.nodes := by
  unfold Edge deps at h
  cases hm : mapGet g.edges a with
  | none =>
    rw [hm] at h
    simp at h
  | some s =>
    have := mem_of_mapGet_eq_some hm
    rw [← hkeys]
    exact List.mem_map.mpr ⟨(a, s), this, rfl⟩

theorem mem_filterKeys {α β : Type} [DecidableEq α] (m : List (α × β))
    (hnd : (m.map Prod.fst).Nodup) (P : α × β → Bool) (n : α) :
    (n ∈ (m.filter P).map Prod.fst ↔
      ∃ v, mapGet m n = some v ∧ P (n, v) = true) := by
  constructor
  · intro h
    rcases List.mem_map.mp h with ⟨p, hpf, rfl⟩
    obtain ⟨hpm, hP⟩ := List.mem_filter.mp hpf
    refine ⟨p.snd, ?_, ?_⟩
    · exact mapGet_of_mem_of_nodupKeys hnd (by simpa using hpm)
    · simpa using hP
  · rintro ⟨v, hget, hP⟩
    have hmem := mem_of_mapGet_eq_some hget
    exact List.mem_map.mpr ⟨(n, v), List.mem_filter.mpr ⟨hmem, hP⟩, rfl⟩

theorem remDeg_nil (g : DependencyGraph) (n : String) :
    remDeg g [] n = (deps g n).length := by
  unfold remDeg
  simp

/-- Correctness of `topologicalSort` on a well-formed, closed, acyclic
dependency graph: the output is a permutation of the nodes, and every edge
target precedes its source. -/
theorem topologicalSort_spec (g : DependencyGraph)
    (hkeys : g.edges.map Prod.fst = g.nodes) (hnd : g.nodes.Nodup)
    (hdnd : ∀ n, (deps g n).Nodup)
    (hclosed : ∀ n ∈ g.nodes, ∀ b ∈ deps g n, b ∈ g.nodes)
    (hacyc : Acyclic g) :
    (topologicalSort g).Perm g.nodes ∧
      ∀ a b, Edge g a b → Precedes (topologicalSort g) b a := by
  obtain ⟨haKeys, hiKeys, hdeg0, hadj⟩ := buildAdjIndeg_spec g hkeys hnd
  have hndk : ((buildAdjIndeg g).snd.map Prod.fst).Nodup := by
    rw [hiKeys]
    exact hnd
  have hq0mem : ∀ n,
      (n ∈ (((buildAdjIndeg g).snd.filter (fun p => p.snd = 0)).map Prod.fst) ↔
        ∃ v, mapGet (buildAdjIndeg g).snd n = some v ∧ v = 0) := by
    intro n
    rw [mem_filterKeys _ hndk]
    constructor
    · rintro ⟨v, h1, h2⟩
      exact ⟨v, h1, by simpa using h2⟩
    · rintro ⟨v, h1, h2⟩
      exact ⟨v, h1, by simpa using h2⟩
  have hq0nodup :
      ((((buildAdjIndeg g).snd.filter (fun p => p.snd = 0)).map Prod.fst)).Nodup :=
    hndk.sublist (List.Sublist.map _ (List.filter_sublist _))
  have hInv0 : KahnInv g
      { sorted := [],
        queue := (((buildAdjIndeg g).snd.filter (fun p => p.snd = 0)).map
          Prod.fst),
        inDegree := (buildAdjIndeg g).snd } := by
    refine ⟨?_, ?_, ?_, ?_, ?_, ?_⟩
    · simpa using hq0nodup
    · intro x hx
      simp only [List.nil_append] at hx
      obtain ⟨v, hv, _⟩ := (hq0mem x).mp hx
      have : x ∈ (buildAdjIndeg g).snd.map Prod.fst := by
        rw [← mapGet_isSome_iff, hv]
        rfl
      rw [hiKeys] at this
      exact this
    · exact hiKeys
    · intro n hn
      rw [hdeg0 n hn, remDeg_nil]
    · intro n hn
      simp only [List.nil_append]
      rw [hq0mem n]
      constructor
      · rintro ⟨v, hv, rfl⟩
        rw [hdeg0 n hn] at hv
        have : (deps g n).length = 0 := by
          have := Option.some.inj hv
          exact_mod_cast this
        intro b hb
        rw [List.length_eq_zero.mp this] at hb
        simp at hb
      · intro hall
        refine ⟨((deps g n).length : Int), hdeg0 n hn, ?_⟩
        have : deps g n = [] := by
          cases hde : deps g n with
          | nil => rfl
          | cons c cs =>
            have := hall c (by rw [hde]; exact List.mem_cons_self _ _)
            simp at this
        rw [this]
        simp
    · intro l₁ a l₂ hsplit
      exact absurd hsplit.symm (List.append_ne_nil_of_right_ne_nil _ (by simp))
  obtain ⟨hInvF, hqF⟩ := kahnLoop_inv g hkeys hnd hdnd (g.nodes.length + 1)
    _ hInv0 (by simp)
  have hcomplete := kahn_complete g hclosed hacyc _ hInvF hqF
  have hnodupF : (kahnLoop (buildAdjIndeg g).fst (g.nodes.length + 1)
      { sorted := [],
        queue := (((buildAdjIndeg g).snd.filter (fun p => p.snd = 0)).map
          Prod.fst),
        inDegree := (buildAdjIndeg g).snd }).sorted.Nodup :=
    (List.nodup_append.mp hInvF.nodup).1
  have hsubF : (kahnLoop (buildAdjIndeg g).fst (g.nodes.length + 1)
      { sorted := [],
        queue := (((buildAdjIndeg g).snd.filter (fun p => p.snd = 0)).map
          Prod.fst),
        inDegree := (buildAdjIndeg g).snd }).sorted ⊆ g.nodes := by
    intro y hy
    exact hInvF.subset y (List.mem_append_left _ hy)
  have hperm : (kahnLoop (buildAdjIndeg g).fst (g.nodes.length + 1)
      { sorted := [],
        queue := (((buildAdjIndeg g).snd.filter (fun p => p.snd = 0)).map
          Prod.fst),
        inDegree := (buildAdjIndeg g).snd }).sorted.Perm g.nodes :=
    (hnodupF.subperm hsubF).antisymm (hnd.subperm hcomplete)
  have hts : topologicalSort g = (kahnLoop (buildAdjIndeg g).fst
      (g.nodes.length + 1)
      { sorted := [],
        queue := (((buildAdjIndeg g).snd.filter (fun p => p.snd = 0)).map
          Prod.fst),
        inDegree := (buildAdjIndeg g).snd }).sorted := by
    show (if _ ≠ _ then _ else _) = _
    rw [if_neg]
    intro hne
    exact hne hperm.length_eq
  refine ⟨hts ▸ hperm, ?_⟩
  intro a b hedge
  have han : a ∈ g.nodes := edge_source_mem g hkeys hedge
  have haF : a ∈ topologicalSort g := by
    rw [hts]
    exact hcomplete a han
  obtain ⟨l₁, l₂, hdecomp⟩ := List.append_of_mem haF
  have hords := hInvF.ord l₁ a l₂ (by rw [← hts]; exact hdecomp) b hedge
  have hndF : (topologicalSort g).Nodup := by
    rw [hts]
    exact hnodupF
  have hanotl₁ : a ∉ l₁ := by
    rw [hdecomp] at hndF
    intro hc
    exact (List.disjoint_of_nodup_append hndF) hc (List.mem_cons_self _ _)
  refine ⟨?_, haF, ?_⟩
  · rw [hdecomp]
    exact List.mem_append_left _ hords
  · rw [hdecomp, List.indexOf_append_of_not_mem hanotl₁,
      List.indexOf_cons_self, List.indexOf_append_of_mem hords]
    have := List.indexOf_lt_length.mpr hords
    omega

/-! ### Claim-level statements for the dependency resolver -/

/-- The non-self foreign-key edge relation of a schema list: `a` has a
foreign key referencing the different table `b`. -/
def FkEdge (schemas : List TableSchema) (a b : String) : Prop :=
  ∃ t ∈ schemas, t.tableName = a ∧
    ∃ fk ∈ t.foreignKeys, fk.referencedTable = b ∧ b ≠ a

theorem edge_buildGraph_iff_fkEdge (schemas : List TableSchema) (a b : String) :
    Edge (buildGraph schemas) a b ↔ FkEdge schemas a b :=
  mem_deps_buildGraph schemas a b

/-- A rank function decreasing along a relation forbids relational cycles. -/
theorem no_transGen_refl_of_rank {r : String → String → Prop}
    (rank : String → Nat) (hr : ∀ a b, r a b → rank b < rank a) :
    ∀ n, ¬ Relation.TransGen r n n := by
  intro n hcyc
  have hdec : ∀ a b, Relation.TransGen r a b → rank b < rank a := by
    intro a b h
    induction h with
    | single h1 => exact hr _ _ h1
    | tail _ h2 ih => exact lt_trans (hr _ _ h2) ih
  exact lt_irrefl _ (hdec n n hcyc)

/-- C3 (amended): on a schema set that is closed (every referenced table is
itself one of the schemas) and whose non-self FK graph is acyclic,
`topologicalSort (buildGraph schemas)` lists each table name exactly once
and puts the target of every non-self foreign key before its source. -/
theorem claim3_amended (schemas : List TableSchema)
    (hclosed : ∀ t ∈ schemas, ∀ fk ∈ t.foreignKeys,
      ∃ u ∈ schemas, u.tableName = fk.referencedTable)
    (hacyc : ∀ n, ¬ Relation.TransGen (FkEdge schemas) n n) :
    (topologicalSort (buildGraph schemas)).Nodup ∧
      (∀ x, x ∈ topologicalSort (buildGraph schemas) ↔
        ∃ t ∈ schemas, t.tableName = x) ∧
      ∀ t ∈ schemas, ∀ fk ∈ t.foreignKeys,
        fk.referencedTable ≠ t.tableName →
        Precedes (topologicalSort (buildGraph schemas)) fk.referencedTable
          t.tableName := by
  have hkeys := buildGraph_keys schemas
  have hnd := buildGraph_nodes_nodup schemas
  have hdnd := deps_buildGraph_nodup schemas
  have hclosed' : ∀ n ∈ (buildGraph schemas).nodes,
      ∀ b ∈ deps (buildGraph schemas) n, b ∈ (buildGraph schemas).nodes := by
    intro n _ b hb
    obtain ⟨t, ht, _, fk, hfk, rfl, _⟩ :=
      (mem_deps_buildGraph schemas n _).mp hb
    obtain ⟨u, hu, huname⟩ := hclosed t ht fk hfk
    exact (mem_buildGraph_nodes schemas _).mpr ⟨u, hu, huname⟩
  have hacyc' : Acyclic (buildGraph schemas) := by
    intro n hcyc
    apply hacyc n
    exact Relation.TransGen.mono
      (fun a b h => (edge_buildGraph_iff_fkEdge schemas a b).mp h) hcyc
  obtain ⟨hperm, hord⟩ :=
    topologicalSort_spec (buildGraph schemas) hkeys hnd hdnd hclosed' hacyc'
  refine ⟨hperm.nodup_iff.mpr hnd, ?_, ?_⟩
  · intro x
    rw [hperm.mem_iff]
    exact mem_buildGraph_nodes schemas x
  · intro t ht fk hfk hne
    apply hord
    exact (edge_buildGraph_iff_fkEdge schemas _ _).mpr
      ⟨t, ht, rfl, fk, hfk, rfl, hne⟩

/-- The dangling-FK schema used to refute C3 as stated: table `a` has a
foreign key to table `b`, but `b` is not among the schemas. -/
def tblA_dangling : TableSchema :=
  ⟨"a", ["id", "b_id"], ["id"], [⟨"b_id", "b", "id"⟩], []⟩

theorem fkEdge_dangling_char (x y : String)
    (h : FkEdge [tblA_dangling] x y) : x = "a" ∧ y = "b" := by
  obtain ⟨t, ht, rfl, fk, hfk, rfl, _⟩ := h
  rcases List.mem_singleton.mp ht with rfl
  have : fk = ⟨"b_id", "b", "id"⟩ := List.mem_singleton.mp hfk
  subst this
  exact ⟨rfl, rfl⟩

/-- C3 (counterexample): for the single schema `a(id, b_id)` with a foreign
key `b_id → b.id` whose target table `b` has no schema, the non-self FK
graph is acyclic, the claim's hypotheses hold, yet `b` does not precede `a`
in `topologicalSort (buildGraph ...)` — `b` does not appear at all. -/
theorem claim3_counterexample :
    (∀ n, ¬ Relation.TransGen (FkEdge [tblA_dangling]) n n) ∧
      (⟨"b_id", "b", "id"⟩ : ForeignKeyInfo) ∈ tblA_dangling.foreignKeys ∧
      ("b" : String) ≠ tblA_dangling.tableName ∧
      ¬ Precedes (topologicalSort (buildGraph [tblA_dangling])) "b"
        tblA_dangling.tableName := by
  refine ⟨?_, by decide, by decide, by decide⟩
  apply no_transGen_refl_of_rank (fun s => if s = "a" then 1 else 0)
  intro a b h
  obtain ⟨rfl, rfl⟩ := fkEdge_dangling_char a b h
  decide

/-- Closed two-table witness schemas: `wa` references `wb`. -/
def tblWb : TableSchema := ⟨"wb", ["id"], ["id"], [], []⟩

/-- Closed two-table witness schemas: `wa` references `wb`. -/
def tblWa : TableSchema :=
  ⟨"wa", ["id", "wb_id"], ["id"], [⟨"wb_id", "wb", "id"⟩], []⟩

theorem fkEdge_witness_char (x y : String)
    (h : FkEdge [tblWa, tblWb] x y) : x = "wa" ∧ y = "wb" := by
  obtain ⟨t, ht, rfl, fk, hfk, rfl, _⟩ := h
  rcases List.mem_cons.mp ht with rfl | ht
  · have : fk = ⟨"wb_id", "wb", "id"⟩ := List.mem_singleton.mp hfk
    subst this
    exact ⟨rfl, rfl⟩
  · rcases List.mem_singleton.mp ht with rfl
    simp [tblWb] at hfk

theorem claim3_witness :
    (∀ t ∈ [tblWa, tblWb], ∀ fk ∈ t.foreignKeys,
      ∃ u ∈ [tblWa, tblWb], u.tableName = fk.referencedTable) ∧
      Precedes (topologicalSort (buildGraph [tblWa, tblWb])) "wb" "wa" := by
  have hacyc : ∀ n, ¬ Relation.TransGen (FkEdge [tblWa, tblWb]) n n := by
    apply no_transGen_refl_of_rank (fun s => if s = "wa" then 1 else 0)
    intro a b h
    obtain ⟨rfl, rfl⟩ := fkEdge_witness_char a b h
    decide
  have hclosed : ∀ t ∈ [tblWa, tblWb], ∀ fk ∈ t.foreignKeys,
      ∃ u ∈ [tblWa, tblWb], u.tableName = fk.referencedTable := by decide
  refine ⟨hclosed, ?_⟩
  have := (claim3_amended [tblWa, tblWb] hclosed hacyc).2.2 tblWa
    (List.mem_cons_self _ _) ⟨"wb_id", "wb", "id"⟩ (by decide) (by decide)
  exact this

/-! ### Soundness of `detectCircularDependencies` -/

/-- A non-empty edge path that starts and ends at the same node. -/
def IsCyclePath (g : DependencyGraph) (p : List String) : Prop :=
  p ≠ [] ∧ p.head? = p.getLast? ∧ List.Chain' (fun a b => Edge g a b) p

/-- Precondition of `dfsNode`. -/
def NodePre (g : DependencyGraph) (node : String) (path : List String)
    (st : DfsState) : Prop :=
  st.recStack ⊆ st.visited ∧ st.recStack ⊆ path ∧ node ∉ st.visited ∧
    List.Chain' (fun a b => Edge g a b) (path ++ [node]) ∧
    ∀ p ∈ st.cycles, IsCyclePath g p

/-- Precondition of `dfsDeps`. -/
def DepsPre (g : DependencyGraph) (ds : List String) (path1 : List String)
    (st : DfsState) : Prop :=
  st.recStack ⊆ st.visited ∧ st.recStack ⊆ path1 ∧
    List.Chain' (fun a b => Edge g a b) path1 ∧
    (∃ lastn, path1.getLast? = some lastn ∧ ∀ dep ∈ ds, Edge g lastn dep) ∧
    ∀ p ∈ st.cycles, IsCyclePath g p

/-- What one DFS call guarantees: the recursion stack is restored, the
visited set only grows, and every recorded cycle is a real cycle path. -/
def DfsPost (g : DependencyGraph) (st st' : DfsState) : Prop :=
  st'.recStack = st.recStack ∧ st.visited ⊆ st'.visited ∧
    ∀ p ∈ st'.cycles, IsCyclePath g p

theorem exists_drop_indexOf :
    ∀ (l : List String) (a : String), a ∈ l →
      ∃ t, l.drop (l.indexOf a) = a :: t := by
  intro l
  induction l with
  | nil => intro a ha; simp at ha
  | cons b rest ih =>
    intro a ha
    by_cases hb : b = a
    · subst hb
      refine ⟨rest, ?_⟩
      rw [List.indexOf_cons_self]
      rfl
    · rcases List.mem_cons.mp ha with rfl | ha
      · exact absurd rfl hb
      · obtain ⟨t, ht⟩ := ih a ha
        refine ⟨t, ?_⟩
        rw [List.indexOf_cons_ne _ hb]
        simpa using ht

theorem getLast?_of_isSuffix {l₁ l₂ : List String}
    (h : List.IsSuffix l₁ l₂) (hne : l₁ ≠ []) :
    l₁.getLast? = l₂.getLast? := by
  obtain ⟨t, rfl⟩ := h
  rw [List.getLast?_append_of_ne_nil _ hne]

/-- Precondition for one DFS call. -/
def CallPre (g : DependencyGraph) : DfsCall → DfsState → Prop
  | .node n path, st => NodePre g n path st
  | .deps ds path1, st => DepsPre g ds path1 st

theorem dfsRun_sound (g : DependencyGraph) :
    ∀ (fuel : Nat) (call : DfsCall) (st : DfsState), CallPre g call st →
      DfsPost g st (dfsRun g fuel call st) := by
  intro fuel
  induction fuel with
  | zero =>
    intro call st hpre
    rw [dfsRun]
    cases call with
    | node n path => exact ⟨rfl, fun _ h => h, hpre.2.2.2.2⟩
    | deps ds path1 => exact ⟨rfl, fun _ h => h, hpre.2.2.2.2⟩
  | succ fuel ih =>
    intro call st hpre
    cases call with
    | node node path =>
      obtain ⟨hrv, hrp, hnv, hchain, hcyc⟩ := hpre
      have hnr : node ∉ st.recStack := fun hc => hnv (hrv hc)
      have hvis : setAdd st.visited node = st.visited ++ [node] := if_neg hnv
      have hrec : setAdd st.recStack node = st.recStack ++ [node] := if_neg hnr
      rw [dfsRun]
      have hpre1 : CallPre g (.deps (deps g node) (path ++ [node]))
          { st with visited := setAdd st.visited node,
                    recStack := setAdd st.recStack node } := by
        refine ⟨?_, ?_, hchain, ⟨node, List.getLast?_concat _, fun d hd => hd⟩,
          hcyc⟩
        · rw [hvis, hrec]
          intro y hy
          rcases List.mem_append.mp hy with hy | hy
          · exact List.mem_append_left _ (hrv hy)
          · exact List.mem_append_right _ hy
        · rw [hrec]
          intro y hy
          rcases List.mem_append.mp hy with hy | hy
          · exact List.mem_append_left _ (hrp hy)
          · exact List.mem_append_right _ hy
      obtain ⟨hr2, hv2, hcyc2⟩ :=
        ih (.deps (deps g node) (path ++ [node])) _ hpre1
      refine ⟨?_, ?_, hcyc2⟩
      · show (dfsRun g fuel (.deps (deps g node) (path ++ [node]))
            _).recStack.erase node = st.recStack
        rw [hr2]
        show (setAdd st.recStack node).erase node = st.recStack
        rw [hrec, List.erase_append_right _ hnr, List.erase_cons_head,
          List.append_nil]
      · intro y hy
        apply hv2
        show y ∈ setAdd st.visited node
        rw [hvis]
        exact List.mem_append_left _ hy
    | deps ds path1 =>
      cases ds with
      | nil =>
        rw [dfsRun]
        exact ⟨rfl, fun _ h => h, hpre.2.2.2.2⟩
      | cons dep ds =>
        obtain ⟨hrv, hrp, hchain, ⟨lastn, hlast, hedges⟩, hcyc⟩ := hpre
        rw [dfsRun]
        by_cases hv : dep ∉ st.visited
        · rw [if_pos hv]
          have hnpre : CallPre g (.node dep path1) st := by
            refine ⟨hrv, hrp, hv, ?_, hcyc⟩
            rw [List.chain'_append]
            refine ⟨hchain, List.chain'_singleton _, ?_⟩
            intro x hx y hy
            rw [hlast] at hx
            rcases Option.mem_some_iff.mp hx with rfl
            rcases Option.mem_some_iff.mp (by simpa using hy) with rfl
            exact hedges dep (List.mem_cons_self _ _)
          obtain ⟨hr', hvmono, hcyc'⟩ := ih (.node dep path1) st hnpre
          have hpre' : CallPre g (.deps ds path1)
              (dfsRun g fuel (.node dep path1) st) := by
            refine ⟨?_, ?_, hchain, ⟨lastn, hlast,
              fun d hd => hedges d (List.mem_cons_of_mem _ hd)⟩, hcyc'⟩
            · rw [hr']
              intro y hy
              exact hvmono (hrv hy)
            · rw [hr']
              exact hrp
          obtain ⟨hr'', hvmono', hcyc''⟩ := ih (.deps ds path1) _ hpre'
          exact ⟨hr''.trans hr', fun y hy => hvmono' (hvmono hy), hcyc''⟩
        · rw [if_neg hv]
          by_cases hrs : dep ∈ st.recStack
          · rw [if_pos hrs]
            have hdp : dep ∈ path1 := hrp hrs
            rw [if_pos hdp]
            obtain ⟨t, hdrop⟩ := exists_drop_indexOf path1 dep hdp
            have hsfx : List.IsSuffix (path1.drop (path1.indexOf dep)) path1 :=
              List.drop_suffix _ _
            have hdropne : path1.drop (path1.indexOf dep) ≠ [] := by
              rw [hdrop]
              exact List.cons_ne_nil _ _
            have hcycOK : IsCyclePath g
                (path1.drop (path1.indexOf dep) ++ [dep]) := by
              refine ⟨by simp, ?_, ?_⟩
              · rw [List.getLast?_concat, hdrop]
                rfl
              · rw [List.chain'_append]
                refine ⟨hchain.suffix hsfx, List.chain'_singleton _, ?_⟩
                intro x hx y hy
                rw [getLast?_of_isSuffix hsfx hdropne, hlast] at hx
                rcases Option.mem_some_iff.mp hx with rfl
                rcases Option.mem_some_iff.mp (by simpa using hy) with rfl
                exact hedges dep (List.mem_cons_self _ _)
            have hpre' : CallPre g (.deps ds path1)
                { st with cycles := st.cycles ++
                    [path1.drop (path1.indexOf dep) ++ [dep]] } := by
              refine ⟨hrv, hrp, hchain, ⟨lastn, hlast,
                fun d hd => hedges d (List.mem_cons_of_mem _ hd)⟩, ?_⟩
              intro p hp
              rcases List.mem_append.mp hp with hp | hp
              · exact hcyc p hp
              · rcases List.mem_singleton.mp hp with rfl
                exact hcycOK
            obtain ⟨hr'', hvmono', hcyc''⟩ := ih (.deps ds path1) _ hpre'
            exact ⟨hr'', hvmono', hcyc''⟩
          · rw [if_neg hrs]
            exact ih (.deps ds path1) st ⟨hrv, hrp, hchain, ⟨lastn, hlast,
              fun d hd => hedges d (List.mem_cons_of_mem _ hd)⟩, hcyc⟩

/-- C4 (amended): every path returned by `detectCircularDependencies` is a
genuine directed cycle of the graph — non-empty, edge-connected, starting
and ending at the same node.  (Not every distinct cycle is returned.) -/
theorem claim4_amended_detect_sound (g : DependencyGraph) :
    ∀ p ∈ detectCircularDependencies g, IsCyclePath g p := by
  unfold detectCircularDependencies
  suffices h : ∀ (ns : List String) (st : DfsState), st.recStack = [] →
      (∀ p ∈ st.cycles, IsCyclePath g p) →
      (∀ p ∈ (ns.foldl (fun st node =>
        if node ∉ st.visited then dfsRun g (dfsFuel g) (.node node []) st
        else st)
        st).cycles, IsCyclePath g p) by
    exact h g.nodes ⟨[], [], []⟩ rfl (by simp)
  intro ns
  induction ns with
  | nil => intro st _ hcyc; exact hcyc
  | cons n rest ih =>
    intro st hrs hcyc
    rw [List.foldl_cons]
    by_cases hv : n ∉ st.visited
    · rw [if_pos hv]
      have hpre : CallPre g (.node n []) st := by
        refine ⟨?_, ?_, hv, ?_, hcyc⟩
        · rw [hrs]
          exact List.nil_subset _
        · rw [hrs]
          exact List.nil_subset _
        · simp
      obtain ⟨hr', _, hcyc'⟩ := dfsRun_sound g (dfsFuel g) (.node n []) st hpre
      exact ih _ (hr'.trans hrs) hcyc'
    · rw [if_neg hv]
      exact ih st hrs hcyc

/-- Tables for the C4 counterexample: `v → x`, `v → w`, `x → w`, `w → v`.
The graph has two distinct directed cycles — `v → w → v` and
`v → x → w → v` — but the DFS records only the second. -/
def tblV : TableSchema :=
  ⟨"v", [], [], [⟨"x_id", "x", "id"⟩, ⟨"w_id", "w", "id"⟩], []⟩

/-- See `tblV`. -/
def tblX : TableSchema := ⟨"x", [], [], [⟨"w_id", "w", "id"⟩], []⟩

/-- See `tblV`. -/
def tblW : TableSchema := ⟨"w", [], [], [⟨"v_id", "v", "id"⟩], []⟩

/-- C4 (counterexample): in the graph built from `tblV, tblX, tblW` the
two-node directed cycle `v → w → v` exists, yet no returned path traverses
exactly that cycle's nodes: the only returned path is `[v, x, w, v]`. -/
theorem claim4_counterexample :
    Edge (buildGraph [tblV, tblX, tblW]) "v" "w" ∧
      Edge (buildGraph [tblV, tblX, tblW]) "w" "v" ∧
      detectCircularDependencies (buildGraph [tblV, tblX, tblW]) =
        [["v", "x", "w", "v"]] ∧
      ¬ ∃ p ∈ detectCircularDependencies (buildGraph [tblV, tblX, tblW]),
          p.head? = p.getLast? ∧ p ⊆ ["v", "w"] ∧ "v" ∈ p ∧ "w" ∈ p := by
  refine ⟨by decide, by decide, by decide, ?_⟩
  decide

theorem claim4_witness :
    ["v", "x", "w", "v"] ∈
        detectCircularDependencies (buildGraph [tblV, tblX, tblW]) ∧
      IsCyclePath (buildGraph [tblV, tblX, tblW]) ["v", "x", "w", "v"] :=
  ⟨by decide,
   claim4_amended_detect_sound (buildGraph [tblV, tblX, tblW]) _ (by decide)⟩

/-! ### Correctness of `sortRows` -/

theorem mem_mapSet {α β : Type} [DecidableEq α] {m : List (α × β)} {k : α}
    {v : β} {p : α × β} (h : p ∈ mapSet m k v) : p ∈ m ∨ p = (k, v) := by
  unfold mapSet at h
  by_cases hc : (m.map Prod.fst).contains k
  · rw [if_pos hc] at h
    rcases List.mem_map.mp h with ⟨q, hq, rfl⟩
    by_cases hqf : q.fst = k
    · rw [if_pos hqf]
      exact Or.inr rfl
    · rw [if_neg hqf]
      exact Or.inl hq
  · rw [if_neg hc] at h
    rcases List.mem_append.mp h with hq | hq
    · exact Or.inl hq
    · exact Or.inr (List.mem_singleton.mp hq)

theorem buildRowMap_spec (pk : String) (U : List Row) :
    ∀ (l : List Row) (acc : List (Option Value × Row)),
      (∀ r ∈ l, r ∈ U) →
      (∀ p ∈ acc, rowGet p.snd pk = p.fst ∧ p.snd ∈ U) →
      ∀ p ∈ l.foldl (fun m row => mapSet m (rowGet row pk) row) acc,
        rowGet p.snd pk = p.fst ∧ p.snd ∈ U := by
  intro l
  induction l with
  | nil => intro acc _ hacc; exact hacc
  | cons row rest ih =>
    intro acc hl hacc
    rw [List.foldl_cons]
    apply ih
    · intro r hr
      exact hl r (List.mem_cons_of_mem _ hr)
    · intro p hp
      rcases mem_mapSet hp with hp | rfl
      · exact hacc p hp
      · exact ⟨rfl, hl row (List.mem_cons_self _ _)⟩

theorem buildRowMap_mem (rows : List Row) (pk : String) {k : Option Value}
    {r : Row} (h : mapGet (buildRowMap rows pk) k = some r) :
    r ∈ rows ∧ rowGet r pk = k := by
  have hmem := mem_of_mapGet_eq_some h
  have := buildRowMap_spec pk rows rows [] (fun _ h => h) (by simp) _ hmem
  exact ⟨this.2, this.1⟩

/-- Number of distinct primary-key values not yet visited. -/
def unvisitedCount (rows : List Row) (pk : String) (st : VisitState) : Nat :=
  (((rows.map (fun r => rowGet r pk)).dedup).filter
    (fun i => i ∉ st.visitedIds)).length

theorem filter_not_mem_append_singleton
    {l s : List (Option Value)} {x : Option Value}
    (hnd : l.Nodup) (hx : x ∉ s) (hxl : x ∈ l) :
    1 ≤ (l.filter (fun b => b ∉ s)).length ∧
      (l.filter (fun b => b ∉ s ++ [x])).length =
        (l.filter (fun b => b ∉ s)).length - 1 := by
  have hsplit : l.filter (fun b => b ∉ s ++ [x]) =
      (l.filter (fun b => b ∉ s)).filter (fun b => decide (b ≠ x)) := by
    rw [List.filter_filter]
    apply List.filter_congr
    intro b _
    simp only [List.mem_append, List.mem_singleton, decide_not,
      Bool.not_eq_true', decide_eq_false_iff_not, not_or, ← Bool.decide_and]
    simp [and_comm]
  have hmem' : x ∈ l.filter (fun b => b ∉ s) := by
    simp only [List.mem_filter]
    exact ⟨hxl, by simpa using hx⟩
  have hnd' : (l.filter (fun b => b ∉ s)).Nodup := hnd.filter _
  have herase : (l.filter (fun b => b ∉ s)).filter (fun b => decide (b ≠ x)) =
      (l.filter (fun b => b ∉ s)).erase x := by
    rw [List.Nodup.erase_eq_filter hnd']
    apply List.filter_congr
    intro b _
    by_cases hbx : b = x <;> simp [hbx, bne]
  constructor
  · have := List.length_pos_of_mem hmem'
    omega
  · rw [hsplit, herase, List.length_erase_of_mem hmem']

/-- Invariant of the `visit` recursion of `sortRows`. -/
structure VisitInv (rows : List Row) (pk : String) (st : VisitState) : Prop where
  vnodup : st.visitedIds.Nodup
  vsub : ∀ i ∈ st.visitedIds, i ∈ rows.map (fun r => rowGet r pk)
  snodup : (st.sorted.map (fun r => rowGet r pk)).Nodup
  ssub : ∀ r ∈ st.sorted, r ∈ rows
  sidsv : ∀ i ∈ st.sorted.map (fun r => rowGet r pk), i ∈ st.visitedIds

theorem visitRow_spec (rows : List Row) (fkCol pk : String) :
    ∀ (fuel : Nat) (row : Row) (st : VisitState), row ∈ rows →
      unvisitedCount rows pk st < fuel → VisitInv rows pk st →
      VisitInv rows pk (visitRow (buildRowMap rows pk) fkCol pk fuel row st) ∧
      (∃ ext extv,
        (visitRow (buildRowMap rows pk) fkCol pk fuel row st).sorted =
          st.sorted ++ ext ∧
        (visitRow (buildRowMap rows pk) fkCol pk fuel row st).visitedIds =
          st.visitedIds ++ extv ∧
        (∀ i, i ∈ extv ↔ i ∈ ext.map (fun r => rowGet r pk))) ∧
      rowGet row pk ∈
        (visitRow (buildRowMap rows pk) fkCol pk fuel row st).visitedIds := by
  intro fuel
  induction fuel with
  | zero =>
    intro row st _ hfuel _
    omega
  | succ fuel ih =>
    intro row st hrow hfuel hInv
    rw [visitRow]
    by_cases hid : rowGet row pk ∈ st.visitedIds
    · rw [if_pos hid]
      exact ⟨hInv, ⟨[], [], by simp, by simp, by simp⟩, hid⟩
    · rw [if_neg hid]
      have hidmem : rowGet row pk ∈ rows.map (fun r => rowGet r pk) :=
        List.mem_map.mpr ⟨row, hrow, rfl⟩
      have hInv1 : VisitInv rows pk
          { st with visitedIds := st.visitedIds ++ [rowGet row pk] } := by
        refine ⟨?_, ?_, hInv.snodup, hInv.ssub, ?_⟩
        · rw [List.nodup_append]
          exact ⟨hInv.vnodup, List.nodup_singleton _,
            fun i hi hx => hid ((List.mem_singleton.mp hx) ▸ hi)⟩
        · intro i hi
          rcases List.mem_append.mp hi with hi | hi
          · exact hInv.vsub i hi
          · rcases List.mem_singleton.mp hi with rfl
            exact hidmem
        · intro i hi
          exact List.mem_append_left _ (hInv.sidsv i hi)
      have hcount1 : unvisitedCount rows pk
          { st with visitedIds := st.visitedIds ++ [rowGet row pk] } <
          fuel := by
        have hdednd : ((rows.map (fun r => rowGet r pk)).dedup).Nodup :=
          List.nodup_dedup _
        have hdemem : rowGet row pk ∈
            (rows.map (fun r => rowGet r pk)).dedup :=
          List.mem_dedup.mpr hidmem
        obtain ⟨h1, h2⟩ :=
          filter_not_mem_append_singleton hdednd hid hdemem
        unfold unvisitedCount at hfuel ⊢
        have h2' : (((rows.map (fun r => rowGet r pk)).dedup).filter
            (fun i => i ∉ st.visitedIds ++ [rowGet row pk])).length =
            (((rows.map (fun r => rowGet r pk)).dedup).filter
              (fun i => i ∉ st.visitedIds)).length - 1 := h2
        have h1' : 1 ≤ (((rows.map (fun r => rowGet r pk)).dedup).filter
            (fun i => i ∉ st.visitedIds)).length := h1
        show (((rows.map (fun r => rowGet r pk)).dedup).filter
          (fun i => i ∉ st.visitedIds ++ [rowGet row pk])).length < fuel
        rw [h2']
        omega
      -- the recursive visit into the parent row (if any)
      rcases hpar : parentOf (buildRowMap rows pk) fkCol row with _ | parent
      · -- no parent: push the row directly
        refine ⟨?_, ⟨[row], [rowGet row pk], by simp, by simp, by simp⟩, ?_⟩
        · refine ⟨hInv1.vnodup, hInv1.vsub, ?_, ?_, ?_⟩
          · rw [List.map_append]
            rw [List.nodup_append]
            refine ⟨hInv.snodup, by simp, ?_⟩
            intro i hi hx
            have hxi : i = rowGet row pk := by simpa using hx
            rw [hxi] at hi
            exact hid (hInv.sidsv _ hi)
          · intro r hr
            rcases List.mem_append.mp hr with hr | hr
            · exact hInv.ssub r hr
            · rcases List.mem_singleton.mp hr with rfl
              exact hrow
          · intro i hi
            rw [List.map_append] at hi
            rcases List.mem_append.mp hi with hi | hi
            · exact List.mem_append_left _ (hInv.sidsv i hi)
            · have hxi : i = rowGet row pk := by simpa using hi
              rw [hxi]
              exact List.mem_append_right _ (List.mem_singleton_self _)
        · exact List.mem_append_right _ (List.mem_singleton_self _)
      · -- parent found in the row map
        have hparent : parent ∈ rows ∧
            rowGet parent pk = (match rowGet row fkCol with
              | none => none
              | some (.prim .pNull) => none
              | some pv => some pv) := by
          unfold parentOf at hpar
          rcases hfk : rowGet row fkCol with _ | pv
          · rw [hfk] at hpar
            simp at hpar
          · rcases pv with p | elems
            · rcases p with _ | n | s | b
              · rw [hfk] at hpar
                simp at hpar
              all_goals {
                rw [hfk] at hpar
                have := buildRowMap_mem rows pk hpar
                exact ⟨this.1, this.2⟩ }
            · rw [hfk] at hpar
              have := buildRowMap_mem rows pk hpar
              exact ⟨this.1, this.2⟩
        obtain ⟨hInv2, ⟨ext2, extv2, hs2, hv2, hiff2⟩, hA3⟩ :=
          ih parent _ hparent.1 hcount1 hInv1
        refine ⟨?_, ⟨ext2 ++ [row], rowGet row pk :: extv2, ?_, ?_, ?_⟩, ?_⟩
        · refine ⟨hInv2.vnodup, hInv2.vsub, ?_, ?_, ?_⟩
          · rw [List.map_append, List.nodup_append]
            refine ⟨hInv2.snodup, by simp, ?_⟩
            intro i hi hx
            have hxi : i = rowGet row pk := by simpa using hx
            rw [hxi] at hi
            rw [hs2, List.map_append] at hi
            rcases List.mem_append.mp hi with hi | hi
            · exact hid (hInv.sidsv _ hi)
            · have hie : rowGet row pk ∈ extv2 := (hiff2 _).mpr hi
              have hnd2 := hInv2.vnodup
              rw [hv2] at hnd2
              exact (List.disjoint_of_nodup_append hnd2)
                (List.mem_append_right _ (List.mem_singleton_self _)) hie
          · intro r hr
            rcases List.mem_append.mp hr with hr | hr
            · exact hInv2.ssub r hr
            · rcases List.mem_singleton.mp hr with rfl
              exact hrow
          · intro i hi
            rw [List.map_append] at hi
            rcases List.mem_append.mp hi with hi | hi
            · exact hInv2.sidsv i hi
            · rcases List.mem_singleton.mp (by simpa using hi) with rfl
              rw [hv2]
              exact List.mem_append_left _
                (List.mem_append_right _ (List.mem_singleton_self _))
        · show (visitRow (buildRowMap rows pk) fkCol pk fuel parent _).sorted
              ++ [row] = st.sorted ++ (ext2 ++ [row])
          rw [hs2, List.append_assoc]
        · show (visitRow (buildRowMap rows pk) fkCol pk fuel parent _).visitedIds
              = st.visitedIds ++ (rowGet row pk :: extv2)
          rw [hv2, List.append_assoc]
          rfl
        · intro i
          rw [List.map_append]
          simp only [List.mem_cons, List.mem_append, List.mem_map,
            List.mem_singleton]
          constructor
          · rintro (rfl | hi)
            · right
              simp
            · left
              exact (List.mem_map.mp ((hiff2 i).mp hi)).imp
                (fun r hr => ⟨hr.1, hr.2⟩)
          · rintro (hi | hi)
            · right
              exact (hiff2 i).mpr (List.mem_map.mpr hi)
            · have hxi : rowGet row pk = i := by simpa using hi
              exact Or.inl hxi.symm
        · show rowGet row pk ∈
            (visitRow (buildRowMap rows pk) fkCol pk fuel parent _).visitedIds
          rw [hv2]
          exact List.mem_append_left _
            (List.mem_append_right _ (List.mem_singleton_self _))

theorem unvisitedCount_le (rows : List Row) (pk : String) (st : VisitState) :
    unvisitedCount rows pk st ≤ rows.length := by
  unfold unvisitedCount
  calc (((rows.map (fun r => rowGet r pk)).dedup).filter
          (fun i => i ∉ st.visitedIds)).length
      ≤ ((rows.map (fun r => rowGet r pk)).dedup).length :=
        List.length_filter_le _ _
    _ ≤ (rows.map (fun r => rowGet r pk)).length :=
        (List.dedup_sublist _).length_le
    _ = rows.length := List.length_map _ _

theorem foldVisit_spec (rows : List Row) (fkCol pk : String) :
    ∀ (todo : List Row) (st : VisitState), (∀ r ∈ todo, r ∈ rows) →
      VisitInv rows pk st →
      VisitInv rows pk (todo.foldl
        (fun st row =>
          visitRow (buildRowMap rows pk) fkCol pk (rows.length + 1) row st)
        st) ∧
      (∃ ext extv,
        (todo.foldl
          (fun st row =>
            visitRow (buildRowMap rows pk) fkCol pk (rows.length + 1) row st)
          st).sorted = st.sorted ++ ext ∧
        (todo.foldl
          (fun st row =>
            visitRow (buildRowMap rows pk) fkCol pk (rows.length + 1) row st)
          st).visitedIds = st.visitedIds ++ extv ∧
        (∀ i, i ∈ extv ↔ i ∈ ext.map (fun r => rowGet r pk))) ∧
      (∀ r ∈ todo, rowGet r pk ∈ (todo.foldl
        (fun st row =>
          visitRow (buildRowMap rows pk) fkCol pk (rows.length + 1) row st)
        st).visitedIds) := by
  intro todo
  induction todo with
  | nil =>
    intro st _ hInv
    exact ⟨hInv, ⟨[], [], by simp, by simp, by simp⟩, by simp⟩
  | cons r todo ih =>
    intro st hsub hInv
    have hr : r ∈ rows := hsub r (List.mem_cons_self _ _)
    have hcount : unvisitedCount rows pk st < rows.length + 1 :=
      Nat.lt_succ_of_le (unvisitedCount_le rows pk st)
    obtain ⟨hInv1, ⟨e1, v1, hs1, hv1, hiff1⟩, hm1⟩ :=
      visitRow_spec rows fkCol pk (rows.length + 1) r st hr hcount hInv
    obtain ⟨hInv2, ⟨e2, v2, hs2, hv2, hiff2⟩, hm2⟩ :=
      ih (visitRow (buildRowMap rows pk) fkCol pk (rows.length + 1) r st)
        (fun q hq => hsub q (List.mem_cons_of_mem _ hq)) hInv1
    rw [List.foldl_cons]
    refine ⟨hInv2, ⟨e1 ++ e2, v1 ++ v2, ?_, ?_, ?_⟩, ?_⟩
    · rw [hs2, hs1, List.append_assoc]
    · rw [hv2, hv1, List.append_assoc]
    · intro i
      simp only [List.mem_append, List.map_append]
      rw [hiff1 i, hiff2 i]
    · intro q hq
      rcases List.mem_cons.mp hq with rfl | hq
      · rw [hv2]
        exact List.mem_append_left _ hm1
      · exact hm2 q hq

/-- `b` is placed strictly before `a` in the row list `l`. -/
def RowPrecedes (l : List Row) (b a : Row) : Prop :=
  b ∈ l ∧ a ∈ l ∧
    @List.indexOf Row instBEqOfDecidableEq b l <
      @List.indexOf Row instBEqOfDecidableEq a l

/-- Every row of `l` whose self-FK parent exists in the row map is placed
after that parent. -/
def ParentOrdered (rowMap : List (Option Value × Row)) (fkCol : String)
    (l : List Row) : Prop :=
  ∀ r ∈ l, ∀ p, parentOf rowMap fkCol r = some p → RowPrecedes l p r

theorem rowPrecedes_append {l t : List Row} {b a : Row}
    (h : RowPrecedes l b a) : RowPrecedes (l ++ t) b a := by
  obtain ⟨hb, ha, hlt⟩ := h
  exact ⟨List.mem_append_left _ hb, List.mem_append_left _ ha,
    by rw [List.indexOf_append_of_mem hb, List.indexOf_append_of_mem ha];
       exact hlt⟩

theorem rowPrecedes_append_singleton {l : List Row} {b a : Row}
    (hb : b ∈ l) (ha : a ∉ l) : RowPrecedes (l ++ [a]) b a := by
  refine ⟨List.mem_append_left _ hb,
    List.mem_append_right _ (List.mem_singleton_self _), ?_⟩
  rw [List.indexOf_append_of_mem hb, List.indexOf_append_of_not_mem ha,
    List.indexOf_cons_self]
  have := List.indexOf_lt_length.mpr hb
  omega

theorem perm_shuffle {α : Type} (a b : List α) (x : α) :
    (a ++ (b ++ [x])).Perm ((a ++ [x]) ++ b) := by
  have h2 : (a ++ (b ++ [x])).Perm (a ++ (x :: b)) :=
    List.Perm.append_left a (List.perm_append_singleton x b)
  have h3 : a ++ (x :: b) = (a ++ [x]) ++ b := by
    rw [List.append_assoc]
    rfl
  exact h3 ▸ h2

theorem unvisitedCount_mark (rows : List Row) (pk : String) (st : VisitState)
    (row : Row) (hrow : row ∈ rows) (hid : rowGet row pk ∉ st.visitedIds) :
    unvisitedCount rows pk
      { st with visitedIds := st.visitedIds ++ [rowGet row pk] } <
      unvisitedCount rows pk st := by
  have hidmem : rowGet row pk ∈ rows.map (fun r => rowGet r pk) :=
    List.mem_map.mpr ⟨row, hrow, rfl⟩
  have hdednd : ((rows.map (fun r => rowGet r pk)).dedup).Nodup :=
    List.nodup_dedup _
  have hdemem : rowGet row pk ∈ (rows.map (fun r => rowGet r pk)).dedup :=
    List.mem_dedup.mpr hidmem
  obtain ⟨h1, h2⟩ := filter_not_mem_append_singleton hdednd hid hdemem
  unfold unvisitedCount
  have h2' : (((rows.map (fun r => rowGet r pk)).dedup).filter
      (fun i => i ∉ st.visitedIds ++ [rowGet row pk])).length =
      (((rows.map (fun r => rowGet r pk)).dedup).filter
        (fun i => i ∉ st.visitedIds)).length - 1 := h2
  have h1' : 1 ≤ (((rows.map (fun r => rowGet r pk)).dedup).filter
      (fun i => i ∉ st.visitedIds)).length := h1
  show (((rows.map (fun r => rowGet r pk)).dedup).filter
    (fun i => i ∉ st.visitedIds ++ [rowGet row pk])).length <
    (((rows.map (fun r => rowGet r pk)).dedup).filter
      (fun i => i ∉ st.visitedIds)).length
  omega

theorem parentOf_mem_rows (rows : List Row) (pk fkCol : String) {row p : Row}
    (hpar : parentOf (buildRowMap rows pk) fkCol row = some p) : p ∈ rows := by
  unfold parentOf at hpar
  rcases hfk : rowGet row fkCol with _ | pv
  · rw [hfk] at hpar
    simp at hpar
  · rcases pv with q | elems
    · rcases q with _ | n | s | b
      · rw [hfk] at hpar
        simp at hpar
      all_goals {
        rw [hfk] at hpar
        exact (buildRowMap_mem rows pk hpar).1 }
    · rw [hfk] at hpar
      exact (buildRowMap_mem rows pk hpar).1

theorem visitRow_ord (rows : List Row) (fkCol pk : String) (rank : Row → Nat)
    (hnd : (rows.map (fun r => rowGet r pk)).Nodup)
    (hrank : ∀ r ∈ rows, ∀ p,
      parentOf (buildRowMap rows pk) fkCol r = some p → rank p < rank r) :
    ∀ (fuel : Nat) (row : Row) (st : VisitState) (pending : List Row),
      row ∈ rows →
      unvisitedCount rows pk st < fuel →
      VisitInv rows pk st →
      (∀ q ∈ pending, q ∈ rows) →
      (∀ q ∈ pending, rank row < rank q) →
      (((st.sorted ++ pending).map (fun r => rowGet r pk)).Nodup) →
      (∀ i, i ∈ st.visitedIds ↔
        i ∈ (st.sorted ++ pending).map (fun r => rowGet r pk)) →
      ParentOrdered (buildRowMap rows pk) fkCol st.sorted →
      ((((visitRow (buildRowMap rows pk) fkCol pk fuel row st).sorted
          ++ pending).map (fun r => rowGet r pk)).Nodup) ∧
      (∀ i, i ∈ (visitRow (buildRowMap rows pk) fkCol pk fuel row st).visitedIds
        ↔ i ∈ ((visitRow (buildRowMap rows pk) fkCol pk fuel row st).sorted
            ++ pending).map (fun r => rowGet r pk)) ∧
      (∃ ext, (visitRow (buildRowMap rows pk) fkCol pk fuel row st).sorted =
        st.sorted ++ ext) ∧
      ParentOrdered (buildRowMap rows pk) fkCol
        (visitRow (buildRowMap rows pk) fkCol pk fuel row st).sorted ∧
      row ∈ (visitRow (buildRowMap rows pk) fkCol pk fuel row st).sorted := by
  have hinj : ∀ a ∈ rows, ∀ b ∈ rows, rowGet a pk = rowGet b pk → a = b :=
    fun a ha b hb h => List.inj_on_of_nodup_map hnd ha hb h
  intro fuel
  induction fuel with
  | zero =>
    intro row st pending _ hfuel _ _ _ _ _ _
    omega
  | succ fuel ih =>
    intro row st pending hrow hfuel hInv hpsub hprank hndsp hbal hord
    rw [visitRow]
    by_cases hid : rowGet row pk ∈ st.visitedIds
    · rw [if_pos hid]
      refine ⟨hndsp, hbal, ⟨[], by simp⟩, hord, ?_⟩
      obtain ⟨q, hq, hqid⟩ := List.mem_map.mp ((hbal _).mp hid)
      rcases List.mem_append.mp hq with hq | hq
      · have hqr : q = row := hinj q (hInv.ssub q hq) row hrow hqid
        exact hqr ▸ hq
      · exfalso
        have hqr : q = row := hinj q (hpsub q hq) row hrow hqid
        have := hprank q hq
        rw [hqr] at this
        omega
    · rw [if_neg hid]
      have hidmem : rowGet row pk ∈ rows.map (fun r => rowGet r pk) :=
        List.mem_map.mpr ⟨row, hrow, rfl⟩
      have hidnotin : rowGet row pk ∉
          (st.sorted ++ pending).map (fun r => rowGet r pk) :=
        fun h => hid ((hbal _).mpr h)
      have hInv1 : VisitInv rows pk
          { st with visitedIds := st.visitedIds ++ [rowGet row pk] } := by
        refine ⟨?_, ?_, hInv.snodup, hInv.ssub, ?_⟩
        · rw [List.nodup_append]
          exact ⟨hInv.vnodup, List.nodup_singleton _,
            fun i hi hx => hid ((List.mem_singleton.mp hx) ▸ hi)⟩
        · intro i hi
          rcases List.mem_append.mp hi with hi | hi
          · exact hInv.vsub i hi
          · rcases List.mem_singleton.mp hi with rfl
            exact hidmem
        · intro i hi
          exact List.mem_append_left _ (hInv.sidsv i hi)
      have hcount1 : unvisitedCount rows pk
          { st with visitedIds := st.visitedIds ++ [rowGet row pk] } <
          fuel := by
        have := unvisitedCount_mark rows pk st row hrow hid
        omega
      have hnd1 : ((st.sorted ++ (pending ++ [row])).map
          (fun r => rowGet r pk)).Nodup := by
        rw [← List.append_assoc, List.map_append, List.nodup_append]
        refine ⟨hndsp, by simp, ?_⟩
        intro i hi hx
        have hxi : i = rowGet row pk := by simpa using hx
        exact hidnotin (hxi ▸ hi)
      have hbal1 : ∀ i, i ∈ st.visitedIds ++ [rowGet row pk] ↔
          i ∈ (st.sorted ++ (pending ++ [row])).map (fun r => rowGet r pk) := by
        intro i
        rw [← List.append_assoc, List.map_append, List.mem_append,
          List.mem_append, hbal i]
        constructor
        · rintro (hi | hi)
          · exact Or.inl hi
          · right
            have hxi : i = rowGet row pk := List.mem_singleton.mp hi
            simp [hxi]
        · rintro (hi | hi)
          · exact Or.inl hi
          · right
            have hxi : i = rowGet row pk := by simpa using hi
            simp [hxi]
      rcases hpar : parentOf (buildRowMap rows pk) fkCol row with _ | p
      · -- no parent: the row is pushed directly after being marked
        have hperm := (perm_shuffle st.sorted pending row).map
          (fun r => rowGet r pk)
        refine ⟨?_, ?_, ⟨[row], rfl⟩, ?_, ?_⟩
        · exact hperm.nodup_iff.mp hnd1
        · intro i
          rw [hbal1 i]
          exact hperm.mem_iff
        · intro r' hr' p' hp'
          rcases List.mem_append.mp hr' with hr' | hr'
          · exact rowPrecedes_append (hord r' hr' p' hp')
          · rcases List.mem_singleton.mp hr' with rfl
            rw [hpar] at hp'
            cases hp'
        · exact List.mem_append_right _ (List.mem_singleton_self _)
      · -- parent found: visit it with this row pending, then push the row
        have hp_rows : p ∈ rows := parentOf_mem_rows rows pk fkCol hpar
        have hrankp : rank p < rank row := hrank row hrow p hpar
        have hprank1 : ∀ q ∈ pending ++ [row], rank p < rank q := by
          intro q hq
          rcases List.mem_append.mp hq with hq | hq
          · have := hprank q hq
            omega
          · rcases List.mem_singleton.mp hq with rfl
            exact hrankp
        obtain ⟨hnd2, hbal2, ⟨ext2, hs2⟩, hord2, hpmem2⟩ :=
          ih p { st with visitedIds := st.visitedIds ++ [rowGet row pk] }
            (pending ++ [row]) hp_rows hcount1 hInv1
            (fun q hq => by
              rcases List.mem_append.mp hq with hq | hq
              · exact hpsub q hq
              · rcases List.mem_singleton.mp hq with rfl
                exact hrow)
            hprank1 hnd1 hbal1 hord
        have hrow_not2 : row ∉ (visitRow (buildRowMap rows pk) fkCol pk fuel p
            { st with visitedIds := st.visitedIds ++ [rowGet row pk] }).sorted := by
          intro hmem
          have hl : rowGet row pk ∈ ((visitRow (buildRowMap rows pk) fkCol pk
              fuel p { st with visitedIds :=
                st.visitedIds ++ [rowGet row pk] }).sorted).map
              (fun r => rowGet r pk) := List.mem_map_of_mem _ hmem
          have hr : rowGet row pk ∈ (pending ++ [row]).map
              (fun r => rowGet r pk) := by simp
          rw [List.map_append] at hnd2
          exact (List.disjoint_of_nodup_append hnd2) hl hr
        have hperm := (perm_shuffle (visitRow (buildRowMap rows pk) fkCol pk
          fuel p { st with visitedIds := st.visitedIds ++ [rowGet row pk] }).sorted
          pending row).map (fun r => rowGet r pk)
        refine ⟨?_, ?_, ⟨ext2 ++ [row], ?_⟩, ?_, ?_⟩
        · exact hperm.nodup_iff.mp hnd2
        · intro i
          rw [hbal2 i]
          exact hperm.mem_iff
        · show (visitRow (buildRowMap rows pk) fkCol pk fuel p _).sorted
            ++ [row] = st.sorted ++ (ext2 ++ [row])
          rw [hs2, List.append_assoc]
        · intro r' hr' p' hp'
          rcases List.mem_append.mp hr' with hr' | hr'
          · exact rowPrecedes_append (hord2 r' hr' p' hp')
          · rcases List.mem_singleton.mp hr' with rfl
            rw [hpar] at hp'
            rcases Option.some.inj hp' with rfl
            exact rowPrecedes_append_singleton hpmem2 hrow_not2
        · exact List.mem_append_right _ (List.mem_singleton_self _)

theorem foldVisit_ord (rows : List Row) (fkCol pk : String) (rank : Row → Nat)
    (hnd : (rows.map (fun r => rowGet r pk)).Nodup)
    (hrank : ∀ r ∈ rows, ∀ p,
      parentOf (buildRowMap rows pk) fkCol r = some p → rank p < rank r) :
    ∀ (todo : List Row) (st : VisitState), (∀ r ∈ todo, r ∈ rows) →
      VisitInv rows pk st →
      (∀ i, i ∈ st.visitedIds ↔
        i ∈ st.sorted.map (fun r => rowGet r pk)) →
      ParentOrdered (buildRowMap rows pk) fkCol st.sorted →
      ParentOrdered (buildRowMap rows pk) fkCol (todo.foldl
        (fun st row =>
          visitRow (buildRowMap rows pk) fkCol pk (rows.length + 1) row st)
        st).sorted := by
  intro todo
  induction todo with
  | nil =>
    intro st _ _ _ hord
    exact hord
  | cons r todo ih =>
    intro st hsub hInv hbal hord
    have hr : r ∈ rows := hsub r (List.mem_cons_self _ _)
    have hcount : unvisitedCount rows pk st < rows.length + 1 :=
      Nat.lt_succ_of_le (unvisitedCount_le rows pk st)
    obtain ⟨hInv1, _, _⟩ :=
      visitRow_spec rows fkCol pk (rows.length + 1) r st hr hcount hInv
    obtain ⟨_, hbal1, _, hord1, _⟩ :=
      visitRow_ord rows fkCol pk rank hnd hrank (rows.length + 1) r st []
        hr hcount hInv (by simp) (by simp) (by simpa using hInv.snodup)
        (by intro i; simpa using hbal i) hord
    rw [List.foldl_cons]
    exact ih (visitRow (buildRowMap rows pk) fkCol pk (rows.length + 1) r st)
      (fun q hq => hsub q (List.mem_cons_of_mem _ hq)) hInv1
      (by intro i; simpa using hbal1 i) hord1

theorem sortRows_fold_spec (rows : List Row) (fkCol pk : String)
    (out : List Row)
    (hout : out = (rows.foldl
      (fun st row =>
        visitRow (buildRowMap rows pk) fkCol pk (rows.length + 1) row st)
      (⟨[], []⟩ : VisitState)).sorted) :
    (out.map (fun r => rowGet r pk)).Nodup ∧
    (∀ r ∈ out, r ∈ rows) ∧
    (∀ r ∈ rows, rowGet r pk ∈ out.map (fun r => rowGet r pk)) ∧
    out.length = ((rows.map (fun r => rowGet r pk)).dedup).length ∧
    (¬ (rows.map (fun r => rowGet r pk)).Nodup → out.length < rows.length) ∧
    ((rows.map (fun r => rowGet r pk)).Nodup → out.Perm rows) ∧
    (∀ rank : Row → Nat, (rows.map (fun r => rowGet r pk)).Nodup →
      (∀ r ∈ rows, ∀ p, parentOf (buildRowMap rows pk) fkCol r = some p →
        rank p < rank r) →
      ParentOrdered (buildRowMap rows pk) fkCol out) := by
  have hInv0 : VisitInv rows pk ⟨[], []⟩ :=
    ⟨List.nodup_nil, by simp, by simp, by simp, by simp⟩
  obtain ⟨hInvF, ⟨ext, extv, hsF, hvF, hiffF⟩, hAll⟩ :=
    foldVisit_spec rows fkCol pk rows ⟨[], []⟩ (fun r h => h) hInv0
  -- final balance: an id is visited iff it labels an output row
  have hbalF : ∀ i, i ∈ (rows.foldl
      (fun st row =>
        visitRow (buildRowMap rows pk) fkCol pk (rows.length + 1) row st)
      (⟨[], []⟩ : VisitState)).visitedIds ↔
      i ∈ out.map (fun r => rowGet r pk) := by
    intro i
    rw [hout, hvF, hsF]
    simpa using hiffF i
  have hsnodup : (out.map (fun r => rowGet r pk)).Nodup := by
    rw [hout]
    exact hInvF.snodup
  have hssub : ∀ r ∈ out, r ∈ rows := by
    rw [hout]
    exact hInvF.ssub
  have hcover : ∀ r ∈ rows, rowGet r pk ∈ out.map (fun r => rowGet r pk) :=
    fun r hr => (hbalF _).mp (hAll r hr)
  have hmemeq : ∀ i, i ∈ out.map (fun r => rowGet r pk) ↔
      i ∈ (rows.map (fun r => rowGet r pk)).dedup := by
    intro i
    constructor
    · intro hi
      obtain ⟨r, hr, rfl⟩ := List.mem_map.mp hi
      exact List.mem_dedup.mpr (List.mem_map.mpr ⟨r, hssub r hr, rfl⟩)
    · intro hi
      obtain ⟨r, hr, rfl⟩ := List.mem_map.mp (List.mem_dedup.mp hi)
      exact hcover r hr
  have hlen : out.length = ((rows.map (fun r => rowGet r pk)).dedup).length := by
    have hperm : (out.map (fun r => rowGet r pk)).Perm
        ((rows.map (fun r => rowGet r pk)).dedup) :=
      List.Subperm.antisymm
        (hsnodup.subperm (fun i hi => (hmemeq i).mp hi))
        ((List.nodup_dedup _).subperm (fun i hi => (hmemeq i).mpr hi))
    have := hperm.length_eq
    rw [List.length_map] at this
    exact this
  refine ⟨hsnodup, hssub, hcover, hlen, ?_, ?_, ?_⟩
  · intro hnotnd
    have hsub := List.dedup_sublist (rows.map (fun r => rowGet r pk))
    have hle := hsub.length_le
    have hne : ((rows.map (fun r => rowGet r pk)).dedup).length ≠
        (rows.map (fun r => rowGet r pk)).length := by
      intro heq
      have := hsub.eq_of_length heq
      exact hnotnd (this ▸ List.nodup_dedup _)
    rw [hlen]
    rw [List.length_map] at hle hne
    omega
  · intro hnd
    have hinj : ∀ a ∈ rows, ∀ b ∈ rows, rowGet a pk = rowGet b pk → a = b :=
      fun a ha b hb h => List.inj_on_of_nodup_map hnd ha hb h
    have houtnd : out.Nodup := List.Nodup.of_map _ hsnodup
    have hrowsnd : rows.Nodup := List.Nodup.of_map _ hnd
    have hrsub : ∀ r ∈ rows, r ∈ out := by
      intro r hr
      obtain ⟨r', hr', hid⟩ := List.mem_map.mp (hcover r hr)
      have : r' = r := hinj r' (hssub r' hr') r hr hid
      exact this ▸ hr'
    exact List.Subperm.antisymm
      (houtnd.subperm (fun r hr => hssub r hr))
      (hrowsnd.subperm (fun r hr => hrsub r hr))
  · intro rank hnd hrank
    rw [hout]
    exact foldVisit_ord rows fkCol pk rank hnd hrank rows ⟨[], []⟩
      (fun r h => h) hInv0 (by simp) (by intro r hr p hp; simp at hr)

/-- **C10** (corrected).  `sortRows` does key its visited memo by the first
primary-key column, one row per distinct key value appears in the output (so
the output is strictly shorter than the input exactly when key values repeat,
and is a permutation of the input when all key values — as JS values,
`undefined` included — are pairwise distinct), and under a rank witness of
self-FK acyclicity every output row follows its parent.  However, when two
input rows share a key value it is not always the *first* such row that
survives: the `rowMap` keeps the last row per key, so a parent lookup can
surface the last duplicate instead (see the counterexample). -/
theorem claim10_amended (table : String) (rows : List Row)
    (schema : TableSchema) (fk : ForeignKeyInfo) (fks : List ForeignKeyInfo)
    (pk : String) (pks : List String)
    (hfilter : schema.foreignKeys.filter
      (fun f => f.referencedTable == table) = fk :: fks)
    (hpks : schema.primaryKeys = pk :: pks)
    (hpk : pk ≠ "") :
    ((sortRows table rows schema).map (fun r => rowGet r pk)).Nodup ∧
    (∀ r ∈ sortRows table rows schema, r ∈ rows) ∧
    (∀ r ∈ rows, rowGet r pk ∈
      (sortRows table rows schema).map (fun r => rowGet r pk)) ∧
    (sortRows table rows schema).length =
      ((rows.map (fun r => rowGet r pk)).dedup).length ∧
    (¬ (rows.map (fun r => rowGet r pk)).Nodup →
      (sortRows table rows schema).length < rows.length) ∧
    ((rows.map (fun r => rowGet r pk)).Nodup →
      (sortRows table rows schema).Perm rows) ∧
    (∀ rank : Row → Nat, (rows.map (fun r => rowGet r pk)).Nodup →
      (∀ r ∈ rows, ∀ p, parentOf (buildRowMap rows pk) fk.columnName r = some p →
        rank p < rank r) →
      ParentOrdered (buildRowMap rows pk) fk.columnName
        (sortRows table rows schema)) := by
  have hout : sortRows table rows schema = (rows.foldl
      (fun st row =>
        visitRow (buildRowMap rows pk) fk.columnName pk (rows.length + 1) row st)
      (⟨[], []⟩ : VisitState)).sorted := by
    unfold sortRows
    rw [hfilter, hpks]
    show (if pk = "" then rows
      else (rows.foldl
        (fun st row =>
          visitRow (buildRowMap rows pk) fk.columnName pk (rows.length + 1)
            row st)
        (⟨[], []⟩ : VisitState)).sorted) = _
    rw [if_neg hpk]
  exact sortRows_fold_spec rows fk.columnName pk _ hout

/-- Counterexample rows for C10: a child row whose self-FK points at a key
value carried by two distinct rows. -/
def cRowChild : Row := [("id", .vInt 2), ("parent", .vInt 1)]

def cRowA : Row := [("id", .vInt 1), ("v", .vStr "x")]

def cRowB : Row := [("id", .vInt 1), ("v", .vStr "y")]

def cTblT : TableSchema :=
  ⟨"t", ["id", "parent", "v"], ["id"], [⟨"parent", "t", "id"⟩], []⟩

/-- **C10** counterexample: with two rows sharing primary-key value 1, the
parent lookup surfaces the *last* duplicate (`cRowB`), not the first
(`cRowA`), refuting "only the first such row appears in the output"; the
output is still strictly shorter than the input. -/
theorem claim10_counterexample :
    sortRows "t" [cRowChild, cRowA, cRowB] cTblT = [cRowB, cRowChild] ∧
    rowGet cRowA "id" = rowGet cRowB "id" ∧
    cRowA ≠ cRowB ∧
    cRowA ∉ sortRows "t" [cRowChild, cRowA, cRowB] cTblT ∧
    cRowB ∈ sortRows "t" [cRowChild, cRowA, cRowB] cTblT ∧
    (sortRows "t" [cRowChild, cRowA, cRowB] cTblT).length <
      ([cRowChild, cRowA, cRowB] : List Row).length := by
  decide

/-- A parent row with key 1 for the C10 witness (distinct key values). -/
def cRowP : Row := [("id", .vInt 1)]

/-- **C10** witness: on rows with pairwise-distinct primary-key values the
amended theorem applies and yields a permutation of the input. -/
theorem claim10_witness :
    (sortRows "t" [cRowChild, cRowP] cTblT).Perm [cRowChild, cRowP] :=
  (claim10_amended "t" [cRowChild, cRowP] cTblT ⟨"parent", "t", "id"⟩ []
    "id" [] (by decide) rfl (by decide)).2.2.2.2.2.1 (by decide)

/-! ## Dependency Fetcher (`src/generator/dependency-fetcher.ts`) -/

/-- The mutable state of one `fetchDependencies` run: the `result` map, the
`toFetch` queue (table, row, depth), the instance-level `visited` set of
refKey strings, and a log of the `(referencedTable, referencedColumn, value)`
triples for which a database fetch returned a row. -/
structure FetchState where
  result : List (String × List Row)
  queue : List (String × Row × Nat)
  visited : List String
  fetchLog : List (String × String × Value)
deriving Repr

/-- The refKey string `` `${table}:${column}:${value}` `` of a fetched
triple. -/
def refKeyOf (t : String × String × Value) : String :=
  t.1 ++ ":" ++ t.2.1 ++ ":" ++ jsString t.2.2

/-- One iteration of the `for (const fk of schema.foreignKeys)` body: skip
`null`/`undefined` FK values, skip refKeys already visited, mark the refKey
visited, and when no matching row exists in `result`, fetch it, append it to
`result`, re-enqueue it one level deeper and log the fetch. -/
def processFk (db : String → String → Value → Option Row) (depth : Nat)
    (row : Row) (st : FetchState) (fk : ForeignKeyInfo) : FetchState :=
  match rowGet row fk.columnName with
  | none => st
  | some v =>
    if v = .prim .pNull then st
    else if fk.referencedTable ++ ":" ++ fk.referencedColumn ++ ":" ++
        jsString v ∈ st.visited then st
    else if ((mapGet st.result fk.referencedTable).getD []).any
        (fun r => rowGet r fk.referencedColumn == some v) then
      { st with visited := (setAdd st.visited
          (fk.referencedTable ++ ":" ++ fk.referencedColumn ++ ":" ++
            jsString v)) }
    else
      match db fk.referencedTable fk.referencedColumn v with
      | none =>
        { st with visited := (setAdd st.visited
            (fk.referencedTable ++ ":" ++ fk.referencedColumn ++ ":" ++
              jsString v)) }
      | some fr =>
        { st with
          visited := (setAdd st.visited
            (fk.referencedTable ++ ":" ++ fk.referencedColumn ++ ":" ++
              jsString v)),
          result := (mapSet st.result fk.referencedTable
            ((mapGet st.result fk.referencedTable).getD [] ++ [fr])),
          queue := st.queue ++ [(fk.referencedTable, fr, depth + 1)],
          fetchLog := (st.fetchLog ++
            [(fk.referencedTable, fk.referencedColumn, v)]) }

/-- One iteration of the `while (toFetch.length > 0)` loop: shift the front
entry, drop it at `maxDepth` (10) or when its table has no schema, otherwise
run `processFk` over the schema's foreign keys. -/
def fetchStep (db : String → String → Value → Option Row)
    (schemas : List TableSchema) (st : FetchState) : FetchState :=
  match st.queue with
  | [] => st
  | (table, row, depth) :: rest =>
    if 10 ≤ depth then { st with queue := rest }
    else
      match schemas.find? (fun s => s.tableName == table) with
      | none => { st with queue := rest }
      | some schema =>
        schema.foreignKeys.foldl (processFk db depth row)
          { st with queue := rest }

/-- The fuel-indexed queue loop. -/
def fetchLoop (db : String → String → Value → Option Row)
    (schemas : List TableSchema) : Nat → FetchState → FetchState
  | 0, st => st
  | fuel + 1, st =>
    match st.queue with
    | [] => st
    | _ :: _ => fetchLoop db schemas fuel (fetchStep db schemas st)

/-- The initial fetch queue: every known row at depth 0, in map order. -/
def initQueue (rowsByTable : List (String × List Row)) :
    List (String × Row × Nat) :=
  rowsByTable.foldl (fun acc p => acc ++ p.2.map (fun r => (p.1, r, 0))) []

/-- `DependencyFetcher.fetchDependencies`, parametrised by the database
oracle `db` (the `SELECT * FROM t WHERE c = $1 LIMIT 1` lookup, `none` for a
miss or a query error) and by the instance's `visited` set carried in from
earlier calls. -/
def fetchDependencies (db : String → String → Value → Option Row)
    (schemas : List TableSchema) (rowsByTable : List (String × List Row))
    (visited0 : List String) (fuel : Nat) : FetchState :=
  fetchLoop db schemas fuel
    ⟨rowsByTable, initQueue rowsByTable, visited0, []⟩

/-- Invariant of a `fetchDependencies` run that started with visited set
`V0`: logged refKeys are pairwise distinct, each is visited and none was in
`V0`, and `V0` stays visited. -/
def FetchInv (V0 : List String) (st : FetchState) : Prop :=
  (st.fetchLog.map refKeyOf).Nodup ∧
  (∀ k ∈ st.fetchLog.map refKeyOf, k ∈ st.visited ∧ k ∉ V0) ∧
  V0 ⊆ st.visited

theorem processFk_inv (db : String → String → Value → Option Row)
    (depth : Nat) (row : Row) (fk : ForeignKeyInfo) (V0 : List String)
    (st : FetchState) (h : FetchInv V0 st) :
    FetchInv V0 (processFk db depth row st fk) := by
  obtain ⟨hnd, hmem, hsub⟩ := h
  have hgrow : ∀ x, FetchInv V0
      { st with visited := setAdd st.visited x } :=
    fun x =>
      ⟨hnd, fun k hk => ⟨mem_setAdd.mpr (Or.inl (hmem k hk).1), (hmem k hk).2⟩,
        fun k hk => mem_setAdd.mpr (Or.inl (hsub hk))⟩
  unfold processFk
  split
  · exact ⟨hnd, hmem, hsub⟩
  next _ v _ =>
    split
    · exact ⟨hnd, hmem, hsub⟩
    split
    · exact ⟨hnd, hmem, hsub⟩
    next hknot =>
      split
      · exact hgrow _
      split
      · exact hgrow _
      next _ fr _ =>
        refine ⟨?_, ?_, ?_⟩
        · show ((st.fetchLog ++
            [(fk.referencedTable, fk.referencedColumn, v)]).map
              refKeyOf).Nodup
          rw [List.map_append, List.nodup_append]
          refine ⟨hnd, by simp, ?_⟩
          intro k hk hx
          have hxk : k = refKeyOf
              (fk.referencedTable, fk.referencedColumn, v) := by
            simpa using hx
          have hkv : k ∈ st.visited := (hmem k hk).1
          rw [hxk] at hkv
          exact hknot hkv
        · intro k hk
          show k ∈ setAdd st.visited
            (fk.referencedTable ++ ":" ++ fk.referencedColumn ++ ":" ++
              jsString v) ∧ k ∉ V0
          rw [List.map_append, List.mem_append] at hk
          rcases hk with hk | hk
          · exact ⟨mem_setAdd.mpr (Or.inl (hmem k hk).1), (hmem k hk).2⟩
          · have hxk : k = refKeyOf
                (fk.referencedTable, fk.referencedColumn, v) := by
              simpa using hk
            refine ⟨?_, ?_⟩
            · rw [hxk]
              exact mem_setAdd.mpr (Or.inr rfl)
            · rw [hxk]
              intro hV0
              exact hknot (hsub hV0)
        · intro k hk
          exact mem_setAdd.mpr (Or.inl (hsub hk))

theorem foldl_processFk_inv (db : String → String → Value → Option Row)
    (depth : Nat) (row : Row) (V0 : List String) :
    ∀ (fks : List ForeignKeyInfo) (st : FetchState), FetchInv V0 st →
      FetchInv V0 (fks.foldl (processFk db depth row) st) := by
  intro fks
  induction fks with
  | nil => exact fun st h => h
  | cons fk fks ih =>
    intro st h
    rw [List.foldl_cons]
    exact ih _ (processFk_inv db depth row fk V0 st h)

theorem fetchStep_inv (db : String → String → Value → Option Row)
    (schemas : List TableSchema) (V0 : List String) (st : FetchState)
    (h : FetchInv V0 st) : FetchInv V0 (fetchStep db schemas st) := by
  unfold fetchStep
  split
  · exact h
  · split
    · exact h
    · split
      · exact h
      · exact foldl_processFk_inv db _ _ V0 _ _ h

theorem fetchLoop_inv (db : String → String → Value → Option Row)
    (schemas : List TableSchema) (V0 : List String) :
    ∀ (fuel : Nat) (st : FetchState), FetchInv V0 st →
      FetchInv V0 (fetchLoop db schemas fuel st) := by
  intro fuel
  induction fuel with
  | zero => exact fun st h => h
  | succ fuel ih =>
    intro st h
    rw [fetchLoop]
    split
    · exact h
    · exact ih _ (fetchStep_inv db schemas V0 st h)

theorem fetchDependencies_inv (db : String → String → Value → Option Row)
    (schemas : List TableSchema) (rowsByTable : List (String × List Row))
    (V0 : List String) (fuel : Nat) :
    FetchInv V0 (fetchDependencies db schemas rowsByTable V0 fuel) :=
  fetchLoop_inv db schemas V0 fuel _ ⟨by simp, by simp, fun k hk => hk⟩

/-- Concrete scenario rows for C5/C9: orders referencing shipment 5. -/
def cOrder1 : Row := [("id", .vInt 1), ("shipment_id", .vInt 5)]

def cOrder2 : Row := [("id", .vInt 2), ("shipment_id", .vInt 5)]

def cOrder3 : Row := [("id", .vInt 7), ("shipment_id", .vInt 5)]

def cShipRow : Row := [("id", .vInt 5)]

def cOrdersSchema : TableSchema :=
  ⟨"orders", ["id", "shipment_id"], ["id"],
    [⟨"shipment_id", "shipments", "id"⟩], []⟩

def cShipmentsSchema : TableSchema := ⟨"shipments", ["id"], ["id"], [], []⟩

/-- Remote database oracle for the scenario: only shipments.id = 5 exists. -/
def cDb : String → String → Value → Option Row := fun t c v =>
  if t = "shipments" ∧ c = "id" ∧ v = .vInt 5 then some cShipRow else none

/-- **C5**: within one `fetchDependencies` run at most one database fetch is
issued per distinct (referencedTable, referencedColumn, value) triple — the
logged refKeys, hence the logged triples, are pairwise distinct for every
oracle, schema set, input map, inherited visited set and fuel.  In the
concrete orders/shipments scenario (two orders rows both referencing the
absent shipment 5) exactly one fetch is issued, the fetched row is re-enqueued
at depth 1, and the second referencing row triggers no further fetch. -/
theorem claim5_fetch_once :
    (∀ (db : String → String → Value → Option Row)
       (schemas : List TableSchema) (rowsByTable : List (String × List Row))
       (visited0 : List String) (fuel : Nat),
      ((fetchDependencies db schemas rowsByTable visited0 fuel).fetchLog.map
          refKeyOf).Nodup ∧
      (fetchDependencies db schemas rowsByTable visited0 fuel).fetchLog.Nodup) ∧
    (fetchDependencies cDb [cOrdersSchema, cShipmentsSchema]
        [("orders", [cOrder1, cOrder2])] [] 10).fetchLog =
      [("shipments", "id", .vInt 5)] ∧
    mapGet (fetchDependencies cDb [cOrdersSchema, cShipmentsSchema]
        [("orders", [cOrder1, cOrder2])] [] 10).result "shipments" =
      some [cShipRow] ∧
    (fetchStep cDb [cOrdersSchema, cShipmentsSchema]
        ⟨[("orders", [cOrder1, cOrder2])],
          initQueue [("orders", [cOrder1, cOrder2])], [], []⟩).queue =
      [("orders", cOrder2, 0), ("shipments", cShipRow, 1)] := by
  refine ⟨?_, by decide, by decide, by decide⟩
  intro db schemas rowsByTable visited0 fuel
  have h := fetchDependencies_inv db schemas rowsByTable visited0 fuel
  exact ⟨h.1, List.Nodup.of_map _ h.1⟩

/-- **C9**: the fetcher's `visited` set is instance state that is never
cleared: in any run every fetched triple's refKey is new relative to the
visited set the run started with, and the starting set stays visited — so a
triple processed in a first call is never fetched in a second call on the
same instance.  Concretely, after a first orders/shipments call, a second
call whose input rows lack the shipments row issues no fetch at all and its
result has no shipments entry: the dependency row is silently omitted. -/
theorem claim9_visited_persists :
    (∀ (db : String → String → Value → Option Row)
       (schemas : List TableSchema) (rowsByTable : List (String × List Row))
       (visited0 : List String) (fuel : Nat),
      (∀ tr ∈ (fetchDependencies db schemas rowsByTable visited0
          fuel).fetchLog, refKeyOf tr ∉ visited0) ∧
      visited0 ⊆
        (fetchDependencies db schemas rowsByTable visited0 fuel).visited) ∧
    (fetchDependencies cDb [cOrdersSchema, cShipmentsSchema]
        [("orders", [cOrder3])]
        (fetchDependencies cDb [cOrdersSchema, cShipmentsSchema]
          [("orders", [cOrder1, cOrder2])] [] 10).visited 10).fetchLog = [] ∧
    mapGet (fetchDependencies cDb [cOrdersSchema, cShipmentsSchema]
        [("orders", [cOrder3])]
        (fetchDependencies cDb [cOrdersSchema, cShipmentsSchema]
          [("orders", [cOrder1, cOrder2])] [] 10).visited 10).result
      "shipments" = none := by
  refine ⟨?_, by decide, by decide⟩
  intro db schemas rowsByTable visited0 fuel
  have h := fetchDependencies_inv db schemas rowsByTable visited0 fuel
  refine ⟨?_, h.2.2⟩
  intro tr htr
  exact (h.2.1 (refKeyOf tr) (List.mem_map_of_mem _ htr)).2

/-! ## Enrichment (`SeederGenerator.enrichRowsWithCompleteData`) -/

/-- JS object spread `{ ...a, ...b }` on row objects: keys of `a` keep their
position but take `b`'s value when `b` has the key; keys only in `b` are
appended in `b`'s order. -/
def mergeRows (a b : Row) : Row :=
  a.map (fun p => (p.1, (rowGet b p.1).getD p.2)) ++
    b.filter (fun p => (rowGet a p.1).isNone)

/-- Primary-key lookup conditions: all primary-key columns defined on the
fragment (a `null` value counts as defined), and at least one of them. -/
def pkConds (schema : TableSchema) (row : Row) :
    Option (List (String × Value)) :=
  if schema.primaryKeys = [] then none
  else
    match schema.primaryKeys.mapM
      (fun pk => (rowGet row pk).map (fun v => (pk, v))) with
    | none => none
    | some conds => some conds

/-- First unique index whose columns are all defined on the fragment and
non-empty. -/
def uniqueIndexConds : List IndexInfo → Row → Option (List (String × Value))
  | [], _ => none
  | idx :: rest, row =>
    if idx.isUnique then
      match idx.columns.mapM
        (fun c => (rowGet row c).map (fun v => (c, v))) with
      | none => uniqueIndexConds rest row
      | some conds =>
        if conds = [] then uniqueIndexConds rest row else some conds
    else uniqueIndexConds rest row

/-- Best-effort fallback: every fragment key that is defined, non-null and a
schema column. -/
def heuristicConds (schema : TableSchema) (row : Row) :
    Option (List (String × Value)) :=
  match (row.map Prod.fst).filter (fun key =>
      ((rowGet row key).isSome &&
        !((rowGet row key) == some (.prim .pNull))) &&
      schema.columns.contains key) with
  | [] => none
  | avail => some (avail.map (fun c => (c, (rowGet row c).getD .vNull)))

/-- The lookup-key selection of `enrichRowsWithCompleteData`: primary keys,
then unique indexes, then the heuristic. -/
def enrichQuery (schema : TableSchema) (row : Row) :
    Option (List (String × Value)) :=
  match pkConds schema row with
  | some conds => some conds
  | none =>
    match uniqueIndexConds schema.indexes row with
    | some conds => some conds
    | none => heuristicConds schema row

/-- Enrichment of one fragment: build the `SELECT * FROM table WHERE ... LIMIT
1` conditions, ask the database oracle `dbq`, and on a hit replace the
fragment by `{ ...row, ...result.rows[0] }`; on a miss, a query error or no
usable key the fragment is kept as is. -/
def enrichRow (dbq : String → List (String × Value) → Option Row)
    (schemas : List TableSchema) (table : String) (row : Row) : Row :=
  match schemas.find? (fun s => s.tableName == table) with
  | none => row
  | some schema =>
    match enrichQuery schema row with
    | none => row
    | some conds =>
      match dbq table conds with
      | none => row
      | some fetched => mergeRows row fetched

theorem find?_filter_none (a : Row) (k : String) (h : rowGet a k = none) :
    ∀ b : List (String × Value),
      (b.filter (fun p => (rowGet a p.1).isNone)).find?
        (fun p => p.1 == k) = b.find? (fun p => p.1 == k) := by
  intro b
  induction b with
  | nil => rfl
  | cons q b ih =>
    by_cases hk : q.1 = k
    · have hnone : rowGet a q.1 = none := hk ▸ h
      rw [List.filter_cons, if_pos (by simp [hnone]),
        List.find?_cons_of_pos _ (by simp [hk]),
        List.find?_cons_of_pos _ (by simp [hk])]
    · by_cases ha : (rowGet a q.1).isNone
      · rw [List.filter_cons, if_pos (by simpa using ha),
          List.find?_cons_of_neg _ (by simp [hk]),
          List.find?_cons_of_neg _ (by simp [hk])]
        exact ih
      · rw [List.filter_cons, if_neg (by simpa using ha),
          List.find?_cons_of_neg _ (by simp [hk])]
        exact ih

theorem rowGet_mergeRows (a b : Row) (k : String) :
    rowGet (mergeRows a b) k = (rowGet b k).or (rowGet a k) := by
  show ((mergeRows a b).find? (fun p => p.1 == k)).map (·.2) =
    (rowGet b k).or (rowGet a k)
  unfold mergeRows
  rw [List.find?_append, List.find?_map]
  cases hfa : a.find? ((fun p => p.1 == k) ∘
      (fun p => (p.1, (rowGet b p.1).getD p.2))) with
  | none =>
    have hra : rowGet a k = none := by
      show (a.find? (fun p => p.1 == k)).map (·.2) = none
      have : (a.find? (fun p => p.1 == k)) = none := hfa
      rw [this]
      rfl
    rw [find?_filter_none a k hra b]
    show (b.find? (fun p => p.1 == k)).map (·.2) =
      (rowGet b k).or (rowGet a k)
    rw [hra]
    cases hb : b.find? (fun p => p.1 == k) <;> simp [rowGet, hb]
  | some p =>
    have hpk : p.1 = k := by
      have := List.find?_some hfa
      simpa using this
    have hra : rowGet a k = some p.2 := by
      show (a.find? (fun p => p.1 == k)).map (·.2) = some p.2
      have : a.find? (fun p => p.1 == k) = some p := hfa
      rw [this]
      rfl
    show (some ((fun p => (p.1, (rowGet b p.1).getD p.2)) p)).map (·.2) =
      (rowGet b k).or (rowGet a k)
    rw [hra]
    show some ((rowGet b p.1).getD p.2) = (rowGet b k).or (some p.2)
    rw [hpk]
    cases hb : rowGet b k <;> simp [hb]

/-- **C2** (corrected).  On a hit the merge is `{ ...row, ...result.rows[0] }`
— the fetched row is spread *last*, so for every column the fetched row
carries, the merged fragment takes the **fetched** value (overwriting any
value the fragment already had); the fragment's own value survives only for
columns the fetched row lacks. -/
theorem claim2_amended (dbq : String → List (String × Value) → Option Row)
    (schemas : List TableSchema) (table : String) (row : Row)
    (schema : TableSchema) (conds : List (String × Value)) (fetched : Row)
    (hs : schemas.find? (fun s => s.tableName == table) = some schema)
    (hq : enrichQuery schema row = some conds)
    (hdb : dbq table conds = some fetched) :
    ∀ k, rowGet (enrichRow dbq schemas table row) k =
      (rowGet fetched k).or (rowGet row k) := by
  intro k
  unfold enrichRow
  rw [hs]
  show rowGet (match enrichQuery schema row with
    | none => row
    | some conds =>
      match dbq table conds with
      | none => row
      | some fetched => mergeRows row fetched) k =
    (rowGet fetched k).or (rowGet row k)
  rw [hq]
  show rowGet (match dbq table conds with
    | none => row
    | some fetched => mergeRows row fetched) k =
    (rowGet fetched k).or (rowGet row k)
  rw [hdb]
  exact rowGet_mergeRows row fetched k

/-- Counterexample fragment for C2: `{id: 7, name: 'x'}`. -/
def cFrag : Row := [("id", .vInt 7), ("name", .vStr "x")]

/-- The full row the enrichment lookup returns: `{id: 7, name: 'y'}`. -/
def cFetched : Row := [("id", .vInt 7), ("name", .vStr "y")]

def cUsersSchema : TableSchema := ⟨"users", ["id", "name"], ["id"], [], []⟩

/-- Enrichment database oracle: the `users` row with id 7 is `cFetched`. -/
def cDbq : String → List (String × Value) → Option Row := fun t conds =>
  if t = "users" ∧ conds = [("id", .vInt 7)] then some cFetched else none

/-- **C2** counterexample: the fragment already has `name = 'x'`, the lookup
hits and returns `name = 'y'`, and the merged fragment carries `'y'` — the
fragment's pre-existing value *was* overwritten. -/
theorem claim2_counterexample :
    enrichRow cDbq [cUsersSchema] "users" cFrag =
      [("id", .vInt 7), ("name", .vStr "y")] ∧
    rowGet cFrag "name" = some (.vStr "x") ∧
    rowGet (enrichRow cDbq [cUsersSchema] "users" cFrag) "name" =
      some (.vStr "y") := by
  decide

/-- **C2** witness: the amended per-column merge law at the concrete
instance, evaluated at column `name`. -/
theorem claim2_witness :
    rowGet (enrichRow cDbq [cUsersSchema] "users" cFrag) "name" =
      (rowGet cFetched "name").or (rowGet cFrag "name") :=
  claim2_amended cDbq [cUsersSchema] "users" cFrag cUsersSchema
    [("id", .vInt 7)] cFetched (by decide) (by decide) (by decide) "name"

/-! ## Structural query parser (`QueryParser` in src/analyzer/schema-analyzer.ts)

The pgsql-ast-parser AST is embedded as `Ast`, covering exactly the node
shapes and fields the engine probes.  The library's `parse` (which may throw)
is an oracle `lib : String → Except String (List Ast)`; `JSON.stringify`
(the default branch of `exprToString`) is an oracle `jsonS : Ast → String`. -/

/-- pgsql-ast-parser nodes, restricted to the fields the engine reads.
`fromTable name alias join` is a FROM item (`{type:'table', name:{name,
alias}, join?:{type, on?}}`); `selectS` is a `SelectFromStatement`
(columns are `(expr, alias?)` pairs); `withS` carries the CTE statements and
the main statement; `otherStmt` stands for any other statement kind. -/
inductive Ast where
  | ref (table : Option String) (name : String)
  | intLit (n : Int)
  | strLit (s : String)
  | boolLit (b : Bool)
  | param (name : String)
  | call (fname : String) (args : List Ast)
  | binary (op : String) (left right : Ast)
  | caseE (whens : List (Ast × Ast)) (elseE : Option Ast)
  | fromTable (name : String) (tblAlias : Option String)
      (join : Option (String × Option Ast))
  | fromStatement (stmt : Ast)
  | selectS (columns : List (Ast × Option String)) (fromItems : List Ast)
      (whereE : Option Ast) (groupBy : List Ast)
  | withS (bind : List Ast) (inStmt : Ast)
  | unionS (left right : Ast)
  | otherStmt

/-- The legacy `operator` property `extractWhereConditions` and
`exprToString` read on binary nodes: pgsql-ast-parser stores the operator in
`op`, so the probed property is absent (JS `undefined`). -/
def binaryOperatorField : Ast → Option String := fun _ => none

/-- JS `toLowerCase`/`toUpperCase` and friends, written over the character
list so that they evaluate by kernel reduction. -/
def jsToLower (s : String) : String := ⟨s.data.map Char.toLower⟩

def jsToUpper (s : String) : String := ⟨s.data.map Char.toUpper⟩

/-- JS `split('.')`. -/
def splitDot (s : String) : List String := (s.data.splitOn '.').map String.mk

/-- JS `parseInt(s, 10)` on the digits prefix; no digits (`NaN`) behaves as 0
everywhere the result is compared with `> 0`. -/
def parseIntPrefix (cs : List Char) : Nat :=
  (cs.takeWhile Char.isDigit).foldl (fun n c => n * 10 + (c.toNat - 48)) 0

def strEndsWith (s t : String) : Bool := t.data.isSuffixOf s.data

def dropRightStr (s : String) (n : Nat) : String :=
  ⟨s.data.take (s.data.length - n)⟩

/-- The aggregate function names the engine recognises. -/
def aggFunctionNames : List String :=
  ["array_agg", "count", "sum", "avg", "min", "max"]

/-- `QueryParser.exprToString` (fuel-indexed; the `default` branch is
`JSON.stringify`, the `binary` branch interpolates the absent legacy
`operator` property, which JS renders as the string `undefined`). -/
def exprToString (jsonS : Ast → String) : Nat → Ast → String
  | 0, _ => ""
  | fuel + 1, e =>
    match e with
    | .ref none n => n
    | .ref (some t) n => t ++ "." ++ n
    | .intLit n => toString n
    | .strLit s => s
    | .boolLit b => if b then "true" else "false"
    | .param n => "$" ++ (if n = "" then "?" else n)
    | .call f args =>
      f ++ "(" ++
        String.intercalate ", " (args.map (exprToString jsonS fuel)) ++ ")"
    | .binary _ l r =>
      exprToString jsonS fuel l ++ " undefined " ++ exprToString jsonS fuel r
    | e => jsonS e

/-- JS `\s` on the characters occurring in SQL text. -/
def isJsWs (c : Char) : Bool :=
  c = ' ' ∨ c = '\t' ∨ c = '\n' ∨ c = '\r'

/-- Case-insensitive literal match: consumes `pat` (given lowercase) from the
front of the input, returning the rest. -/
def matchCI : List Char → List Char → Option (List Char)
  | [], cs => some cs
  | _ :: _, [] => none
  | p :: ps, c :: cs => if c.toLower = p then matchCI ps cs else none

/-- `\s+` : at least one whitespace character, consumed greedily. -/
def skipWs1 : List Char → Option (List Char)
  | [] => none
  | c :: cs => if isJsWs c then some (cs.dropWhile isJsWs) else none

/-- Try a matcher at every position, leftmost first (regex search). -/
def searchAt {α : Type} (f : List Char → Option α) : List Char → Option α
  | [] => f []
  | c :: cs =>
    match f (c :: cs) with
    | some r => some r
    | none => searchAt f cs

/-- `/WITH\s+RECURSIVE/i` matched at the head: returns the rest after the
match. -/
def matchWithRecursive (cs : List Char) : Option (List Char) := do
  let r1 ← matchCI "with".toList cs
  let r2 ← skipWs1 r1
  matchCI "recursive".toList r2

/-- Replace the first `/WITH\s+RECURSIVE/i` by `WITH` (the sanitisation in
`QueryParser.parse`); the input is returned unchanged when there is no
match. -/
def goSanitize : List Char → Option (List Char)
  | [] => none
  | c :: cs =>
    match matchWithRecursive (c :: cs) with
    | some rest => some ("WITH".toList ++ rest)
    | none => (goSanitize cs).map (fun r => c :: r)

def sanitizeQuery (q : String) : String :=
  match goSanitize q.data with
  | some cs => String.mk cs
  | none => q

/-- `/INSERT\s+INTO\s+([^\s(]+)/i` at the head: the captured table token. -/
def matchInsertInto (cs : List Char) : Option (List Char) := do
  let r1 ← matchCI "insert".toList cs
  let r2 ← skipWs1 r1
  let r3 ← matchCI "into".toList r2
  let r4 ← skipWs1 r3
  let cap := r4.takeWhile (fun c => !isJsWs c && c ≠ '(')
  if cap = [] then none else some cap

/-- `/\s+FROM\s+([^\s;()]+)/i` at the head: the captured table token. -/
def matchFromTable (cs : List Char) : Option (List Char) := do
  let r1 ← skipWs1 cs
  let r2 ← matchCI "from".toList r1
  let r3 ← skipWs1 r2
  let cap := r3.takeWhile (fun c => !isJsWs c && c ≠ ';' && c ≠ '(' && c ≠ ')')
  if cap = [] then none else some cap

/-- `SeederGenerator.extractTableName`: the INSERT regex first, then the
FROM regex, quotes and backticks stripped from the capture. -/
def extractTableName (q : String) : Option String :=
  match searchAt matchInsertInto q.data with
  | some cap => some (String.mk (cap.filter (fun c => c ≠ '"' && c ≠ '`')))
  | none =>
    match searchAt matchFromTable q.data with
    | some cap => some (String.mk (cap.filter (fun c => c ≠ '"' && c ≠ '`')))
    | none => none

/-- One entry of `SelectColumn.caseAggregates`. -/
structure CaseAggregate where
  branch : String
  aggregateFunction : String
  aggregateColumn : Option String
  tableAlias : Option String
  isSubquery : Bool
  subqueryTable : Option String
deriving DecidableEq, Repr

structure SelectColumn where
  expression : String
  aliasName : Option String
  isAggregate : Bool
  aggregateFunction : Option String
  aggregateColumn : Option String
  tableAlias : Option String
  caseAggregates : Option (List CaseAggregate)
deriving DecidableEq, Repr

structure TableReference where
  tableName : String
  aliasName : Option String
deriving DecidableEq, Repr

structure JoinCondition where
  leftColumn : String
  rightColumn : String
  leftTable : Option String
  rightTable : Option String
deriving DecidableEq, Repr

structure JoinClause where
  joinType : String
  table : TableReference
  condition : JoinCondition
deriving DecidableEq, Repr

structure WhereCondition where
  column : String
  table : Option String
  operator : String
  value : Option Value
  paramIndex : Option Nat
deriving DecidableEq, Repr

structure ParamMapping where
  column : String
  table : Option String
  paramIndex : Nat
  operator : String
deriving DecidableEq, Repr

structure ParsedQuery where
  selectColumns : List SelectColumn
  fromTable : TableReference
  joins : List JoinClause
  groupBy : List String
  whereConditions : List WhereCondition
  paramMappings : List ParamMapping
  referencedTables : List String
deriving DecidableEq, Repr

/-- `QueryParser.extractAggregateDetails`: `(aggregateColumn, tableAlias)`
from the first argument when it is a `ref`, `{}` otherwise. -/
def extractAggregateDetails : List Ast → Option String × Option String
  | .ref table name :: _ => (some name, table)
  | _ => (none, none)

/-- `QueryParser.extractFromTable`. -/
def extractFromTable : List Ast → TableReference
  | .fromTable name al _ :: _ => ⟨name, al⟩
  | _ => ⟨"", none⟩

/-- `QueryParser.extractJoinCondition`. -/
def extractJoinCondition (jsonS : Ast → String) (fuel : Nat) :
    Option Ast → JoinCondition
  | some (.binary _ l r) =>
    -- the code formats the sides with `exprToString` and takes the table
    -- only off `ref` sides
    { leftColumn := exprToString jsonS fuel l
      rightColumn := exprToString jsonS fuel r
      leftTable := match l with | .ref t _ => t | _ => none
      rightTable := match r with | .ref t _ => t | _ => none }
  | _ => ⟨"", "", none, none⟩

/-- `QueryParser.extractJoins`: FROM items after the first that are tables
and carry a `join`. -/
def extractJoins (jsonS : Ast → String) (fuel : Nat) (fromItems : List Ast) :
    List JoinClause :=
  match fromItems with
  | [] => []
  | _ :: rest =>
    rest.filterMap (fun item =>
      match item with
      | .fromTable name al (some (jt, onE)) =>
        some { joinType := jsToUpper (if jt = "" then "INNER" else jt)
               table := ⟨name, al⟩
               condition := extractJoinCondition jsonS fuel onE }
      | _ => none)

/-- `QueryParser.parseCaseExpression`. -/
def parseCaseExpression (jsonS : Ast → String) (fuel : Nat)
    (whens : List (Ast × Ast)) (elseE : Option Ast) : SelectColumn :=
  let whenAggs : List CaseAggregate := whens.filterMap (fun w =>
    match w.2 with
    | .call f args =>
      let fn := f.toLower
      if fn ∈ aggFunctionNames then
        some ⟨"THEN", fn, (extractAggregateDetails args).1,
          (extractAggregateDetails args).2, false, none⟩
      else none
    | .selectS columns fromItems _ _ =>
      match columns with
      | (.call f args, _) :: _ =>
        -- the subquery branch pushes any call, without the aggregate check
        some ⟨"THEN", jsToLower f, (extractAggregateDetails args).1,
          (extractAggregateDetails args).2, true,
          some (extractFromTable fromItems).tableName⟩
      | _ => none
    | _ => none)
  let elseAggs : List CaseAggregate :=
    match elseE with
    | some (.call f args) =>
      let fn := jsToLower f
      if fn ∈ aggFunctionNames then
        [⟨"ELSE", fn, (extractAggregateDetails args).1,
          (extractAggregateDetails args).2, false, none⟩]
      else []
    | _ => []
  let caseAggregates := whenAggs ++ elseAggs
  { expression := exprToString jsonS fuel (.caseE whens elseE)
    aliasName := none
    isAggregate := caseAggregates ≠ []
    aggregateFunction := (caseAggregates.head?).map (·.aggregateFunction)
    aggregateColumn := (caseAggregates.head?).bind (·.aggregateColumn)
    tableAlias := (caseAggregates.head?).bind (·.tableAlias)
    caseAggregates :=
      if caseAggregates = [] then none else some caseAggregates }

/-- `QueryParser.extractSelectColumns`. -/
def extractSelectColumns (jsonS : Ast → String) (fuel : Nat)
    (columns : List (Ast × Option String)) : List SelectColumn :=
  columns.map (fun col =>
    match col.1 with
    | .ref t n =>
      ⟨exprToString jsonS fuel (.ref t n), col.2, false, none, none, none,
        none⟩
    | .call f args =>
      let fn := jsToLower f
      let isAgg := fn ∈ aggFunctionNames
      ⟨exprToString jsonS fuel (.call f args), col.2, isAgg,
        if isAgg then some fn else none,
        (extractAggregateDetails args).1, (extractAggregateDetails args).2,
        none⟩
    | .caseE whens elseE =>
      { parseCaseExpression jsonS fuel whens elseE with aliasName := col.2 }
    | e => ⟨exprToString jsonS fuel e, col.2, false, none, none, none, none⟩)

/-- `QueryParser.extractGroupBy`. -/
def extractGroupBy (jsonS : Ast → String) (fuel : Nat)
    (groupBy : List Ast) : List String :=
  groupBy.map (exprToString jsonS fuel)

/-- `QueryParser.walkExpr` flattened to the visit order (the callback sees
the node, then `left`, then `right`; no probed node carries `operands`). -/
def walkExpr : Nat → Ast → List Ast
  | 0, _ => []
  | fuel + 1, e =>
    match e with
    | .binary op l r =>
      .binary op l r :: (walkExpr fuel l ++ walkExpr fuel r)
    | e => [e]

/-- `QueryParser.extractWhereConditions`: collects binary nodes whose legacy
`operator` property equals `'='` — that property is absent on the library's
nodes, so nothing is ever collected. -/
def extractWhereConditions (fuel : Nat) : Option Ast → List WhereCondition
  | none => []
  | some w =>
    (walkExpr fuel w).filterMap (fun e =>
      match e with
      | .binary _ (.ref t n) _ =>
        if binaryOperatorField e = some "=" then
          some ⟨n, t, "=", none, none⟩
        else none
      | _ => none)

/-- `QueryParser.extractParamMappings`: `ref = parameter` binaries anywhere
in the WHERE tree; `$n` parses to `n`, anything else to 0; the operator is
`expr.op || expr.operator`. -/
def extractParamMappings (fuel : Nat) : Option Ast → List ParamMapping
  | none => []
  | some w =>
    (walkExpr fuel w).filterMap (fun e =>
      match e with
      | .binary op (.ref t n) (.param pname) =>
        some ⟨n, t,
          match pname.data with
          | '$' :: ds => parseIntPrefix ds
          | _ => 0,
          op⟩
      | _ => none)

/-- `QueryParser.extractReferencedTables` (fuel-indexed; returns the JS `Set`
as its insertion-ordered element list). -/
def extractReferencedTables : Nat → Ast → List String
  | 0, _ => []
  | fuel + 1, stmt =>
    match stmt with
    | .withS bind inStmt =>
      let t1 := bind.foldl (fun acc cte =>
        (extractReferencedTables fuel cte).foldl setAdd acc) []
      (extractReferencedTables fuel inStmt).foldl setAdd t1
    | .selectS _ fromItems _ _ =>
      fromItems.foldl (fun acc item =>
        match item with
        | .fromTable name _ _ => setAdd acc name
        | .fromStatement s =>
          (extractReferencedTables fuel s).foldl setAdd acc
        | _ => acc) []
    | .unionS l r =>
      let t1 := (extractReferencedTables fuel l).foldl setAdd []
      (extractReferencedTables fuel r).foldl setAdd t1
    | _ => []

/-- `QueryParser.parse`: sanitise, hand to the library oracle (its exception
is the `Except.error` case, caught and mapped to `null`), reject empty
results, unwrap a root `WITH`, reject non-SELECTs, and assemble the
`ParsedQuery`. -/
def parse (lib : String → Except String (List Ast)) (jsonS : Ast → String)
    (fuel : Nat) (q : String) : Option ParsedQuery :=
  match lib (sanitizeQuery q) with
  | .error _ => none
  | .ok [] => none
  | .ok (stmt0 :: _) =>
    let rootWith : Option Ast :=
      match stmt0 with | .withS b i => some (.withS b i) | _ => none
    let stmt := match stmt0 with | .withS _ i => i | s => s
    match stmt with
    | .selectS columns fromItems whereE groupBy =>
      let refTabs := extractReferencedTables fuel
        (.selectS columns fromItems whereE groupBy)
      let refTabs := match rootWith with
        | some w => (extractReferencedTables fuel w).foldl setAdd refTabs
        | none => refTabs
      some
        { selectColumns := extractSelectColumns jsonS fuel columns
          fromTable := extractFromTable fromItems
          joins := extractJoins jsonS fuel fromItems
          groupBy := extractGroupBy jsonS fuel groupBy
          whereConditions := extractWhereConditions fuel whereE
          paramMappings := extractParamMappings fuel whereE
          referencedTables := refTabs }
    | _ => none

/-! ## Column-mapping inference (`AutoColumnMapper`, second definition in
src/generator/auto-column-mapper.ts) and the mapping-driven extraction
(`SeederGenerator.processColumnMappings`). -/

structure ResultField where
  name : String
  tableID : Nat
deriving DecidableEq, Repr

structure QueryResult where
  fields : List ResultField
  rows : List Row
deriving DecidableEq, Repr

structure CapturedQuery where
  query : String
  params : List Value
  result : Option QueryResult
deriving DecidableEq, Repr

/-- `ColumnMapping` (src/types.ts) as the mapper builds it: sibling values
are JS strings (column names) or captured parameter values. -/
structure ColumnMapping where
  table : String
  column : Option String
  type : String
  siblings : List (String × Value)
deriving DecidableEq, Repr

def isIdentChar (c : Char) : Bool := c.isAlpha || c.isDigit || c = '_'

def isIdentStart (c : Char) : Bool := c.isAlpha || c = '_'

/-- The sibling-detection regex `/([a-z_][a-z0-9_]*)\s*\.\s*([a-z_][a-z0-9_]*)$/i`
applied to an expression string: the two captured identifiers around the
final dot, if the tail of the string has that shape. -/
def matchTailIdentDotIdent (s : String) : Option (String × String) :=
  let rev := s.data.reverse
  let id2rev := rev.takeWhile isIdentChar
  let rest1 := rev.dropWhile isIdentChar
  match id2rev.reverse with
  | [] => none
  | c2 :: cs2 =>
    if !isIdentStart c2 then none
    else
      match rest1.dropWhile isJsWs with
      | '.' :: rest3 =>
        let run1 := ((rest3.dropWhile isJsWs).takeWhile isIdentChar).reverse
        match run1.dropWhile (fun c => !isIdentStart c) with
        | [] => none
        | g1 => some (String.mk g1, String.mk (c2 :: cs2))
      | _ => none

/-- `AutoColumnMapper.buildAliasMap`. -/
def buildAliasMap (parsed : ParsedQuery) : List (String × String) :=
  let m := match parsed.fromTable.aliasName with
    | some a => mapSet [] a parsed.fromTable.tableName
    | none => []
  let m := mapSet m parsed.fromTable.tableName parsed.fromTable.tableName
  parsed.joins.foldl (fun m j =>
    let m := match j.table.aliasName with
      | some a => mapSet m a j.table.tableName
      | none => m
    mapSet m j.table.tableName j.table.tableName) m

/-- `AutoColumnMapper.inferArrayAggMapping`. -/
def inferArrayAggMapping (selectCol : SelectColumn) (parsed : ParsedQuery)
    (aliasMap : List (String × String)) : Option ColumnMapping :=
  match selectCol.tableAlias with
  | none => none
  | some tableAlias =>
    match mapGet aliasMap tableAlias with
    | none => none
    | some tableName =>
      match parsed.joins.find? (fun j =>
          j.table.aliasName == some tableAlias ||
          j.table.tableName == tableName) with
      | none => none
      | some join =>
        let sides : Option (Option String × Option String) :=
          if join.condition.leftTable = some tableAlias then
            some ((splitDot join.condition.leftColumn).get? 1,
              (splitDot join.condition.rightColumn).get? 1)
          else if join.condition.rightTable = some tableAlias then
            some ((splitDot join.condition.rightColumn).get? 1,
              (splitDot join.condition.leftColumn).get? 1)
          else none
        match sides with
        | some (some fkColumn, some referencedColumn) =>
          if fkColumn = "" ∨ referencedColumn = "" then none
          else
            let siblings :=
              match parsed.selectColumns.find? (fun col =>
                  !col.isAggregate &&
                  (match matchTailIdentDotIdent col.expression with
                   | some g => g.2 == referencedColumn
                   | none => false)) with
              | some col =>
                let resultColumnName := match col.aliasName with
                  | some a => a
                  | none =>
                    ((splitDot col.expression).getLast?).getD ""
                [(resultColumnName, Value.vStr fkColumn)]
              | none => []
            some ⟨tableName, selectCol.aggregateColumn, "array", siblings⟩
        | _ => none

/-- `AutoColumnMapper.extractSiblingsFromParams`. -/
def extractSiblingsFromParams (paramMappings : List ParamMapping)
    (targetTable : String) (params : List Value)
    (aliasMap : List (String × String)) : List (String × Value) :=
  paramMappings.foldl (fun siblings m =>
    let mappingTable : Option String := match m.table with
      | some t =>
        match mapGet aliasMap t with
        | some rt => some rt
        | none => some t
      | none => none
    if mappingTable = some targetTable ∧ 0 < m.paramIndex then
      match params.get? (m.paramIndex - 1) with
      | some v => mapSet siblings m.column v
      | none => siblings
    else siblings) []

/-- `AutoColumnMapper.inferMappings`: for every result field with source
table id 0, match the SELECT column by alias or expression text, then build
CASE-branch mappings (key `field_BRANCH`) or a plain `array_agg` mapping
(key `field`). -/
def inferMappings (lib : String → Except String (List Ast))
    (jsonS : Ast → String) (fuel : Nat) (query : CapturedQuery) :
    List (String × ColumnMapping) :=
  match query.result with
  | none => []
  | some res =>
    match parse lib jsonS fuel query.query with
    | none => []
    | some parsed =>
      let aliasMap := buildAliasMap parsed
      res.fields.foldl (fun mappings field =>
        if field.tableID ≠ 0 then mappings
        else
          match parsed.selectColumns.find? (fun col =>
              col.aliasName == some field.name ||
              col.expression == field.name) with
          | none => mappings
          | some selectCol =>
            if !selectCol.isAggregate then mappings
            else
              let caseAggs := selectCol.caseAggregates.getD []
              if caseAggs ≠ [] then
                caseAggs.foldl (fun mappings caseAgg =>
                  let tableName : Option String :=
                    match (if caseAgg.isSubquery then
                        caseAgg.subqueryTable else none) with
                    | some t => if t = "" then none else some t
                    | none =>
                      match caseAgg.tableAlias with
                      | some ta =>
                        if ta = "" then none else mapGet aliasMap ta
                      | none => none
                  match tableName with
                  | none => mappings
                  | some t =>
                    let mappingKey := field.name ++ "_" ++ caseAgg.branch
                    if !caseAgg.isSubquery then
                      match inferArrayAggMapping
                          { selectCol with
                            tableAlias := caseAgg.tableAlias,
                            aggregateColumn := caseAgg.aggregateColumn }
                          parsed aliasMap with
                      | some m => mapSet mappings mappingKey m
                      | none => mappings
                    else
                      mapSet mappings mappingKey
                        ⟨t, caseAgg.aggregateColumn, "array",
                          extractSiblingsFromParams parsed.paramMappings t
                            query.params aliasMap⟩) mappings
              else if selectCol.aggregateFunction = some "array_agg" ∧
                  selectCol.aggregateColumn ≠ none ∧
                  selectCol.aggregateColumn ≠ some "" then
                match inferArrayAggMapping selectCol parsed aliasMap with
                | none => mappings
                | some m =>
                  let paramSiblings := extractSiblingsFromParams
                    parsed.paramMappings m.table query.params aliasMap
                  mapSet mappings field.name
                    { m with siblings := mergeRows m.siblings paramSiblings }
              else mappings) []

/-- Strip the `/_(?:THEN|ELSE)$/` suffix of a CASE-branch mapping key. -/
def stripBranchSuffix (s : String) : String :=
  if strEndsWith s "_THEN" then dropRightStr s 5
  else if strEndsWith s "_ELSE" then dropRightStr s 5
  else s

/-- `result.get(table).push(row)` with `set(table, [])` when absent. -/
def pushRowAt (rbt : List (String × List Row)) (t : String) (r : Row) :
    List (String × List Row) :=
  mapSet rbt t ((mapGet rbt t).getD [] ++ [r])

/-- The new row `{[column]: value}` plus sibling columns (the sibling table
column, a JS value, is coerced to a string key with `String(...)`); the
mapper never sets `parentLookups`, so no `__parent` metadata is added. -/
def buildMappedRow (columnKey : String) (v : Value)
    (siblings : List (String × Value)) (row : Row) : Row :=
  siblings.foldl (fun nr sib =>
    match rowGet row sib.1 with
    | some sv => mapSet nr (jsString sib.2) sv
    | none => nr) [(columnKey, v)]

/-- `SeederGenerator.processColumnMappings`: for every result row and every
mapping, read the base column (branch suffix stripped), skip
`null`/`undefined`, and emit one fragment per array element (array mappings
on array values) or a single fragment otherwise. -/
def processColumnMappings (query : CapturedQuery)
    (columnMappings : List (String × ColumnMapping)) :
    List (String × List Row) :=
  match query.result with
  | none => []
  | some res =>
    if res.rows = [] then []
    else
      res.rows.foldl (fun rbt row =>
        columnMappings.foldl (fun rbt m =>
          let mapping := m.2
          let baseColumn := stripBranchSuffix m.1
          match rowGet row baseColumn with
          | none => rbt
          | some v =>
            if v = .prim .pNull then rbt
            else
              let columnKey := match mapping.column with
                | some c => c
                | none => "undefined"
              let ty := if mapping.type = "" then "scalar" else mapping.type
              if ty = "array" then
                match v with
                | .arr elems =>
                  elems.foldl (fun rbt2 ev =>
                    pushRowAt rbt2 mapping.table
                      (buildMappedRow columnKey (.prim ev) mapping.siblings
                        row)) rbt
                | _ =>
                  pushRowAt rbt mapping.table
                    (buildMappedRow columnKey v mapping.siblings row)
              else
                pushRowAt rbt mapping.table
                  (buildMappedRow columnKey v mapping.siblings row)) rbt) []

/-- Step 1 of `SeederGenerator.extractInserts` for one query: the identified
tables are the parser's referenced tables, or on parse failure the regex
fallback's single table. -/
def identifyTables (lib : String → Except String (List Ast))
    (jsonS : Ast → String) (fuel : Nat) (q : String) : List String :=
  match parse lib jsonS fuel q with
  | some parsed => parsed.referencedTables.foldl setAdd []
  | none =>
    match extractTableName q with
    | some t => [t]
    | none => []

/-- The library AST of the C1 worked-example query. -/
def c1Ast : Ast :=
  .selectS
    [(.ref (some "a") "code", none),
     (.call "array_agg" [.ref (some "ab") "ref_id"], some "ref_ids")]
    [.fromTable "table_a" (some "a") none,
     .fromTable "table_a_b" (some "ab")
       (some ("LEFT JOIN", some (.binary "="
         (.ref (some "ab") "table_a_id") (.ref (some "a") "id"))))]
    (some (.binary "=" (.ref (some "a") "parent_id") (.param "$1")))
    [.ref (some "a") "code"]

/-- The captured query of the C1 worked example: result row
`{code:'rec-001', ref_ids:[1,2,3]}`, bound parameter 100, `ref_ids` reported
with source-table id 0. -/
def c1Query : CapturedQuery :=
  { query := "SELECT a.code, array_agg(DISTINCT ab.ref_id) AS ref_ids FROM table_a a LEFT JOIN table_a_b ab ON ab.table_a_id = a.id WHERE a.parent_id = $1 GROUP BY a.code"
    params := [.vInt 100]
    result := some
      { fields := [⟨"code", 1⟩, ⟨"ref_ids", 0⟩]
        rows := [[("code", .vStr "rec-001"),
                  ("ref_ids", .arr [.pInt 1, .pInt 2, .pInt 3])]] } }

def c1Lib : String → Except String (List Ast) := fun q =>
  if q = c1Query.query then .ok [c1Ast] else .error "parse error"

def c1Json : Ast → String := fun _ => ""

set_option maxRecDepth 100000 in
/-- **C1**: on the spec's worked example the Column-Mapping Inferencer
produces for `ref_ids` exactly the mapping
`{table:'table_a_b', column:'ref_id', type:'array', siblings:{}}`, and
applying it during extraction yields exactly the three `table_a_b` fragments
`{ref_id:1}`, `{ref_id:2}`, `{ref_id:3}`. -/
theorem claim1_worked_example :
    inferMappings c1Lib c1Json 20 c1Query =
      [("ref_ids", ⟨"table_a_b", some "ref_id", "array", []⟩)] ∧
    processColumnMappings c1Query (inferMappings c1Lib c1Json 20 c1Query) =
      [("table_a_b",
        [[("ref_id", .vInt 1)], [("ref_id", .vInt 2)],
         [("ref_id", .vInt 3)]])] := by
  decide

/-- The WHEN branches of the C6 CASE expression: `WHEN a.flag THEN (SELECT
array_agg(b.ref_id) FROM table_b b WHERE b.parent_id = a.parent_id)`. -/
def c6Whens : List (Ast × Ast) :=
  [(.ref (some "a") "flag",
    .selectS [(.call "array_agg" [.ref (some "b") "ref_id"], none)]
      [.fromTable "table_b" (some "b") none]
      (some (.binary "=" (.ref (some "b") "parent_id")
        (.ref (some "a") "parent_id")))
      [])]

/-- The ELSE branch of the C6 CASE expression:
`array_agg(DISTINCT ab.ref_id)`. -/
def c6Else : Option Ast := some (.call "array_agg" [.ref (some "ab") "ref_id"])

set_option maxRecDepth 100000 in
/-- **C6**: parsing that CASE SELECT-list item classifies the column into
exactly two branch descriptors — a THEN branch with `isSubquery:true` and
`subqueryTable:'table_b'`, and an ELSE branch with `isSubquery:false` and
`tableAlias:'ab'` — both `array_agg` on `ref_id`. -/
theorem claim6_case_branches :
    (parseCaseExpression c1Json 20 c6Whens c6Else).caseAggregates =
      some [⟨"THEN", "array_agg", some "ref_id", some "b", true,
              some "table_b"⟩,
            ⟨"ELSE", "array_agg", some "ref_id", some "ab", false, none⟩] ∧
    (extractSelectColumns c1Json 20
        [(.caseE c6Whens c6Else, some "ref_ids")]).map
      (fun c => (c.aliasName, c.isAggregate, c.caseAggregates)) =
      [(some "ref_ids", true,
        some [⟨"THEN", "array_agg", some "ref_id", some "b", true,
                some "table_b"⟩,
              ⟨"ELSE", "array_agg", some "ref_id", some "ab", false,
                none⟩])] := by
  decide

/-- A library oracle that rejects (throws on) every query. -/
def c8ErrLib : String → Except String (List Ast) :=
  fun _ => .error "syntax error"

set_option maxRecDepth 100000 in
/-- **C8**: the structural parser never lets a library exception escape — a
library error always yields `none` — and whenever `parse` yields `none` the
pipeline's table identification falls back to the single-table regex
extraction; concretely, with a throwing library the tables for
`SELECT * FROM users WHERE id = 1` still come out as `["users"]`, and the
INSERT regex strips quotes from the captured name. -/
theorem claim8_parse_total_with_fallback :
    (∀ (lib : String → Except String (List Ast)) (jsonS : Ast → String)
       (fuel : Nat) (q e : String),
      lib (sanitizeQuery q) = .error e → parse lib jsonS fuel q = none) ∧
    (∀ (lib : String → Except String (List Ast)) (jsonS : Ast → String)
       (fuel : Nat) (q : String), parse lib jsonS fuel q = none →
      identifyTables lib jsonS fuel q =
        (match extractTableName q with
         | some t => [t]
         | none => [])) ∧
    parse c8ErrLib c1Json 20 "SELECT * FROM users WHERE id = 1" = none ∧
    identifyTables c8ErrLib c1Json 20 "SELECT * FROM users WHERE id = 1" =
      ["users"] ∧
    extractTableName "INSERT INTO \"users\" (id, name) VALUES ($1, $2)" =
      some "users" := by
  refine ⟨?_, ?_, by decide, by decide, by decide⟩
  · intro lib jsonS fuel q e he
    unfold parse
    rw [he]
  · intro lib jsonS fuel q hp
    unfold identifyTables
    rw [hp]

end SeedIt
